import Mathlib

/-!
A shallow embedding of the `Trie` class of `src/lib/trie.js` (the trie /
DAWG builder of the repository).  JavaScript strings are modelled as lists
of characters (`Str`), a JavaScript object as an insertion-ordered
association list from property names to values (`Node`), and the object
heap as an arena (`List Node`) indexed by natural-number ids, so that the
aliasing and in-place mutation of the source are represented faithfully.
JavaScript values occurring in trie nodes are numbers, strings and object
references (`Val`).  Every method of the source class is translated to a
function of the same name; methods that recurse over the object graph
(`combineSuffixNode`, `countDegree`, `collapseChains`) take an explicit
fuel argument, instantiated at call sites with `arena.length + 1`, which
bounds the depth of nested first visits exactly as the call stack does in
the source.
-/

namespace TrieHard

/-- A JavaScript string, modelled as its list of code units. -/
abbrev Str := List Char

/-- A JavaScript value stored in a trie-node property: a number, a string,
a reference to another heap object, or `undefined`. -/
inductive Val where
  | num (n : Nat)
  | str (s : Str)
  | ref (id : Nat)
  | undef
deriving DecidableEq, Repr

/-- A trie node: a JavaScript object, i.e. an insertion-ordered list of
(property name, value) pairs with pairwise distinct names.  The terminal
flag is the property named `""`; bookkeeping fields `_c`, `_d`, `_v`, `_g`
are ordinary properties, as in the source. -/
abbrev Node := List (Str × Val)

instance : Inhabited Val := ⟨Val.undef⟩

instance : Nonempty (Str × Val) := ⟨([], Val.undef)⟩

/-- Property read: `node[k]`, `none` when absent. -/
def getProp (n : Node) (k : Str) : Option Val :=
  match n.find? (fun kv => kv.1 = k) with
  | some kv => some kv.2
  | none => none

/-- Property write: `node[k] = v`.  An existing property keeps its
position in the insertion order (as in JavaScript); a new one is appended. -/
def setProp (n : Node) (k : Str) (v : Val) : Node :=
  if n.any (fun kv => kv.1 = k) then
    n.map (fun kv => if kv.1 = k then (k, v) else kv)
  else n ++ [(k, v)]

/-- Property removal: `delete node[k]`. -/
def delProp (n : Node) (k : Str) : Node :=
  n.filter (fun kv => ¬ kv.1 = k)

/-- JavaScript truthiness of a property value (`0`, `''`, `undefined` and
absence are falsy). -/
def truthy : Option Val → Bool
  | none => false
  | some (.num n) => n ≠ 0
  | some (.str s) => s ≠ []
  | some (.ref _) => true
  | some .undef => false

/-- `typeof v === 'object'`. -/
def isObj : Val → Bool
  | .ref _ => true
  | _ => false

/-- `typeof v === 'number'`. -/
def isNum : Val → Bool
  | .num _ => true
  | _ => false

/-- The id held by a reference value (`0` as a junk default; every use is
guarded by an `isObj` test, as in the source). -/
def refIdOf : Option Val → Nat
  | some (.ref i) => i
  | _ => 0

/-- The bookkeeping property names `_c`, `_d`, `_v`, `_g`. -/
def kC : Str := ['_', 'c']
def kD : Str := ['_', 'd']
def kV : Str := ['_', 'v']
def kG : Str := ['_', 'g']

/-- The whole builder state: the object heap (`arena`, node 0 being
`this.root`) plus the instance fields of the `Trie` class. -/
structure Trie where
  arena : List Node
  lastWord : Str
  suffixes : List (Str × Nat)
  cNext : Nat
  wordCount : Nat
  vCur : Nat
deriving DecidableEq, Repr

/-- `new Trie()` before any insertion: one empty root object. -/
def trie0 : Trie :=
  { arena := [[]], lastWord := [], suffixes := [], cNext := 1,
    wordCount := 0, vCur := 0 }

/-- Dereference a node id (an out-of-range id yields an empty object;
built states never produce one). -/
def getNode (t : Trie) (id : Nat) : Node :=
  t.arena.getD id []

/-- Overwrite the node stored at `id`. -/
def setNode (t : Trie) (id : Nat) (n : Node) : Trie :=
  { t with arena := t.arena.set id n }

/-- Allocate a fresh empty object (`{}`), returning its id. -/
def alloc (t : Trie) : Trie × Nat :=
  ({ t with arena := t.arena ++ [[]] }, t.arena.length)

/-- Modelled from the spec: `fns.commonPrefix` (the common-prefix utility
lives in `fns.js`, which is not part of the sources); the spec describes
it as the longest shared prefix of two strings. -/
def commonPre : Str → Str → Str
  | a :: as, b :: bs => if a = b then a :: commonPre as bs else []
  | _, _ => []

/-- A property name visible to `nodeProps`: not `''` and not starting
with `'_'`. -/
def visKey : Str → Bool
  | [] => false
  | c :: _ => c ≠ '_'

/-- Strict lexicographic order on strings by code unit, as used by the
default JavaScript `Array.prototype.sort` on the string properties. -/
def strLt : Str → Str → Bool
  | [], [] => false
  | [], _ :: _ => true
  | _ :: _, [] => false
  | a :: as, b :: bs => if a < b then true else if b < a then false else strLt as bs

/-- Sorted insertion used by `sortStrs`. -/
def insSorted (x : Str) : List Str → List Str
  | [] => [x]
  | y :: ys => if strLt y x then y :: insSorted x ys else x :: y :: ys

/-- `props.sort()`: insertion sort in lexicographic order. -/
def sortStrs : List Str → List Str
  | [] => []
  | x :: xs => insSorted x (sortStrs xs)

/-- `nodeProps(node, nodesOnly)`: the sorted list of visible property
names, restricted to object-valued properties when `nodesOnly`. -/
def nodeProps (n : Node) (nodesOnly : Bool) : List Str :=
  sortStrs ((n.filter (fun kv => visKey kv.1 && (!nodesOnly || isObj kv.2))).map (fun kv => kv.1))

/-- `isTerminal(node)`: truthiness of the `''` property. -/
def isTerminal (n : Node) : Bool :=
  truthy (getProp n [])

/-- `addTerminal(node, prop)`: a string of length ≤ 1 is stored with
value 1; a longer one becomes a single-character edge to a fresh child
holding the rest. -/
def addTerminal (t : Trie) (id : Nat) (p : Str) : Trie :=
  match p with
  | [] => setNode t id (setProp (getNode t id) [] (.num 1))
  | [c] => setNode t id (setProp (getNode t id) [c] (.num 1))
  | c :: rest =>
      let a := alloc t
      let t1 := setNode a.1 id (setProp (getNode a.1 id) [c] (.ref a.2))
      addTerminal t1 a.2 rest

/-- `_insert(word, node)` with explicit fuel (the recursion consumes at
least one character of `word` per level, so `word.length + 1` is always
sufficient; see `_insert`). -/
def insertLowF : Nat → Trie → Str → Nat → Trie
  | 0, t, _, _ => t
  | fuel + 1, t, w, id =>
    let n := getNode t id
    match (n.map (fun kv => kv.1)).find? (fun k => ¬ (commonPre w k) = []) with
    | some k =>
        let p := commonPre w k
        if k = p ∧ isObj ((getProp n k).getD .undef) then
          insertLowF fuel t (w.drop p.length) (refIdOf (getProp n k))
        else if k = w ∧ isNum ((getProp n k).getD .undef) then
          t
        else
          let a := alloc t
          let t1 := setNode a.1 a.2 (setProp (getNode a.1 a.2) (k.drop p.length) ((getProp n k).getD .undef))
          let t2 := addTerminal t1 a.2 (w.drop p.length)
          let t3 := setNode t2 id (delProp (getNode t2 id) k)
          let t4 := setNode t3 id (setProp (getNode t3 id) p (.ref a.2))
          { t4 with wordCount := t4.wordCount + 1 }
    | none =>
        let t1 := addTerminal t id w
        { t1 with wordCount := t1.wordCount + 1 }

/-- `_insert(word, node)` of the source. -/
def _insert (t : Trie) (w : Str) (id : Nat) : Trie :=
  insertLowF (w.length + 1) t w id

/-- `uniqueNode(word, other, node)` with explicit fuel (again the
recursion consumes at least one character of `word` per level). -/
def uniqueNodeF : Nat → Trie → Str → Str → Nat → Option Nat
  | 0, _, _, _, _ => none
  | fuel + 1, t, word, other, id =>
    let n := getNode t id
    match (nodeProps n true).find? (fun k => k.isPrefixOf word) with
    | some k =>
        if k.isPrefixOf other then
          uniqueNodeF fuel t (word.drop k.length) (other.drop k.length) (refIdOf (getProp n k))
        else some (refIdOf (getProp n k))
    | none => none

/-- `uniqueNode(word, other, node)`: the highest node on the path of
`word` that is not on the path of `other`. -/
def uniqueNode (t : Trie) (word other : Str) (id : Nat) : Option Nat :=
  uniqueNodeF (word.length + 1) t word other id

/-- Decimal rendering of a number, as JavaScript string conversion of the
canonical ids occurring in node signatures. -/
def natToStr (n : Nat) : Str :=
  Nat.toDigits 10 n

/-- `sig.join('-')`. -/
def joinDash (l : List Str) : Str :=
  List.intercalate ['-'] l

/-- `combineSuffixNode(node)` with fuel: returns the updated heap and the
id of the node to use in place of `node` (a previously registered node
with the same signature, when one exists).  The source mutates
`node[prop]` to the combined child while building the signature and
registers the node under its signature before assigning `_c = cNext++`. -/
def combineSuffixNode : Nat → Trie → Nat → Trie × Nat
  | 0, t, id => (t, id)
  | fuel + 1, t, id =>
    let n := getNode t id
    if truthy (getProp n kC) then (t, id)
    else
      let sig0 : List Str := if isTerminal n then [['!']] else []
      let step := fun (acc : Trie × List Str) (p : Str) =>
        let nn := getNode acc.1 id
        match getProp nn p with
        | some (.ref cid) =>
            let r := combineSuffixNode fuel acc.1 cid
            let t2 := setNode r.1 id (setProp (getNode r.1 id) p (.ref r.2))
            let cv := match getProp (getNode t2 r.2) kC with
              | some (.num m) => m
              | _ => 0
            (t2, acc.2 ++ [p, natToStr cv])
        | _ => (acc.1, acc.2 ++ [p])
      let fold := (nodeProps n false).foldl step (t, sig0)
      let sg := joinDash fold.2
      match fold.1.suffixes.find? (fun kv => kv.1 = sg) with
      | some kv => (fold.1, kv.2)
      | none =>
          let t2 := { fold.1 with suffixes := fold.1.suffixes ++ [(sg, id)] }
          let t3 := setNode t2 id (setProp (getNode t2 id) kC (.num t2.cNext))
          ({ t3 with cNext := t3.cNext + 1 }, id)

/-- The fuel supplied to the graph-recursive passes: one more than the
number of heap objects, which bounds the depth of nested first visits. -/
def graphFuel (t : Trie) : Nat :=
  t.arena.length + 1

/-- `insert(word)`: `_insert` into the root, update `lastWord`, and when
the previous word is not a prefix of the new one, canonicalize the
subtree returned by `uniqueNode` (when there is one). -/
def insert (t : Trie) (w : Str) : Trie :=
  let t1 := _insert t w 0
  let lw := t.lastWord
  let t2 := { t1 with lastWord := w }
  if commonPre w lw = lw then t2
  else
    match uniqueNode t2 lw w 0 with
    | some fid => (combineSuffixNode (graphFuel t2) t2 fid).1
    | none => t2

/-- `prepDFS()`: start a fresh visit epoch. -/
def prepDFS (t : Trie) : Trie :=
  { t with vCur := t.vCur + 1 }

/-- `visited(node)`: stamp the node with the current epoch, reporting
whether it was already stamped. -/
def visited (t : Trie) (id : Nat) : Trie × Bool :=
  let n := getNode t id
  if getProp n kV = some (.num t.vCur) then (t, true)
  else (setNode t id (setProp n kV (.num t.vCur)), false)

/-- `countDegree(node)` with fuel: initialize `_d` to 0 when absent,
increment it, and recurse into edge children on first visit. -/
def countDegree : Nat → Trie → Nat → Trie
  | 0, t, _ => t
  | fuel + 1, t, id =>
    let n := getNode t id
    let d := match getProp n kD with
      | some (.num m) => m
      | _ => 0
    let t1 := setNode t id (setProp n kD (.num (d + 1)))
    let v := visited t1 id
    if v.2 then v.1
    else
      let props := nodeProps (getNode v.1 id) true
      props.foldl (fun tt p => countDegree fuel tt (refIdOf (getProp (getNode tt id) p))) v.1

/-- `collapseChains(node)` with fuel: post-order over edge children; a
child carrying a `_g` tag (its single visible property, recorded when it
was processed) is hoisted into the parent when its in-degree is 1 or the
tag has length 1; finally the node itself is tagged with `_g` when its
snapshot had exactly one visible property and it is not terminal.
(`_g` is only ever assigned a string by this pass, so the guard
`child._g !== undefined` of the source is the `.str` match below.) -/
def collapseChains : Nat → Trie → Nat → Trie
  | 0, t, _ => t
  | fuel + 1, t, id =>
    let v := visited t id
    if v.2 then v.1
    else
      let props := nodeProps (getNode v.1 id) false
      let step := fun (acc : Trie × Str) (p : Str) =>
        let n := getNode acc.1 id
        match getProp n p with
        | some (.ref cid) =>
            let t1 := collapseChains fuel acc.1 cid
            let c := getNode t1 cid
            match getProp c kG with
            | some (.str g) =>
                if getProp c kD = some (.num 1) ∨ g.length = 1 then
                  let t2 := setNode t1 id (delProp (getNode t1 id) p)
                  let np := p ++ g
                  let t3 := setNode t2 id (setProp (getNode t2 id) np ((getProp c g).getD .undef))
                  (t3, np)
                else (t1, p)
            | _ => (t1, p)
        | _ => (acc.1, p)
      let fold := props.foldl step (v.1, [])
      let n2 := getNode fold.1 id
      if props.length = 1 ∧ ¬ isTerminal n2 then
        setNode fold.1 id (setProp n2 kG (.str fold.2))
      else fold.1

/-- `optimize()`: canonicalize from the root, count in-degrees with a
fresh epoch, then collapse chains with another fresh epoch. -/
def optimize (t : Trie) : Trie :=
  let t1 := (combineSuffixNode (graphFuel t) t 0).1
  let t2 := prepDFS t1
  let t3 := countDegree (graphFuel t2) t2 0
  let t4 := prepDFS t3
  collapseChains (graphFuel t4) t4 0

/-- `isFragment(word, node)` with fuel (each recursion step consumes the
matched visible property, which is nonempty, so `word.length + 1` is
always sufficient). -/
def isFragmentF : Nat → Trie → Str → Nat → Bool
  | 0, _, _, _ => false
  | fuel + 1, t, w, id =>
    let n := getNode t id
    if w = [] then isTerminal n
    else if getProp n w = some (.num 1) then true
    else
      match (nodeProps n true).find? (fun p => p.isPrefixOf w) with
      | some p => isFragmentF fuel t (w.drop p.length) (refIdOf (getProp n p))
      | none => false

/-- `isFragment(word, node)` of the source. -/
def isFragment (t : Trie) (w : Str) (id : Nat) : Bool :=
  isFragmentF (w.length + 1) t w id

/-- `isWord(word)`. -/
def isWord (t : Trie) (w : Str) : Bool :=
  isFragment t w 0

/-- Insert a list of words by repeated `insert` (the claims quantify over
sequences of `insert` calls). -/
def build (ws : List Str) : Trie :=
  ws.foldl insert trie0

/-- Convert a string literal to the model representation. -/
def strOf (x : String) : Str :=
  x.data

/-- The state reached by `optimize` just after `countDegree`: the
canonicalized DAWG with in-degrees counted. -/
def canonCounted (t : Trie) : Trie :=
  let t1 := (combineSuffixNode (graphFuel t) t 0).1
  let t2 := prepDFS t1
  countDegree (graphFuel t2) t2 0

/-- The state handed to `collapseChains` inside `optimize`. -/
def preCollapse (t : Trie) : Trie :=
  prepDFS (canonCounted t)

/-- The ids of the edge children of a node, in sorted label order. -/
def edgeTargets (n : Node) : List Nat :=
  (nodeProps n true).map (fun p => refIdOf (getProp n p))

/-- Depth-first collection of the node ids reachable from `id` through
edge children (the nodes of the DAWG). -/
def reachFrom : Nat → Trie → Nat → List Nat → List Nat
  | 0, _, _, seen => seen
  | fuel + 1, t, id, seen =>
      if id ∈ seen then seen
      else (edgeTargets (getNode t id)).foldl (fun s c => reachFrom fuel t c s) (seen ++ [id])

/-- The nodes of the DAWG: the ids reachable from the root. -/
def reachable (t : Trie) : List Nat :=
  reachFrom (graphFuel t) t 0 []

/-- The value of the in-degree field `_d` of a node (0 when absent). -/
def dVal (n : Node) : Nat :=
  match getProp n kD with
  | some (.num m) => m
  | _ => 0

/-- The sum of the in-degree fields over a list of node ids. -/
def sumD (t : Trie) (ids : List Nat) : Nat :=
  ids.foldl (fun a i => a + dVal (getNode t i)) 0

/-- The number of directed edges out of a list of node ids. -/
def edgeCount (t : Trie) (ids : List Nat) : Nat :=
  ids.foldl (fun a i => a + (edgeTargets (getNode t i)).length) 0

/-- The list of keys of a node. -/
def keysOf (n : Node) : List Str := n.map (fun kv => kv.1)

/-- The visible keys of a node, in insertion order. -/
def visibleKeys (n : Node) : List Str := (n.filter (fun kv => visKey kv.1)).map (fun kv => kv.1)

/-- Keys of a node are pairwise distinct (true of every JavaScript
object; maintained by `setProp` and `delProp` from the empty object). -/
def ndKeys (n : Node) : Prop := (keysOf n).Nodup

/-- First-character uniqueness of the visible properties of a node. -/
def fcu (n : Node) : Prop :=
  (visibleKeys n).Pairwise (fun a b => a.head? ≠ b.head?)

/-- `isFragment` with canonical fuel: the fuel-free membership view. -/
def isWordN (t : Trie) (id : Nat) (w : Str) : Bool :=
  isFragmentF (w.length + 1) t w id

/-- All reference values in a node point below `m`. -/
def refsLt (n : Node) (m : Nat) : Prop :=
  ∀ kv ∈ n, ∀ i, kv.2 = Val.ref i → i < m

/-- During building and canonicalization every key is a single character,
the empty string, or one of the bookkeeping names written so far. -/
def keysShape (n : Node) : Prop :=
  ∀ kv ∈ n, kv.1.length ≤ 1 ∨ kv.1 = kC ∨ kv.1 = kD ∨ kv.1 = kV

/-- Well-formedness of one node. -/
def nodeOk (m : Nat) (n : Node) : Prop :=
  ndKeys n ∧ fcu n ∧ refsLt n m ∧ keysShape n

/-- Well-formedness of a builder state, maintained by insertion,
canonicalization and in-degree counting. -/
def invB (t : Trie) : Prop :=
  0 < t.arena.length ∧ (∀ j, nodeOk t.arena.length (getNode t j)) ∧
    ∀ kv ∈ t.suffixes, kv.2 < t.arena.length

/-- Relation between a state and its evolution under `combineSuffixNode`:
well-formed, same heap size, visible keys of every node unchanged, keys
never deleted, and only `_c` keys added. -/
def combRel (t0 t' : Trie) : Prop :=
  invB t' ∧ t'.arena.length = t0.arena.length ∧
    (∀ j, visibleKeys (getNode t' j) = visibleKeys (getNode t0 j)) ∧
    (∀ j k, k ∈ keysOf (getNode t0 j) → k ∈ keysOf (getNode t' j)) ∧
    (∀ j k, k ∈ keysOf (getNode t' j) → k ∈ keysOf (getNode t0 j) ∨ k = kC)

/-- Node well-formedness used through `collapseChains` (no key-shape
restriction, since hoisting concatenates labels). -/
def nodeOkA (m : Nat) (n : Node) : Prop :=
  ndKeys n ∧ fcu n ∧ refsLt n m

/-- State well-formedness preserved by `collapseChains`. -/
def invA (t : Trie) : Prop :=
  0 < t.arena.length ∧ ∀ j, nodeOkA t.arena.length (getNode t j)

/-- Accuracy of the `_g` tags: a tagged node has exactly that single
visible property and no terminal flag. -/
def gAcc (t : Trie) : Prop :=
  ∀ j v, getProp (getNode t j) kG = some v →
    ∃ g, v = Val.str g ∧ nodeProps (getNode t j) false = [g] ∧
      isTerminal (getNode t j) = false

/-- A `_g`-tagged node has been visited in the current epoch. -/
def gStamp (t : Trie) : Prop :=
  ∀ j v, getProp (getNode t j) kG = some v →
    getProp (getNode t j) kV = some (.num t.vCur)

/-- The invariant carried through the collapse pass. -/
def goodC (t : Trie) : Prop :=
  invA t ∧ gAcc t ∧ gStamp t

/-- Membership (through any node) is unchanged for every query word free
of the bookkeeping namespace character. -/
def pres (t t' : Trie) : Prop :=
  ∀ j (w : Str), '_' ∉ w → isWordN t' j w = isWordN t j w

/-- The body of the fold inside `collapseChains`, named for reasoning. -/
def collapseStep (f : Nat) (id : Nat) (acc : Trie × Str) (p : Str) : Trie × Str :=
  let n := getNode acc.1 id
  match getProp n p with
  | some (.ref cid) =>
      let t1 := collapseChains f acc.1 cid
      let c := getNode t1 cid
      match getProp c kG with
      | some (.str g) =>
          if getProp c kD = some (.num 1) ∨ g.length = 1 then
            let t2 := setNode t1 id (delProp (getNode t1 id) p)
            let np := p ++ g
            let t3 := setNode t2 id (setProp (getNode t2 id) np ((getProp c g).getD .undef))
            (t3, np)
          else (t1, p)
      | _ => (t1, p)
  | _ => (acc.1, p)

/-- Before `countDegree` runs, no node carries a `_d` or `_v` property. -/
def noDV (t : Trie) : Prop :=
  ∀ j, getProp (getNode t j) kD = none ∧ getProp (getNode t j) kV = none

/-- `countDegree` changes only the `_d` and `_v` bookkeeping values: the
visible structure of every node is untouched. -/
def skel (t t' : Trie) : Prop :=
  t'.arena.length = t.arena.length ∧ t'.vCur = t.vCur ∧
  (∀ j b, nodeProps (getNode t' j) b = nodeProps (getNode t j) b) ∧
  (∀ j q, visKey q = true → getProp (getNode t' j) q = getProp (getNode t j) q)

/-- Sum of the in-degree fields over the whole heap. -/
def sumDAll (t : Trie) : Nat :=
  ((List.range t.arena.length).map (fun j => dVal (getNode t j))).sum

/-- Number of nodes stamped with epoch `e`. -/
def scE (t : Trie) (e : Nat) : Nat :=
  ((List.range t.arena.length).map (fun j =>
    if getProp (getNode t j) kV = some (.num e) then 1 else 0)).sum

/-- Number of edges out of the nodes stamped with epoch `e`. -/
def eSE (t : Trie) (e : Nat) : Nat :=
  ((List.range t.arena.length).map (fun j =>
    if getProp (getNode t j) kV = some (.num e) then (edgeTargets (getNode t j)).length
    else 0)).sum

/-- The nodes stamped by the current visit epoch (the nodes `countDegree`
actually visited), in id order. -/
def visitedIds (t : Trie) : List Nat :=
  (List.range t.arena.length).filter
    (fun j => decide (getProp (getNode t j) kV = some (.num t.vCur)))

/-- Closure of the edge relation from the root: the nodes of the DAWG. -/
inductive Reaches (t : Trie) : Nat → Prop where
  | root : Reaches t 0
  | step {i j : Nat} : Reaches t i → j ∈ edgeTargets (getNode t i) → Reaches t j

/-- Value discipline of building from `'_'`-free words: the terminal
property `''` always holds exactly the number 1, and every visible
property holds either the number 1 (an inline terminal) or an object
reference (an edge child). -/
def valShape (n : Node) : Prop :=
  ∀ kv ∈ n, (kv.1 = [] → kv.2 = Val.num 1) ∧
    (visKey kv.1 = true → kv.2 = Val.num 1 ∨ ∃ i, kv.2 = Val.ref i)

/-- Every node of the heap satisfies the value discipline. -/
def valsOk (t : Trie) : Prop :=
  ∀ j, valShape (getNode t j)

/-! ## Helper lemmas -/

theorem getNode_setNode_ne (t : Trie) (id j : Nat) (n : Node) (h : j ≠ id) :
    getNode (setNode t id n) j = getNode t j := by
  simp only [getNode, setNode, List.getD_eq_getElem?_getD]
  rw [List.getElem?_set_ne (fun e => h e.symm)]

theorem getNode_app_lt (t : Trie) (j : Nat) (n : Node) (h : j < t.arena.length) :
    getNode { t with arena := t.arena ++ [n] } j = getNode t j := by
  simp only [getNode, List.getD_eq_getElem?_getD]
  rw [List.getElem?_append_left h]

theorem addTerminal_getNode_of_ne :
    ∀ (p : Str) (t : Trie) (id j : Nat), j ≠ id → j < t.arena.length →
      getNode (addTerminal t id p) j = getNode t j := by
  intro p
  induction p with
  | nil =>
      intro t id j hne hlt
      simpa [addTerminal] using getNode_setNode_ne t id j _ hne
  | cons c rest ih =>
      intro t id j hne hlt
      cases rest with
      | nil => simpa [addTerminal] using getNode_setNode_ne t id j _ hne
      | cons c2 rest2 =>
          show getNode (addTerminal _ (alloc t).2 (c2 :: rest2)) j = getNode t j
          rw [ih _ _ _ (by simp [alloc]; omega) (by simp [alloc, setNode]; omega)]
          rw [getNode_setNode_ne _ _ _ _ (by simp [alloc]; omega)]
          exact getNode_app_lt t j [] hlt

theorem commonPre_nil_right (w : Str) : commonPre w [] = [] := by
  cases w <;> rfl

theorem commonPre_eq_right_iff :
    ∀ (a b : Str), commonPre a b = b ↔ b.isPrefixOf a = true := by
  intro a
  induction a with
  | nil =>
      intro b
      cases b with
      | nil => simp [commonPre, List.isPrefixOf]
      | cons x xs => simp [commonPre, List.isPrefixOf]
  | cons x xs ih =>
      intro b
      cases b with
      | nil => simp [commonPre, List.isPrefixOf]
      | cons y ys =>
          by_cases hxy : x = y
          · subst hxy
            simp [commonPre, List.isPrefixOf, ih ys]
          · simp [commonPre, List.isPrefixOf, hxy, Ne.symm hxy]

theorem addTerminal_fields :
    ∀ (p : Str) (t : Trie) (id : Nat),
      (addTerminal t id p).cNext = t.cNext ∧ (addTerminal t id p).suffixes = t.suffixes := by
  intro p
  induction p with
  | nil => intro t id; simp [addTerminal, setNode]
  | cons c rest ih =>
      intro t id
      cases rest with
      | nil => simp [addTerminal, setNode]
      | cons c2 rest2 => exact ih _ _

theorem insertLowF_fields :
    ∀ (fuel : Nat) (t : Trie) (w : Str) (id : Nat),
      (insertLowF fuel t w id).cNext = t.cNext ∧ (insertLowF fuel t w id).suffixes = t.suffixes := by
  intro fuel
  induction fuel with
  | zero => intro t w id; simp [insertLowF]
  | succ f ih =>
      intro t w id
      simp only [insertLowF]
      cases hf : ((getNode t id).map (fun kv => kv.1)).find? (fun k => ¬ (commonPre w k) = []) with
      | none => simpa using addTerminal_fields w t id
      | some k =>
          simp only []
          by_cases h1 : k = commonPre w k ∧ (isObj ((getProp (getNode t id) k).getD .undef)) = true
          · simp only [if_pos h1]
            exact ih _ _ _
          · simp only [if_neg h1]
            by_cases h2 : k = w ∧ (isNum ((getProp (getNode t id) k).getD .undef)) = true
            · simp [if_pos h2]
            · simp only [if_neg h2, setNode]
              exact ⟨(addTerminal_fields _ _ _).1, (addTerminal_fields _ _ _).2⟩

theorem setProp_cons_ne (a : Str × Val) (tl : Node) (k : Str) (v : Val) (h : ¬ a.1 = k) :
    setProp (a :: tl) k v = a :: setProp tl k v := by
  simp only [setProp, List.any_cons, decide_eq_true_eq]
  by_cases htl : tl.any (fun kv => kv.1 = k) = true
  · simp [h, htl]
  · simp [h, htl, Bool.or_eq_true]

theorem setProp_cons_eq (a : Str × Val) (tl : Node) (k : Str) (v : Val) (h : a.1 = k) :
    setProp (a :: tl) k v = (k, v) :: tl.map (fun kv => if kv.1 = k then (k, v) else kv) := by
  simp [setProp, List.any_cons, h]

theorem getProp_mapSet (tl : Node) (k k2 : Str) (v : Val) (h : ¬ k2 = k) :
    getProp (tl.map (fun kv => if kv.1 = k then (k, v) else kv)) k2 = getProp tl k2 := by
  induction tl with
  | nil => rfl
  | cons b bt ih =>
      by_cases hb : b.1 = k
      · have hb2 : ¬ b.1 = k2 := by rw [hb]; exact fun e => h e.symm
        simp only [List.map_cons, if_pos hb, getProp, List.find?]
        have : (decide (k = k2)) = false := decide_eq_false (fun e => h e.symm)
        simp only [this]
        have : (decide (b.1 = k2)) = false := decide_eq_false hb2
        simp only [this]
        exact ih
      · simp only [List.map_cons, if_neg hb, getProp, List.find?]
        cases hd : decide (b.1 = k2) with
        | true => rfl
        | false => exact ih

theorem getProp_setProp (n : Node) (k k2 : Str) (v : Val) :
    getProp (setProp n k v) k2 = if k2 = k then some v else getProp n k2 := by
  induction n with
  | nil =>
      by_cases h : k2 = k
      · simp [setProp, getProp, List.find?, h]
      · simp [setProp, getProp, List.find?, h, decide_eq_false (fun e => h (Eq.symm e))]
  | cons a tl ih =>
      by_cases ha : a.1 = k
      · rw [setProp_cons_eq a tl k v ha]
        by_cases h : k2 = k
        · simp [getProp, List.find?, h]
        · simp only [getProp, List.find?]
          have : (decide (k = k2)) = false := decide_eq_false (fun e => h e.symm)
          simp only [this]
          have h2 := getProp_mapSet tl k k2 v h
          simp only [getProp] at h2
          rw [h2, if_neg h]
          have : (decide (a.1 = k2)) = false := decide_eq_false (by rw [ha]; exact fun e => h e.symm)
          simp [getProp, List.find?, this]
      · rw [setProp_cons_ne a tl k v ha]
        by_cases h : k2 = a.1
        · simp only [getProp, List.find?, h]
          rw [if_neg ha]
          simp
        · have : (decide (a.1 = k2)) = false := decide_eq_false (fun e => h e.symm)
          simp only [getProp, List.find?, this]
          simpa [getProp] using ih

theorem delProp_cons (a : Str × Val) (tl : Node) (k : Str) :
    delProp (a :: tl) k = if a.1 = k then delProp tl k else a :: delProp tl k := by
  by_cases h : a.1 = k <;> simp [delProp, List.filter, h]

theorem getProp_delProp (n : Node) (k k2 : Str) :
    getProp (delProp n k) k2 = if k2 = k then none else getProp n k2 := by
  induction n with
  | nil => by_cases h : k2 = k <;> simp [delProp, getProp, h]
  | cons a tl ih =>
      rw [delProp_cons]
      by_cases ha : a.1 = k
      · rw [if_pos ha, ih]
        by_cases h : k2 = k
        · simp [h]
        · have : (decide (a.1 = k2)) = false := decide_eq_false (by rw [ha]; exact fun e => h e.symm)
          simp [getProp, List.find?, this]
      · rw [if_neg ha]
        by_cases h : k2 = a.1
        · have hne : ¬ k2 = k := fun e => ha (h.symm.trans e)
          simp only [getProp, List.find?, h]
          simp [hne, ha]
        · have : (decide (a.1 = k2)) = false := decide_eq_false (fun e => h e.symm)
          simp only [getProp, List.find?, this, if_neg]
          simpa [getProp] using ih


theorem keysOf_mapSet (n : Node) (k : Str) (v : Val) :
    keysOf (n.map (fun kv => if kv.1 = k then (k, v) else kv)) = keysOf n := by
  induction n with
  | nil => rfl
  | cons a tl ih =>
      by_cases ha : a.1 = k
      · simp only [keysOf, List.map_cons, if_pos ha]
        simp only [keysOf] at ih
        rw [ih, ha]
      · simp only [keysOf, List.map_cons, if_neg ha]
        simp only [keysOf] at ih
        rw [ih]

theorem visibleKeys_mapSet (n : Node) (k : Str) (v : Val) :
    visibleKeys (n.map (fun kv => if kv.1 = k then (k, v) else kv)) = visibleKeys n := by
  induction n with
  | nil => rfl
  | cons a tl ih =>
      simp only [visibleKeys] at ih ⊢
      by_cases ha : a.1 = k
      · simp only [List.map_cons, if_pos ha]
        rw [List.filter_cons, List.filter_cons]
        have hk : visKey k = visKey a.1 := by rw [ha]
        cases hv : visKey a.1 with
        | true =>
            rw [if_pos (hk.trans hv), if_pos (rfl : (true : Bool) = true)]
            simp only [List.map_cons]
            rw [ih, ha]
        | false =>
            rw [if_neg (by simp [hk.trans hv]), if_neg (by simp)]
            exact ih
      · simp only [List.map_cons, if_neg ha]
        rw [List.filter_cons, List.filter_cons]
        cases hv : visKey a.1 with
        | true =>
            rw [if_pos (rfl : (true : Bool) = true), if_pos (rfl : (true : Bool) = true)]
            simp only [List.map_cons]
            rw [ih]
        | false =>
            rw [if_neg (by simp), if_neg (by simp)]
            exact ih

theorem visibleKeys_setProp_mem (n : Node) (k : Str) (v : Val)
    (h : n.any (fun kv => kv.1 = k) = true) :
    visibleKeys (setProp n k v) = visibleKeys n := by
  simp only [setProp, if_pos h]
  exact visibleKeys_mapSet n k v

theorem visibleKeys_setProp_new (n : Node) (k : Str) (v : Val)
    (h : ¬ n.any (fun kv => kv.1 = k) = true) :
    visibleKeys (setProp n k v) =
      visibleKeys n ++ (if visKey k = true then [k] else []) := by
  simp only [setProp, if_neg h, visibleKeys, List.filter_append, List.map_append]
  cases hv : visKey k <;> simp [List.filter, hv]

theorem visibleKeys_delProp (n : Node) (k : Str) :
    visibleKeys (delProp n k) = (visibleKeys n).filter (fun x => ¬ x = k) := by
  induction n with
  | nil => rfl
  | cons a tl ih =>
      rw [delProp_cons]
      simp only [visibleKeys] at ih ⊢
      by_cases ha : a.1 = k
      · rw [if_pos ha, List.filter_cons]
        cases hv : visKey a.1 with
        | true =>
            rw [if_pos (rfl : (true : Bool) = true), List.map_cons, List.filter_cons]
            rw [show (decide ¬ (a.1 = k)) = false by simp [ha]]
            rw [if_neg (by simp)]
            exact ih
        | false =>
            rw [if_neg (by simp)]
            exact ih
      · rw [if_neg ha, List.filter_cons, List.filter_cons]
        cases hv : visKey a.1 with
        | true =>
            rw [if_pos (rfl : (true : Bool) = true), if_pos (rfl : (true : Bool) = true)]
            rw [List.map_cons, List.map_cons, List.filter_cons]
            rw [show (decide ¬ (a.1 = k)) = true by simp [ha]]
            rw [if_pos (rfl : (true : Bool) = true), ih]
        | false =>
            rw [if_neg (by simp), if_neg (by simp)]
            exact ih

theorem insSorted_perm (x : Str) (l : List Str) : (insSorted x l).Perm (x :: l) := by
  induction l with
  | nil => exact List.Perm.refl _
  | cons y ys ih =>
      by_cases h : strLt y x = true
      · simp only [insSorted, if_pos h]
        exact ((ih.cons y).trans (List.Perm.swap x y ys))
      · simp only [insSorted, if_neg h]
        exact List.Perm.refl _

theorem sortStrs_perm (l : List Str) : (sortStrs l).Perm l := by
  induction l with
  | nil => exact List.Perm.refl _
  | cons x xs ih => exact (insSorted_perm x (sortStrs xs)).trans (ih.cons x)

theorem mem_sortStrs (x : Str) (l : List Str) : x ∈ sortStrs l ↔ x ∈ l :=
  (sortStrs_perm l).mem_iff


theorem any_key_iff (n : Node) (k : Str) :
    n.any (fun kv => kv.1 = k) = true ↔ k ∈ keysOf n := by
  rw [List.any_eq_true]
  unfold keysOf
  rw [List.mem_map]
  constructor
  · rintro ⟨kv, hm, he⟩
    exact ⟨kv, hm, by simpa using he⟩
  · rintro ⟨kv, hm, he⟩
    exact ⟨kv, hm, by simpa using he⟩

theorem keysOf_setProp_mem (n : Node) (k : Str) (v : Val)
    (h : n.any (fun kv => kv.1 = k) = true) :
    keysOf (setProp n k v) = keysOf n := by
  simp only [setProp, if_pos h]
  exact keysOf_mapSet n k v

theorem keysOf_setProp_new (n : Node) (k : Str) (v : Val)
    (h : ¬ n.any (fun kv => kv.1 = k) = true) :
    keysOf (setProp n k v) = keysOf n ++ [k] := by
  simp [setProp, if_neg h, keysOf]

theorem keysOf_delProp (n : Node) (k : Str) :
    keysOf (delProp n k) = (keysOf n).filter (fun x => ¬ x = k) := by
  induction n with
  | nil => rfl
  | cons a tl ih =>
      rw [delProp_cons]
      by_cases ha : a.1 = k
      · rw [if_pos ha]
        simp only [keysOf, List.map_cons, List.filter_cons]
        rw [show (decide ¬ (a.1 = k)) = false by simp [ha]]
        rw [if_neg (by simp)]
        exact ih
      · rw [if_neg ha]
        simp only [keysOf, List.map_cons, List.filter_cons]
        rw [show (decide ¬ (a.1 = k)) = true by simp [ha]]
        rw [if_pos (rfl : (true : Bool) = true)]
        simp only [keysOf] at ih
        rw [ih]


theorem ndKeys_setProp (n : Node) (k : Str) (v : Val) (h : ndKeys n) :
    ndKeys (setProp n k v) := by
  by_cases hm : n.any (fun kv => kv.1 = k) = true
  · unfold ndKeys
    rw [keysOf_setProp_mem n k v hm]
    exact h
  · unfold ndKeys
    rw [keysOf_setProp_new n k v hm]
    have hk : k ∉ keysOf n := fun hc => hm ((any_key_iff n k).2 hc)
    simp [List.nodup_append, hk]
    exact h

theorem ndKeys_delProp (n : Node) (k : Str) (h : ndKeys n) :
    ndKeys (delProp n k) := by
  unfold ndKeys
  rw [keysOf_delProp]
  exact h.filter _

theorem getProp_eq_some_mem (n : Node) (k : Str) (v : Val)
    (h : getProp n k = some v) : (k, v) ∈ n := by
  simp only [getProp] at h
  cases hf : n.find? (fun kv => kv.1 = k) with
  | none => rw [hf] at h; exact absurd h (by simp)
  | some kv =>
      rw [hf] at h
      have hm := List.mem_of_find?_eq_some hf
      have hp := List.find?_some hf
      simp only [decide_eq_true_eq] at hp
      have he : kv = (k, v) := by
        cases kv with
        | mk k1 v1 =>
            simp only [Option.some.injEq] at h
            simp only at hp
            rw [hp]
            rw [show v1 = v from by simpa using h]
      rw [← he]
      exact hm

theorem mem_getProp_eq_some (n : Node) (k : Str) (v : Val)
    (hnd : ndKeys n) (h : (k, v) ∈ n) : getProp n k = some v := by
  induction n with
  | nil => simp at h
  | cons a tl ih =>
      rcases List.mem_cons.1 h with he | hm
      · simp [getProp, List.find?, ← he]
      · have hndtl : ndKeys tl := by
          unfold ndKeys at hnd ⊢
          simp only [keysOf, List.map_cons, List.nodup_cons] at hnd
          exact hnd.2
        have hane : ¬ a.1 = k := by
          intro he2
          unfold ndKeys at hnd
          simp only [keysOf, List.map_cons, List.nodup_cons] at hnd
          apply hnd.1
          rw [he2]
          exact List.mem_map.2 ⟨(k, v), hm, rfl⟩
        simp only [getProp, List.find?, decide_eq_false hane]
        simpa [getProp] using ih hndtl hm

theorem getProp_none_iff (n : Node) (k : Str) :
    getProp n k = none ↔ k ∉ keysOf n := by
  simp only [getProp]
  cases hf : n.find? (fun kv => kv.1 = k) with
  | none =>
      simp only []
      constructor
      · intro _ hk
        rcases List.mem_map.1 hk with ⟨kv, hm, he⟩
        have := List.find?_eq_none.1 hf kv hm
        simp [he] at this
      · intro _
        exact trivial
  | some kv =>
      simp only []
      constructor
      · intro h; exact absurd h (by simp)
      · intro hk
        exfalso
        have hm := List.mem_of_find?_eq_some hf
        have hp := List.find?_some hf
        simp only [decide_eq_true_eq] at hp
        exact hk (List.mem_map.2 ⟨kv, hm, hp⟩)

theorem mem_nodeProps_iff (n : Node) (b : Bool) (q : Str) :
    q ∈ nodeProps n b ↔
      ∃ v, (q, v) ∈ n ∧ visKey q = true ∧ (b = true → isObj v = true) := by
  unfold nodeProps
  rw [mem_sortStrs, List.mem_map]
  constructor
  · rintro ⟨kv, hm, he⟩
    rw [List.mem_filter] at hm
    rcases hm with ⟨hmem, hcond⟩
    have h1 : visKey kv.1 = true := by
      revert hcond
      cases hv : visKey kv.1 <;> simp
    have h2 : b = true → isObj kv.2 = true := by
      intro hb
      subst hb
      revert hcond
      cases ho : isObj kv.2 <;> simp [h1]
    refine ⟨kv.2, ?_, he ▸ h1, h2⟩
    rw [show (q, kv.2) = kv from by rw [← he]]
    exact hmem
  · rintro ⟨v, hm, hvk, hobj⟩
    refine ⟨(q, v), ?_, rfl⟩
    rw [List.mem_filter]
    refine ⟨hm, ?_⟩
    cases b with
    | true => simp [hvk, hobj rfl]
    | false => simp [hvk]

theorem visKey_ne_nil (q : Str) (h : visKey q = true) : q ≠ [] := by
  cases q with
  | nil => simp [visKey] at h
  | cons c r => simp


theorem fcu_nodeProps (n : Node) (b : Bool) (h : fcu n) :
    (nodeProps n b).Pairwise (fun a b => a.head? ≠ b.head?) := by
  unfold nodeProps
  have hsub : (n.filter (fun kv => visKey kv.1 && (!b || isObj kv.2))).Sublist
      (n.filter (fun kv => visKey kv.1)) :=
    List.monotone_filter_right n (fun kv hkv => by
      revert hkv
      cases hv : visKey kv.1 <;> simp)
  have hpw : ((n.filter (fun kv => visKey kv.1 && (!b || isObj kv.2))).map (fun kv => kv.1)).Pairwise
      (fun a b => a.head? ≠ b.head?) := by
    unfold fcu visibleKeys at h
    exact List.Pairwise.sublist (hsub.map (fun kv => kv.1)) h
  exact ((sortStrs_perm _).pairwise_iff (fun hh => Ne.symm hh)).2 hpw


theorem commonPre_pre_left : ∀ (a b : Str), (commonPre a b).isPrefixOf a = true := by
  intro a
  induction a with
  | nil => intro b; cases b <;> simp [commonPre, List.isPrefixOf]
  | cons x xs ih =>
      intro b
      cases b with
      | nil => simp [commonPre, List.isPrefixOf]
      | cons y ys =>
          by_cases h : x = y
          · simp [commonPre, h, List.isPrefixOf, ih ys]
          · simp [commonPre, h, List.isPrefixOf]

theorem commonPre_length_le (a b : Str) : (commonPre a b).length ≤ a.length := by
  have h := commonPre_pre_left a b
  rw [List.isPrefixOf_iff_prefix] at h
  exact h.length_le

theorem commonPre_head : ∀ (a b : Str), commonPre a b ≠ [] →
    (commonPre a b).head? = a.head? ∧ a.head? = b.head? := by
  intro a b
  cases a with
  | nil => intro h; exact absurd rfl h
  | cons x xs =>
      cases b with
      | nil => intro h; exact absurd rfl h
      | cons y ys =>
          by_cases hxy : x = y
          · intro _
            simp [commonPre, hxy]
          · intro h
            exact absurd (by simp [commonPre, hxy]) h

theorem commonPre_drop : ∀ (a b : Str),
    commonPre (a.drop (commonPre a b).length) (b.drop (commonPre a b).length) = [] := by
  intro a
  induction a with
  | nil => intro b; cases b <;> simp [commonPre]
  | cons x xs ih =>
      intro b
      cases b with
      | nil => simp [commonPre]
      | cons y ys =>
          by_cases hxy : x = y
          · simp only [commonPre, if_pos hxy, List.length_cons, List.drop_succ_cons]
            exact ih ys
          · simp only [commonPre, if_neg hxy, List.length_nil, List.drop_zero]

theorem commonPre_nil_iff : ∀ (a b : Str),
    commonPre a b = [] ↔ (a = [] ∨ b = [] ∨ a.head? ≠ b.head?) := by
  intro a b
  cases a with
  | nil => simp [commonPre]
  | cons x xs =>
      cases b with
      | nil => simp [commonPre]
      | cons y ys =>
          by_cases hxy : x = y
          · simp [commonPre, hxy]
          · simp [commonPre, hxy]

theorem pre_head (x u : Str) (hx : x ≠ []) (h : x.isPrefixOf u = true) :
    x.head? = u.head? := by
  rw [List.isPrefixOf_iff_prefix] at h
  rcases h with ⟨r, hr⟩
  cases x with
  | nil => exact absurd rfl hx
  | cons c cs => rw [← hr]; rfl

theorem find?_pre_unique (l : List Str) (u : Str)
    (hpw : l.Pairwise (fun a b => a.head? ≠ b.head?))
    (hne : ∀ x ∈ l, x ≠ []) (q : Str) (hq : q ∈ l) (hpre : q.isPrefixOf u = true) :
    l.find? (fun x => x.isPrefixOf u) = some q := by
  induction l with
  | nil => simp at hq
  | cons x xs ih =>
      rcases List.mem_cons.1 hq with he | hm
      · subst he
        simp [List.find?, hpre]
      · have hx : ¬ x.isPrefixOf u = true := by
          intro hxp
          have hxh : x.head? = u.head? :=
            pre_head x u (hne x (List.mem_cons_self x xs)) hxp
          have hqh : q.head? = u.head? :=
            pre_head q u (hne q (List.mem_cons_of_mem x hm)) hpre
          exact (List.pairwise_cons.1 hpw).1 q hm (hxh.trans hqh.symm)
        simp only [List.find?, Bool.not_eq_true] at hx ⊢
        rw [hx]
        exact ih (List.pairwise_cons.1 hpw).2
          (fun y hy => hne y (List.mem_cons_of_mem x hy)) hm


theorem nodeProps_find?_facts (n : Node) (u p : Str)
    (hf : (nodeProps n true).find? (fun x => x.isPrefixOf u) = some p) :
    p ≠ [] ∧ p.isPrefixOf u = true := by
  have hm := List.mem_of_find?_eq_some hf
  have hp := List.find?_some hf
  rcases (mem_nodeProps_iff n true p).1 hm with ⟨v, _, hvk, _⟩
  exact ⟨visKey_ne_nil p hvk, hp⟩

theorem isFragmentF_fuel : ∀ (f1 : Nat) (w : Str) (f2 : Nat) (t : Trie) (id : Nat),
    w.length < f1 → w.length < f2 →
    isFragmentF f1 t w id = isFragmentF f2 t w id := by
  intro f1
  induction f1 with
  | zero => intro w f2 t id h1; omega
  | succ g ih =>
      intro w f2 t id h1 h2
      cases f2 with
      | zero => omega
      | succ h =>
          simp only [isFragmentF]
          by_cases hw : w = []
          · simp [hw]
          · rw [if_neg hw, if_neg hw]
            by_cases hgp : getProp (getNode t id) w = some (.num 1)
            · rw [if_pos hgp, if_pos hgp]
            · rw [if_neg hgp, if_neg hgp]
              cases hf : (nodeProps (getNode t id) true).find? (fun p => p.isPrefixOf w) with
              | none => rfl
              | some p =>
                  rcases nodeProps_find?_facts _ _ _ hf with ⟨hpne, hpre⟩
                  have hlt : (w.drop p.length).length < w.length := by
                    rw [List.length_drop]
                    have hple : p.length ≤ w.length := by
                      rw [List.isPrefixOf_iff_prefix] at hpre
                      exact hpre.length_le
                    have : 0 < p.length := List.length_pos.2 hpne
                    omega
                  exact ih (w.drop p.length) h t (refIdOf (getProp (getNode t id) p))
                    (by omega) (by omega)

theorem isWordN_unfold (t : Trie) (id : Nat) (w : Str) :
    isWordN t id w =
      (if w = [] then isTerminal (getNode t id)
       else if getProp (getNode t id) w = some (.num 1) then true
       else
         match (nodeProps (getNode t id) true).find? (fun p => p.isPrefixOf w) with
         | some p => isWordN t (refIdOf (getProp (getNode t id) p)) (w.drop p.length)
         | none => false) := by
  show isFragmentF (w.length + 1) t w id = _
  simp only [isFragmentF]
  by_cases hw : w = []
  · simp [hw]
  · rw [if_neg hw, if_neg hw]
    by_cases hgp : getProp (getNode t id) w = some (.num 1)
    · rw [if_pos hgp, if_pos hgp]
    · rw [if_neg hgp, if_neg hgp]
      cases hf : (nodeProps (getNode t id) true).find? (fun p => p.isPrefixOf w) with
      | none => rfl
      | some p =>
          rcases nodeProps_find?_facts _ _ _ hf with ⟨hpne, hpre⟩
          have hple : p.length ≤ w.length := by
            rw [List.isPrefixOf_iff_prefix] at hpre
            exact hpre.length_le
          have hppos : 0 < p.length := List.length_pos.2 hpne
          apply isFragmentF_fuel
          · rw [List.length_drop]; omega
          · rw [List.length_drop]; omega

theorem isWord_eq_isWordN (t : Trie) (w : Str) : isWord t w = isWordN t 0 w := rfl

/-! ## Claim theorems -/

/-- C9: inserting the empty string marks the root terminal: after building
from the word set containing only the empty string, the root carries the
terminal flag, `isWord ""` is true and `isWord "x"` is false. -/
theorem C9_empty_word_marks_root :
    isTerminal (getNode (build [strOf ""]) 0) = true ∧
    isWord (build [strOf ""]) (strOf "") = true ∧
    isWord (build [strOf ""]) (strOf "x") = false := by
  decide

/-- C5 counterexample: the claim says a word containing a reserved
character is rejected with an `InvalidInput` error at insert time, but
`insert` contains no validation at all: the word "a!b", which contains
the terminal marker `!`, is accepted, stored (it is a member afterwards)
and counted. -/
theorem C5_counterexample_no_error_on_reserved :
    isWord (build [strOf "a!b"]) (strOf "a!b") = true ∧
    (build [strOf "a!b"]).wordCount = 1 := by
  decide

/-- C5 amended: the builder performs no validation whatsoever; words
containing the reserved characters (terminal marker `!`, node separator
`;`) or characters outside the packed alphabet are inserted silently like
any other word, and become members. -/
theorem C5_amended_no_validation :
    isWord (build [strOf "a!b", strOf "c;d"]) (strOf "a!b") = true ∧
    isWord (build [strOf "a!b", strOf "c;d"]) (strOf "c;d") = true ∧
    (build [strOf "a!b", strOf "c;d"]).wordCount = 2 := by
  decide

/-- C2 (code bug): `combineSuffixNode` builds node signatures by joining
labels and child canonical ids with `-`, which is ambiguous: after
building from ["x1c", "y1", "y2", "z11c"], the node for the suffixes of
"z" has signature "1-2" (label "1", child id 2), identical to the
signature of the node for the suffixes of "y" (inline terminals "1" and
"2"), so canonicalization replaces one by the other even though they
denote different suffix sets: "z11c" is a member before `combineSuffixNode`
and is no longer one after, while the ghost word "z1" becomes a member. -/
theorem C2_codebug_signature_collision :
    isWord (build [strOf "x1c", strOf "y1", strOf "y2", strOf "z11c"]) (strOf "z11c") = true ∧
    isWord (combineSuffixNode (graphFuel (build [strOf "x1c", strOf "y1", strOf "y2", strOf "z11c"]))
        (build [strOf "x1c", strOf "y1", strOf "y2", strOf "z11c"]) 0).1 (strOf "z11c") = false ∧
    isWord (combineSuffixNode (graphFuel (build [strOf "x1c", strOf "y1", strOf "y2", strOf "z11c"]))
        (build [strOf "x1c", strOf "y1", strOf "y2", strOf "z11c"]) 0).1 (strOf "z1") = true := by
  decide

/-- C1 counterexample: `collapseChains` does change `isWord` for some
query word.  `isFragment` reads properties of the node without filtering
out the bookkeeping fields, so the visit marker `_v` acts as a ghost
word: after `countDegree` every visited node has `_v = 1`, hence
`isWord "_v"` is true just before `collapseChains` runs inside
`optimize`, and false afterwards (the collapse pass re-stamps `_v = 2`). -/
theorem C1_counterexample_ghost_word :
    isWord (preCollapse (build [strOf "ab"])) (strOf "_v") = true ∧
    isWord (optimize (build [strOf "ab"])) (strOf "_v") = false := by
  decide

/-- C3 counterexample: after `countDegree` the sum of the `_d` fields
over the reachable nodes exceeds the number of directed edges by one,
because the initial call on the root also increments `_d`.  For the
one-word set ["a"] the DAWG is the root alone: zero edges, but the
in-degree sum is 1. -/
theorem C3_counterexample_sum_exceeds_edges :
    sumD (canonCounted (build [strOf "a"])) (reachable (canonCounted (build [strOf "a"]))) = 1 ∧
    edgeCount (canonCounted (build [strOf "a"])) (reachable (canonCounted (build [strOf "a"]))) = 0 := by
  decide

/-- C4 counterexample: `collapseChains` also fuses a child that has no
outgoing edge at all: after building from ["ab"], the child node reached
by the edge "a" carries the single inline terminal "b" (zero edge
children), yet the collapse pass deletes the edge "a" and installs the
inline terminal "ab" on the root — the child was fused although it does
not have "exactly one outgoing edge (to a child node)". -/
theorem C4_counterexample_inline_singleton_fused :
    edgeTargets (getNode (preCollapse (build [strOf "ab"])) 1) = [] ∧
    getProp (getNode (preCollapse (build [strOf "ab"])) 1) (strOf "b") = some (.num 1) ∧
    isTerminal (getNode (preCollapse (build [strOf "ab"])) 1) = false ∧
    getProp (getNode (optimize (build [strOf "ab"])) 0) (strOf "ab") = some (.num 1) ∧
    getProp (getNode (optimize (build [strOf "ab"])) 0) (strOf "a") = none := by
  decide

/-- C10: a word of length at least 2 starting with `'_'` is accepted by
`insert` (which creates the edge `"_"` on the root), but `isWord` answers
false immediately afterwards, because `nodeProps` — used by the traversal
— skips every property whose name begins with `'_'`, the namespace of the
bookkeeping fields. -/
theorem C10_underscore_word_lost (w : Str) (h2 : 2 ≤ w.length) (hh : w.head? = some '_') :
    isWord (insert trie0 w) w = false := by
  cases w with
  | nil => simp at hh
  | cons a tail =>
      have ha : a = '_' := by simpa using hh
      subst ha
      cases tail with
      | nil => simp at h2
      | cons c rest =>
          have hins : insert trie0 ('_' :: c :: rest) =
              { addTerminal trie0 0 ('_' :: c :: rest) with
                  wordCount := (addTerminal trie0 0 ('_' :: c :: rest)).wordCount + 1,
                  lastWord := '_' :: c :: rest } := by
            simp only [insert, _insert]
            rw [if_pos]
            · rfl
            · exact commonPre_nil_right _
          have hroot : getNode (insert trie0 ('_' :: c :: rest)) 0 = [(['_'], .ref 1)] := by
            rw [hins]
            show getNode (addTerminal trie0 0 ('_' :: c :: rest)) 0 = _
            show getNode (addTerminal _ 1 (c :: rest)) 0 = _
            rw [addTerminal_getNode_of_ne _ _ _ _ (by omega) (by decide)]
            rfl
          show isFragmentF _ _ _ 0 = false
          rw [show (('_' :: c :: rest).length + 1) = (rest.length + 2) + 1 by simp]
          simp only [isFragmentF, hroot]
          have hne : ¬ (['_'] : Str) = '_' :: c :: rest := by simp
          simp [getProp, nodeProps, visKey, List.find?, hne]

/-- C10 witness: the concrete word "_a". -/
theorem C10_witness :
    2 ≤ (strOf "_a").length ∧ (strOf "_a").head? = some '_' ∧
      isWord (insert trie0 (strOf "_a")) (strOf "_a") = false :=
  ⟨by decide, by decide, C10_underscore_word_lost (strOf "_a") (by decide) (by decide)⟩

/-- C7: `insert` freezes nothing when the previous word is a prefix of
the new one (in particular the canonical-id counter and the signature
registry are untouched), and otherwise applies the canonicalizer exactly
to the node returned by `uniqueNode(lastWord, word, root)` when that node
exists; the test `commonPrefix(word, lastWord) === lastWord` of the
source agrees with "`lastWord` is a prefix of `word`". -/
theorem C7_freeze_handoff (t : Trie) (w : Str) :
    (insert t w =
       if commonPre w t.lastWord = t.lastWord then
         { _insert t w 0 with lastWord := w }
       else
         match uniqueNode { _insert t w 0 with lastWord := w } t.lastWord w 0 with
         | some fid =>
             (combineSuffixNode (graphFuel { _insert t w 0 with lastWord := w })
               { _insert t w 0 with lastWord := w } fid).1
         | none => { _insert t w 0 with lastWord := w }) ∧
    (commonPre w t.lastWord = t.lastWord ↔ t.lastWord.isPrefixOf w = true) ∧
    (t.lastWord.isPrefixOf w = true →
       (insert t w).cNext = t.cNext ∧ (insert t w).suffixes = t.suffixes) := by
  refine ⟨rfl, commonPre_eq_right_iff w t.lastWord, ?_⟩
  intro hp
  have hc : commonPre w t.lastWord = t.lastWord := (commonPre_eq_right_iff w t.lastWord).2 hp
  simp only [insert, if_pos hc]
  exact ⟨(insertLowF_fields _ _ _ _).1, (insertLowF_fields _ _ _ _).2⟩

/-- C7 witness: inserting "ab" after "a" (prefix case). -/
theorem C7_witness :
    (insert (build [strOf "a"]) (strOf "ab") =
       if commonPre (strOf "ab") (build [strOf "a"]).lastWord = (build [strOf "a"]).lastWord then
         { _insert (build [strOf "a"]) (strOf "ab") 0 with lastWord := strOf "ab" }
       else
         match uniqueNode { _insert (build [strOf "a"]) (strOf "ab") 0 with lastWord := strOf "ab" }
             (build [strOf "a"]).lastWord (strOf "ab") 0 with
         | some fid =>
             (combineSuffixNode (graphFuel { _insert (build [strOf "a"]) (strOf "ab") 0 with lastWord := strOf "ab" })
               { _insert (build [strOf "a"]) (strOf "ab") 0 with lastWord := strOf "ab" } fid).1
         | none => { _insert (build [strOf "a"]) (strOf "ab") 0 with lastWord := strOf "ab" }) ∧
    (commonPre (strOf "ab") (build [strOf "a"]).lastWord = (build [strOf "a"]).lastWord ↔
      (build [strOf "a"]).lastWord.isPrefixOf (strOf "ab") = true) ∧
    ((build [strOf "a"]).lastWord.isPrefixOf (strOf "ab") = true →
       (insert (build [strOf "a"]) (strOf "ab")).cNext = (build [strOf "a"]).cNext ∧
       (insert (build [strOf "a"]) (strOf "ab")).suffixes = (build [strOf "a"]).suffixes) :=
  C7_freeze_handoff (build [strOf "a"]) (strOf "ab")

end TrieHard
namespace TrieHard

theorem nodeOk_nil (m : Nat) : nodeOk m [] := by
  refine ⟨List.nodup_nil, List.Pairwise.nil, ?_, ?_⟩ <;> intro kv hkv <;> simp at hkv

theorem nodeOk_mono (m m' : Nat) (n : Node) (h : m ≤ m') (hok : nodeOk m n) :
    nodeOk m' n :=
  ⟨hok.1, hok.2.1, fun kv hkv i hi => lt_of_lt_of_le (hok.2.2.1 kv hkv i hi) h, hok.2.2.2⟩

theorem getD_set_self (l : List Node) :
    ∀ (i : Nat) (n : Node), (l.set i n).getD i [] =
      if i < l.length then n else l.getD i [] := by
  induction l with
  | nil => intro i n; simp [List.getD]
  | cons a tl ih =>
      intro i n
      cases i with
      | zero => simp [List.set, List.getD]
      | succ i2 =>
          simp only [List.set, List.getD_cons_succ, List.length_cons]
          rw [ih i2 n]
          by_cases h : i2 < tl.length
          · rw [if_pos h, if_pos (by omega)]
          · rw [if_neg h, if_neg (by omega)]

theorem getD_ge (l : List Node) : ∀ (j : Nat), l.length ≤ j → l.getD j [] = [] := by
  induction l with
  | nil => intro j h; simp [List.getD]
  | cons a tl ih =>
      intro j h
      cases j with
      | zero => simp at h
      | succ j2 => simpa [List.getD] using ih j2 (by simpa using h)

theorem getNode_setNode (t : Trie) (id j : Nat) (n : Node) :
    getNode (setNode t id n) j =
      if j = id ∧ j < t.arena.length then n else getNode t j := by
  by_cases hj : j = id
  · subst hj
    simp only [getNode, setNode]
    rw [getD_set_self t.arena j n]
    by_cases hlt : j < t.arena.length
    · simp [hlt, getNode]
    · simp [hlt, getNode]
  · rw [if_neg (fun hc => hj hc.1)]
    exact getNode_setNode_ne t id j n hj

theorem getNode_alloc (t : Trie) (j : Nat) :
    getNode (alloc t).1 j = getNode t j := by
  by_cases h : j < t.arena.length
  · exact getNode_app_lt t j [] h
  · show (t.arena ++ [[]]).getD j [] = t.arena.getD j []
    rw [getD_ge t.arena j (by omega)]
    by_cases he : j = t.arena.length
    · subst he
      rw [List.getD_eq_getElem?_getD, List.getElem?_append_right (le_refl _)]
      simp
    · rw [getD_ge _ j (by simp; omega)]

theorem mem_setProp (n : Node) (k : Str) (v : Val) (kv : Str × Val)
    (h : kv ∈ setProp n k v) : kv = (k, v) ∨ kv ∈ n := by
  unfold setProp at h
  by_cases hm : n.any (fun kv => kv.1 = k) = true
  · rw [if_pos hm] at h
    rcases List.mem_map.1 h with ⟨kv2, hkv2, he⟩
    by_cases h2 : kv2.1 = k
    · left; rw [← he]; simp [h2]
    · right; rw [← he]; simpa [h2] using hkv2
  · rw [if_neg hm] at h
    rcases List.mem_append.1 h with h2 | h2
    · right; exact h2
    · left; simpa using h2

theorem mem_delProp (n : Node) (k : Str) (kv : Str × Val)
    (h : kv ∈ delProp n k) : kv ∈ n :=
  List.mem_of_mem_filter h

theorem visibleKeys_subset_keysOf (n : Node) (q : Str) (h : q ∈ visibleKeys n) :
    q ∈ keysOf n := by
  rcases List.mem_map.1 h with ⟨kv, hkv, he⟩
  exact List.mem_map.2 ⟨kv, List.mem_of_mem_filter hkv, he⟩

theorem visibleKeys_setProp_invis (n : Node) (k : Str) (v : Val)
    (hv : visKey k = false) :
    visibleKeys (setProp n k v) = visibleKeys n := by
  by_cases hm : n.any (fun kv => kv.1 = k) = true
  · exact visibleKeys_setProp_mem n k v hm
  · rw [visibleKeys_setProp_new n k v hm]
    simp [hv]

theorem mem_visibleKeys_iff (n : Node) (q : Str) :
    q ∈ visibleKeys n ↔ q ∈ keysOf n ∧ visKey q = true := by
  constructor
  · intro h
    rcases List.mem_map.1 h with ⟨kv, hkv, he⟩
    rcases List.mem_filter.1 hkv with ⟨hmem, hcond⟩
    exact ⟨List.mem_map.2 ⟨kv, hmem, he⟩, he ▸ hcond⟩
  · rintro ⟨hk, hv⟩
    rcases List.mem_map.1 hk with ⟨kv, hkv, he⟩
    exact List.mem_map.2 ⟨kv, List.mem_filter.2 ⟨hkv, he ▸ hv⟩, he⟩

theorem commonPre_pre_right : ∀ (a b : Str), (commonPre a b).isPrefixOf b = true := by
  intro a
  induction a with
  | nil => intro b; cases b <;> simp [commonPre, List.isPrefixOf]
  | cons x xs ih =>
      intro b
      cases b with
      | nil => simp [commonPre, List.isPrefixOf]
      | cons y ys =>
          by_cases h : x = y
          · simp [commonPre, h, List.isPrefixOf, ih ys]
          · simp [commonPre, h, List.isPrefixOf]

theorem shape_of_pre (k q : Str)
    (hs : k.length ≤ 1 ∨ k = kC ∨ k = kD ∨ k = kV)
    (hq : q.isPrefixOf k = true) :
    q.length ≤ 1 ∨ q = kC ∨ q = kD ∨ q = kV := by
  rw [List.isPrefixOf_iff_prefix] at hq
  have hlen := hq.length_le
  by_cases h1 : q.length ≤ 1
  · exact Or.inl h1
  · have hk2 : k.length = 2 := by
      rcases hs with h | h | h | h
      · omega
      all_goals simp [h, kC, kD, kV]
    have : q.length = 2 := by omega
    have he : q = k := hq.eq_of_length (by omega)
    rcases hs with h | h | h | h
    · omega
    all_goals rw [he]; simp [h]

theorem addTerminal_arena_ge :
    ∀ (p : Str) (t : Trie) (id : Nat), t.arena.length ≤ (addTerminal t id p).arena.length := by
  intro p
  induction p with
  | nil => intro t id; simp [addTerminal, setNode]
  | cons c rest ih =>
      intro t id
      cases rest with
      | nil => simp [addTerminal, setNode]
      | cons c2 rest2 =>
          calc t.arena.length ≤ t.arena.length + 1 := by omega
          _ = (setNode (alloc t).1 id (setProp (getNode (alloc t).1 id) [c] (.ref (alloc t).2))).arena.length := by
              simp [setNode, alloc]
          _ ≤ _ := ih _ _

end TrieHard
namespace TrieHard

theorem nodeOk_delProp (m : Nat) (n : Node) (k : Str) (h : nodeOk m n) :
    nodeOk m (delProp n k) := by
  refine ⟨ndKeys_delProp n k h.1, ?_, ?_, ?_⟩
  · unfold fcu
    rw [visibleKeys_delProp]
    exact List.Pairwise.sublist (List.filter_sublist _) h.2.1
  · intro kv hkv i hi
    exact h.2.2.1 kv (mem_delProp n k kv hkv) i hi
  · intro kv hkv
    exact h.2.2.2 kv (mem_delProp n k kv hkv)

theorem nodeOk_setProp (m : Nat) (n : Node) (k : Str) (v : Val) (h : nodeOk m n)
    (hshape : k.length ≤ 1 ∨ k = kC ∨ k = kD ∨ k = kV)
    (hrefs : ∀ i, v = Val.ref i → i < m)
    (hfcu : visKey k = true → ¬ n.any (fun kv => kv.1 = k) = true →
      ∀ q ∈ visibleKeys n, q.head? ≠ k.head?) :
    nodeOk m (setProp n k v) := by
  refine ⟨ndKeys_setProp n k v h.1, ?_, ?_, ?_⟩
  · unfold fcu
    by_cases hm : n.any (fun kv => kv.1 = k) = true
    · rw [visibleKeys_setProp_mem n k v hm]
      exact h.2.1
    · rw [visibleKeys_setProp_new n k v hm]
      cases hv : visKey k with
      | false => simpa using h.2.1
      | true =>
          rw [if_pos rfl]
          rw [List.pairwise_append]
          refine ⟨h.2.1, List.pairwise_singleton _ _, ?_⟩
          intro q hq b hb
          rw [List.mem_singleton] at hb
          subst hb
          exact hfcu hv hm q hq
  · intro kv hkv i hi
    rcases mem_setProp n k v kv hkv with he | hmem
    · subst he
      exact hrefs i hi
    · exact h.2.2.1 kv hmem i hi
  · intro kv hkv
    rcases mem_setProp n k v kv hkv with he | hmem
    · subst he
      exact hshape
    · exact h.2.2.2 kv hmem

theorem invB_setNode (t : Trie) (id : Nat) (n : Node) (h : invB t)
    (hok : nodeOk t.arena.length n) : invB (setNode t id n) := by
  have hlen : (setNode t id n).arena.length = t.arena.length := by simp [setNode]
  refine ⟨by rw [hlen]; exact h.1, ?_, ?_⟩
  · intro j
    rw [hlen, getNode_setNode]
    by_cases hc : j = id ∧ j < t.arena.length
    · rw [if_pos hc]; exact hok
    · rw [if_neg hc]; exact h.2.1 j
  · intro kv hkv
    rw [hlen]
    exact h.2.2 kv hkv

theorem invB_alloc (t : Trie) (h : invB t) : invB (alloc t).1 := by
  have hlen : (alloc t).1.arena.length = t.arena.length + 1 := by simp [alloc]
  refine ⟨by omega, ?_, ?_⟩
  · intro j
    rw [hlen, getNode_alloc]
    exact nodeOk_mono _ _ _ (by omega) (h.2.1 j)
  · intro kv hkv
    have := h.2.2 kv hkv
    omega

theorem addTerminal_invB :
    ∀ (p : Str) (t : Trie) (id : Nat), invB t → id < t.arena.length →
      (∀ k ∈ keysOf (getNode t id), commonPre p k = []) →
      invB (addTerminal t id p) := by
  have hfcuSide : ∀ (t : Trie) (id : Nat) (p : Str) (c : Char), p.head? = some c →
      (∀ k ∈ keysOf (getNode t id), commonPre p k = []) →
      ∀ q ∈ visibleKeys (getNode t id), q.head? ≠ ([c] : Str).head? := by
    intro t id p c hh hpre q hq
    have hqk := visibleKeys_subset_keysOf _ q hq
    have hqv : visKey q = true := ((mem_visibleKeys_iff _ q).1 hq).2
    have hcp := hpre q hqk
    rw [commonPre_nil_iff] at hcp
    rcases hcp with h1 | h1 | h1
    · rw [h1] at hh; simp at hh
    · exact absurd h1 (visKey_ne_nil q hqv)
    · intro he
      apply h1
      rw [hh]
      rw [show q.head? = some c from by simpa using he]
  intro p
  induction p with
  | nil =>
      intro t id hB hid hpre
      apply invB_setNode t id _ hB
      apply nodeOk_setProp _ _ _ _ (hB.2.1 id)
      · left; simp
      · intro i hi; exact absurd hi (by simp)
      · intro hv; simp [visKey] at hv
  | cons c rest ih =>
      intro t id hB hid hpre
      cases rest with
      | nil =>
          apply invB_setNode t id _ hB
          apply nodeOk_setProp _ _ _ _ (hB.2.1 id)
          · left; simp
          · intro i hi; exact absurd hi (by simp)
          · intro hv hnew q hq
            exact hfcuSide t id [c] c rfl hpre q hq
      | cons c2 rest2 =>
          show invB (addTerminal _ (alloc t).2 (c2 :: rest2))
          have hB1 : invB (alloc t).1 := invB_alloc t hB
          have hlen1 : (alloc t).1.arena.length = t.arena.length + 1 := by simp [alloc]
          have hnode : getNode (alloc t).1 id = getNode t id := getNode_alloc t id
          have hB2 : invB (setNode (alloc t).1 id
              (setProp (getNode (alloc t).1 id) [c] (.ref (alloc t).2))) := by
            apply invB_setNode _ _ _ hB1
            apply nodeOk_setProp _ _ _ _ (by rw [hnode]; exact nodeOk_mono _ _ _ (by omega) (hB.2.1 id))
            · left; simp
            · intro i hi
              rw [hlen1]
              simp only [Val.ref.injEq] at hi
              subst hi
              show t.arena.length < t.arena.length + 1
              omega
            · intro hv hnew q hq
              rw [hnode] at hq
              exact hfcuSide t id (c :: c2 :: rest2) c rfl hpre q hq
          apply ih _ _ hB2
          · show (alloc t).2 < _
            simp [setNode, alloc]
          · intro k hk
            have : getNode (setNode (alloc t).1 id
                (setProp (getNode (alloc t).1 id) [c] (.ref (alloc t).2))) (alloc t).2 = [] := by
              rw [getNode_setNode]
              rw [if_neg (by
                intro hc2
                have : (alloc t).2 = t.arena.length := rfl
                omega)]
              rw [getNode_alloc]
              exact getD_ge t.arena _ (le_refl _)
            rw [this] at hk
            simp [keysOf] at hk

end TrieHard
namespace TrieHard

theorem insertLowF_arena_ge :
    ∀ (fuel : Nat) (t : Trie) (w : Str) (id : Nat),
      t.arena.length ≤ (insertLowF fuel t w id).arena.length := by
  intro fuel
  induction fuel with
  | zero => intro t w id; simp [insertLowF]
  | succ f ih =>
      intro t w id
      simp only [insertLowF]
      cases hf : ((getNode t id).map (fun kv => kv.1)).find? (fun k => ¬ (commonPre w k) = []) with
      | none =>
          show t.arena.length ≤ (addTerminal t id w).arena.length
          exact addTerminal_arena_ge w t id
      | some k =>
          simp only []
          by_cases h1 : k = commonPre w k ∧ (isObj ((getProp (getNode t id) k).getD .undef)) = true
          · rw [if_pos h1]; exact ih _ _ _
          · rw [if_neg h1]
            by_cases h2 : k = w ∧ (isNum ((getProp (getNode t id) k).getD .undef)) = true
            · rw [if_pos h2]
            · rw [if_neg h2]
              show t.arena.length ≤ (setNode (setNode (addTerminal _ _ _) id _) id _).arena.length
              simp only [setNode, List.length_set]
              calc t.arena.length ≤ t.arena.length + 1 := by omega
                _ = (setNode (alloc t).1 (alloc t).2 _).arena.length := by simp [setNode, alloc]
                _ ≤ _ := addTerminal_arena_ge _ _ _

theorem setNode_arena_len (t : Trie) (id : Nat) (n : Node) :
    (setNode t id n).arena.length = t.arena.length := by
  simp [setNode]

theorem getProp_of_mem_keys (n : Node) (k : Str) (h : k ∈ keysOf n) :
    ∃ v, getProp n k = some v := by
  cases hg : getProp n k with
  | some v => exact ⟨v, rfl⟩
  | none => exact absurd ((getProp_none_iff n k).1 hg) (by simp [h])

theorem insertLowF_invB :
    ∀ (fuel : Nat) (t : Trie) (w : Str) (id : Nat), invB t → id < t.arena.length →
      invB (insertLowF fuel t w id) := by
  intro fuel
  induction fuel with
  | zero => intro t w id hB _; simpa [insertLowF] using hB
  | succ f ih =>
      intro t w id hB hid
      simp only [insertLowF]
      cases hf : ((getNode t id).map (fun kv => kv.1)).find? (fun k => ¬ (commonPre w k) = []) with
      | none =>
          show invB (addTerminal t id w)
          apply addTerminal_invB w t id hB hid
          intro k hk
          have := List.find?_eq_none.1 hf k (by simpa [keysOf] using hk)
          simpa using this
      | some k =>
          have hkmem : k ∈ keysOf (getNode t id) := by
            have := List.mem_of_find?_eq_some hf
            simpa [keysOf] using this
          have hkp : ¬ (commonPre w k) = [] := by
            have := List.find?_some hf
            simpa using this
          rcases getProp_of_mem_keys _ _ hkmem with ⟨v, hv⟩
          have hvmem : (k, v) ∈ getNode t id := getProp_eq_some_mem _ _ _ hv
          simp only []
          by_cases h1 : k = commonPre w k ∧ (isObj ((getProp (getNode t id) k).getD .undef)) = true
          · rw [if_pos h1]
            rcases h1 with ⟨he1, ho⟩
            rw [hv] at ho
            have : ∃ i, v = Val.ref i := by
              cases v with
              | ref i => exact ⟨i, rfl⟩
              | num m => simp [isObj] at ho
              | str s => simp [isObj] at ho
              | undef => simp [isObj] at ho
            rcases this with ⟨i, rfl⟩
            have hi : i < t.arena.length := (hB.2.1 id).2.2.1 (k, .ref i) hvmem i rfl
            have : refIdOf (getProp (getNode t id) k) = i := by rw [hv]; rfl
            rw [this]
            exact ih t _ i hB hi
          · rw [if_neg h1]
            by_cases h2 : k = w ∧ (isNum ((getProp (getNode t id) k).getD .undef)) = true
            · rw [if_pos h2]; exact hB
            · rw [if_neg h2]
              have hplen : 0 < (commonPre w k).length := List.length_pos.2 hkp
              have hsh : k.length ≤ 1 ∨ k = kC ∨ k = kD ∨ k = kV :=
                (hB.2.1 id).2.2.2 (k, v) hvmem
              have hB1 : invB (alloc t).1 := invB_alloc t hB
              have ha2 : (alloc t).2 = t.arena.length := rfl
              have hlen1 : (alloc t).1.arena.length = t.arena.length + 1 := by simp [alloc]
              have hfresh : getNode (alloc t).1 (alloc t).2 = [] := by
                rw [getNode_alloc, ha2]
                exact getD_ge t.arena _ (le_refl _)
              have hdropshape : (k.drop (commonPre w k).length).length ≤ 1 := by
                have hk2 : k.length ≤ 2 := by
                  rcases hsh with hs | hs | hs | hs
                  · omega
                  all_goals rw [hs]
                  all_goals simp [kC, kD, kV]
                rw [List.length_drop]
                omega
              have hB2 : invB (setNode (alloc t).1 (alloc t).2
                  (setProp (getNode (alloc t).1 (alloc t).2) (k.drop (commonPre w k).length)
                    ((getProp (getNode t id) k).getD .undef))) := by
                apply invB_setNode _ _ _ hB1
                apply nodeOk_setProp _ _ _ _ (by rw [hfresh]; exact nodeOk_nil _)
                · left; exact hdropshape
                · intro i hi
                  rw [hv] at hi
                  simp only [Option.getD_some] at hi
                  rw [hlen1]
                  have := (hB.2.1 id).2.2.1 (k, v) hvmem i hi
                  omega
                · intro hvk hnew q hq
                  rw [hfresh] at hq
                  simp [visibleKeys] at hq
              have hlen2 : (setNode (alloc t).1 (alloc t).2
                  (setProp (getNode (alloc t).1 (alloc t).2) (k.drop (commonPre w k).length)
                    ((getProp (getNode t id) k).getD .undef))).arena.length = t.arena.length + 1 := by
                rw [setNode_arena_len, hlen1]
              have hkeys2 : keysOf (getNode (setNode (alloc t).1 (alloc t).2
                  (setProp (getNode (alloc t).1 (alloc t).2) (k.drop (commonPre w k).length)
                    ((getProp (getNode t id) k).getD .undef))) (alloc t).2) =
                  [k.drop (commonPre w k).length] := by
                rw [getNode_setNode, if_pos ⟨rfl, by rw [hlen1]; omega⟩]
                rw [hfresh]
                rw [keysOf_setProp_new _ _ _ (by simp)]
                rfl
              have hB3 : invB (addTerminal (setNode (alloc t).1 (alloc t).2
                  (setProp (getNode (alloc t).1 (alloc t).2) (k.drop (commonPre w k).length)
                    ((getProp (getNode t id) k).getD .undef))) (alloc t).2
                  (w.drop (commonPre w k).length)) := by
                apply addTerminal_invB _ _ _ hB2 (by rw [hlen2]; omega)
                intro k2 hk2
                rw [hkeys2] at hk2
                rw [List.mem_singleton] at hk2
                subst hk2
                exact commonPre_drop w k
              have hidt2 : id < (addTerminal (setNode (alloc t).1 (alloc t).2
                  (setProp (getNode (alloc t).1 (alloc t).2) (k.drop (commonPre w k).length)
                    ((getProp (getNode t id) k).getD .undef))) (alloc t).2
                  (w.drop (commonPre w k).length)).arena.length := by
                have h1 := addTerminal_arena_ge (w.drop (commonPre w k).length)
                  (setNode (alloc t).1 (alloc t).2
                    (setProp (getNode (alloc t).1 (alloc t).2) (k.drop (commonPre w k).length)
                      ((getProp (getNode t id) k).getD .undef))) (alloc t).2
                rw [hlen2] at h1
                omega
              have hge2 : t.arena.length + 1 ≤ (addTerminal (setNode (alloc t).1 (alloc t).2
                  (setProp (getNode (alloc t).1 (alloc t).2) (k.drop (commonPre w k).length)
                    ((getProp (getNode t id) k).getD .undef))) (alloc t).2
                  (w.drop (commonPre w k).length)).arena.length := by
                have h1 := addTerminal_arena_ge (w.drop (commonPre w k).length)
                  (setNode (alloc t).1 (alloc t).2
                    (setProp (getNode (alloc t).1 (alloc t).2) (k.drop (commonPre w k).length)
                      ((getProp (getNode t id) k).getD .undef))) (alloc t).2
                rw [hlen2] at h1
                omega
              have hnodeid : getNode (addTerminal (setNode (alloc t).1 (alloc t).2
                  (setProp (getNode (alloc t).1 (alloc t).2) (k.drop (commonPre w k).length)
                    ((getProp (getNode t id) k).getD .undef))) (alloc t).2
                  (w.drop (commonPre w k).length)) id = getNode t id := by
                rw [addTerminal_getNode_of_ne _ _ _ _ (by have h9 := ha2; omega)
                  (by rw [hlen2]; omega)]
                rw [getNode_setNode, if_neg (by have h9 := ha2; intro hc; omega)]
                exact getNode_alloc t id
              have hmain : invB (setNode (setNode (addTerminal (setNode (alloc t).1 (alloc t).2
                  (setProp (getNode (alloc t).1 (alloc t).2) (k.drop (commonPre w k).length)
                    ((getProp (getNode t id) k).getD .undef))) (alloc t).2
                  (w.drop (commonPre w k).length)) id
                    (delProp (getNode (addTerminal (setNode (alloc t).1 (alloc t).2
                      (setProp (getNode (alloc t).1 (alloc t).2) (k.drop (commonPre w k).length)
                        ((getProp (getNode t id) k).getD .undef))) (alloc t).2
                      (w.drop (commonPre w k).length)) id) k)) id
                  (setProp (getNode (setNode (addTerminal (setNode (alloc t).1 (alloc t).2
                    (setProp (getNode (alloc t).1 (alloc t).2) (k.drop (commonPre w k).length)
                      ((getProp (getNode t id) k).getD .undef))) (alloc t).2
                    (w.drop (commonPre w k).length)) id
                      (delProp (getNode (addTerminal (setNode (alloc t).1 (alloc t).2
                        (setProp (getNode (alloc t).1 (alloc t).2) (k.drop (commonPre w k).length)
                          ((getProp (getNode t id) k).getD .undef))) (alloc t).2
                        (w.drop (commonPre w k).length)) id) k)) id)
                    (commonPre w k) (.ref (alloc t).2))) := by
                apply invB_setNode
                · apply invB_setNode _ _ _ hB3
                  rw [hnodeid]
                  exact nodeOk_delProp _ _ _ (nodeOk_mono t.arena.length _ _
                    (by have h9 := hge2; omega) (hB.2.1 id))
                · rw [setNode_arena_len]
                  rw [getNode_setNode, if_pos ⟨rfl, hidt2⟩]
                  apply nodeOk_setProp
                  · rw [hnodeid]
                    exact nodeOk_delProp _ _ _ (nodeOk_mono t.arena.length _ _
                      (by have h9 := hge2; omega) (hB.2.1 id))
                  · exact shape_of_pre k _ hsh (commonPre_pre_right w k)
                  · intro i hi
                    simp only [Val.ref.injEq] at hi
                    subst hi
                    have h9 := ha2
                    omega
                  · intro hvp hnew q hq
                    rw [hnodeid] at hq
                    rw [visibleKeys_delProp] at hq
                    rcases List.mem_filter.1 hq with ⟨hqvis, hqne⟩
                    have hqnek : ¬ q = k := by simpa using hqne
                    have hph := commonPre_head w k hkp
                    have hpk : (commonPre w k).head? = k.head? := hph.1.trans hph.2
                    have hkvis : visKey k = true := by
                      cases hp : (commonPre w k) with
                      | nil => exact absurd hp hkp
                      | cons pc pr =>
                          rw [hp] at hpk hvp
                          cases k with
                          | nil => simp at hpk
                          | cons kc kr =>
                              have hpc : pc = kc := by simpa using hpk
                              subst hpc
                              simpa [visKey] using hvp
                    have hkmemv : k ∈ visibleKeys (getNode t id) :=
                      (mem_visibleKeys_iff _ k).2 ⟨hkmem, hkvis⟩
                    have hfc := (hB.2.1 id).2.1
                    unfold fcu at hfc
                    have hne := List.Pairwise.forall (R := fun a b => a.head? ≠ b.head?)
                      (by intro x y hxy; exact Ne.symm hxy) hfc hqvis hkmemv hqnek
                    exact fun hcc => hne (hcc.trans hpk)
              exact ⟨hmain.1, hmain.2.1, hmain.2.2⟩

end TrieHard
namespace TrieHard

theorem combRel_refl (t : Trie) (h : invB t) : combRel t t :=
  ⟨h, rfl, fun _ => rfl, fun _ _ hk => hk, fun _ _ hk => Or.inl hk⟩

theorem combRel_trans (a b c : Trie) (h1 : combRel a b) (h2 : combRel b c) :
    combRel a c := by
  refine ⟨h2.1, h2.2.1.trans h1.2.1, ?_, ?_, ?_⟩
  · intro j
    exact (h2.2.2.1 j).trans (h1.2.2.1 j)
  · intro j k hk
    exact h2.2.2.2.1 j k (h1.2.2.2.1 j k hk)
  · intro j k hk
    rcases h2.2.2.2.2 j k hk with hm | he
    · exact h1.2.2.2.2 j k hm
    · exact Or.inr he

theorem foldl_rel {α β : Type} (step : β → α → β) (R : β → Prop) :
    ∀ (l : List α) (b : β), R b → (∀ b2 a, a ∈ l → R b2 → R (step b2 a)) →
      R (l.foldl step b) := by
  intro l
  induction l with
  | nil => intro b hb _; exact hb
  | cons x xs ih =>
      intro b hb hs
      exact ih (step b x) (hs b x (by simp) hb)
        (fun b2 a ha hb2 => hs b2 a (by simp [ha]) hb2)

theorem visKey_kC : visKey kC = false := by decide
theorem visKey_kD : visKey kD = false := by decide
theorem visKey_kV : visKey kV = false := by decide
theorem visKey_kG : visKey kG = false := by decide

/-- One mutation used by `combineSuffixNode`: overwriting an existing
property of node `id` with a reference below the heap size preserves
`combRel`. -/
theorem combRel_setRef (t0 t : Trie) (id : Nat) (p : Str) (r : Nat)
    (hrel : combRel t0 t)
    (hp : p ∈ keysOf (getNode t id))
    (hshape : p.length ≤ 1 ∨ p = kC ∨ p = kD ∨ p = kV)
    (hr : r < t.arena.length) :
    combRel t0 (setNode t id (setProp (getNode t id) p (.ref r))) := by
  have hB := hrel.1
  have hany : (getNode t id).any (fun kv => kv.1 = p) = true := (any_key_iff _ p).2 hp
  refine combRel_trans t0 t _ hrel ⟨?_, by rw [setNode_arena_len], ?_, ?_, ?_⟩
  · apply invB_setNode _ _ _ hB
    apply nodeOk_setProp _ _ _ _ (hB.2.1 id)
    · exact hshape
    · intro i hi
      simp only [Val.ref.injEq] at hi
      omega
    · intro _ hnew
      exact absurd hany hnew
  · intro j
    rw [getNode_setNode]
    by_cases hc : j = id ∧ j < t.arena.length
    · rw [if_pos hc, hc.1]
      exact visibleKeys_setProp_mem _ _ _ hany
    · rw [if_neg hc]
  · intro j k hk
    rw [getNode_setNode]
    by_cases hc : j = id ∧ j < t.arena.length
    · rw [if_pos hc]
      rw [keysOf_setProp_mem _ _ _ hany]
      rw [hc.1] at hk
      exact hk
    · rw [if_neg hc]; exact hk
  · intro j k hk
    rw [getNode_setNode] at hk
    by_cases hc : j = id ∧ j < t.arena.length
    · rw [if_pos hc] at hk
      rw [keysOf_setProp_mem _ _ _ hany] at hk
      rw [hc.1]
      exact Or.inl hk
    · rw [if_neg hc] at hk; exact Or.inl hk

/-- The other mutation: writing a bookkeeping number (`_c`, `_d`, `_v`)
on node `id` preserves `combRel` up to the added `_c` key. -/
theorem combRel_setC (t0 t : Trie) (id : Nat) (m : Nat)
    (hrel : combRel t0 t) :
    combRel t0 (setNode t id (setProp (getNode t id) kC (.num m))) := by
  have hB := hrel.1
  refine combRel_trans t0 t _ hrel ⟨?_, by rw [setNode_arena_len], ?_, ?_, ?_⟩
  · apply invB_setNode _ _ _ hB
    apply nodeOk_setProp _ _ _ _ (hB.2.1 id)
    · right; left; rfl
    · intro i hi; exact absurd hi (by simp)
    · intro hv; exact absurd hv (by rw [visKey_kC]; simp)
  · intro j
    rw [getNode_setNode]
    by_cases hc : j = id ∧ j < t.arena.length
    · rw [if_pos hc, hc.1]
      exact visibleKeys_setProp_invis _ _ _ visKey_kC
    · rw [if_neg hc]
  · intro j k hk
    rw [getNode_setNode]
    by_cases hc : j = id ∧ j < t.arena.length
    · rw [if_pos hc]
      rw [hc.1] at hk
      by_cases hm : (getNode t id).any (fun kv => kv.1 = kC) = true
      · rw [keysOf_setProp_mem _ _ _ hm]; exact hk
      · rw [keysOf_setProp_new _ _ _ hm]
        exact List.mem_append_left _ hk
    · rw [if_neg hc]; exact hk
  · intro j k hk
    rw [getNode_setNode] at hk
    by_cases hc : j = id ∧ j < t.arena.length
    · rw [if_pos hc] at hk
      rw [hc.1]
      by_cases hm : (getNode t id).any (fun kv => kv.1 = kC) = true
      · rw [keysOf_setProp_mem _ _ _ hm] at hk; exact Or.inl hk
      · rw [keysOf_setProp_new _ _ _ hm] at hk
        rcases List.mem_append.1 hk with h3 | h3
        · exact Or.inl h3
        · exact Or.inr (by simpa using h3)
    · rw [if_neg hc] at hk; exact Or.inl hk

end TrieHard
namespace TrieHard

theorem combineSuffixNode_inv :
    ∀ (fuel : Nat) (t : Trie) (id : Nat), invB t → id < t.arena.length →
      combRel t (combineSuffixNode fuel t id).1 ∧
        (combineSuffixNode fuel t id).2 < t.arena.length := by
  intro fuel
  induction fuel with
  | zero =>
      intro t id hB hid
      exact ⟨combRel_refl t hB, by simpa [combineSuffixNode] using hid⟩
  | succ f ih =>
      intro t id hB hid
      simp only [combineSuffixNode]
      cases hc : truthy (getProp (getNode t id) kC) with
      | true => exact ⟨combRel_refl t hB, hid⟩
      | false =>
          simp only [Bool.false_eq_true, if_neg]
          have hfold : combRel t
              ((nodeProps (getNode t id) false).foldl
                (fun (acc : Trie × List Str) (p : Str) =>
                  let nn := getNode acc.1 id
                  match getProp nn p with
                  | some (.ref cid) =>
                      let r := combineSuffixNode f acc.1 cid
                      let t2 := setNode r.1 id (setProp (getNode r.1 id) p (.ref r.2))
                      let cv := match getProp (getNode t2 r.2) kC with
                        | some (.num m) => m
                        | _ => 0
                      (t2, acc.2 ++ [p, natToStr cv])
                  | _ => (acc.1, acc.2 ++ [p]))
                (t, if isTerminal (getNode t id) then [['!']] else [])).1 := by
            refine foldl_rel _ (fun acc : Trie × List Str => combRel t acc.1) _ _
              (combRel_refl t hB) ?_
            intro b p hp hRb
            have hpkeys : p ∈ keysOf (getNode t id) := by
              rcases (mem_nodeProps_iff _ _ _).1 hp with ⟨v, hv, hvk, _⟩
              exact List.mem_map.2 ⟨(p, v), hv, rfl⟩
            have hshape : p.length ≤ 1 ∨ p = kC ∨ p = kD ∨ p = kV := by
              rcases (mem_nodeProps_iff _ _ _).1 hp with ⟨v, hv, _, _⟩
              exact (hB.2.1 id).2.2.2 (p, v) hv
            simp only []
            cases hg : getProp (getNode b.1 id) p with
            | none => exact hRb
            | some v =>
                cases v with
                | num m => exact hRb
                | str s => exact hRb
                | undef => exact hRb
                | ref cid =>
                    have hBb : invB b.1 := hRb.1
                    have hcid : cid < b.1.arena.length :=
                      (hBb.2.1 id).2.2.1 (p, .ref cid) (getProp_eq_some_mem _ _ _ hg) cid rfl
                    have hr := ih b.1 cid hBb hcid
                    have hrel2 : combRel t (combineSuffixNode f b.1 cid).1 :=
                      combRel_trans _ _ _ hRb hr.1
                    have hlen : (combineSuffixNode f b.1 cid).1.arena.length = b.1.arena.length :=
                      hr.1.2.1
                    apply combRel_setRef t _ id p (combineSuffixNode f b.1 cid).2 hrel2
                    · apply hr.1.2.2.2.1 id p
                      exact hRb.2.2.2.1 id p hpkeys
                    · exact hshape
                    · rw [hlen]; exact hr.2
          generalize hgen : ((nodeProps (getNode t id) false).foldl
                (fun (acc : Trie × List Str) (p : Str) =>
                  let nn := getNode acc.1 id
                  match getProp nn p with
                  | some (.ref cid) =>
                      let r := combineSuffixNode f acc.1 cid
                      let t2 := setNode r.1 id (setProp (getNode r.1 id) p (.ref r.2))
                      let cv := match getProp (getNode t2 r.2) kC with
                        | some (.num m) => m
                        | _ => 0
                      (t2, acc.2 ++ [p, natToStr cv])
                  | _ => (acc.1, acc.2 ++ [p]))
                (t, if isTerminal (getNode t id) then [['!']] else [])) = fd
          rw [hgen] at hfold
          cases hlook : fd.1.suffixes.find? (fun kv => kv.1 = joinDash fd.2) with
          | some kv =>
              refine ⟨hfold, ?_⟩
              have hm := List.mem_of_find?_eq_some hlook
              have h2 := hfold.1.2.2 kv hm
              rw [hfold.2.1] at h2
              exact h2
          | none =>
              have hB2 : invB { fd.1 with suffixes := fd.1.suffixes ++ [(joinDash fd.2, id)] } := by
                refine ⟨hfold.1.1, hfold.1.2.1, ?_⟩
                intro kv hkv
                rcases List.mem_append.1 hkv with hm | hm
                · exact hfold.1.2.2 kv hm
                · rw [List.mem_singleton] at hm
                  subst hm
                  show id < fd.1.arena.length
                  rw [hfold.2.1]
                  exact hid
              have hrel2 : combRel t { fd.1 with suffixes := fd.1.suffixes ++ [(joinDash fd.2, id)] } :=
                ⟨hB2, hfold.2.1, hfold.2.2.1, hfold.2.2.2.1, hfold.2.2.2.2⟩
              have h3 := combRel_setC t _ id
                ({ fd.1 with suffixes := fd.1.suffixes ++ [(joinDash fd.2, id)] }).cNext hrel2
              exact ⟨⟨⟨h3.1.1, h3.1.2.1, h3.1.2.2⟩, h3.2.1, h3.2.2.1, h3.2.2.2.1, h3.2.2.2.2⟩, hid⟩

end TrieHard
namespace TrieHard

theorem getNode_trie0 (j : Nat) : getNode trie0 j = [] := by
  cases j with
  | zero => rfl
  | succ j2 => exact getD_ge _ _ (by simp [trie0])

theorem invB_trie0 : invB trie0 := by
  refine ⟨by simp [trie0], ?_, ?_⟩
  · intro j
    rw [getNode_trie0]
    exact nodeOk_nil _
  · intro kv hkv
    simp [trie0] at hkv

theorem uniqueNodeF_lt :
    ∀ (fuel : Nat) (t : Trie) (w o : Str) (id r : Nat), invB t →
      uniqueNodeF fuel t w o id = some r → r < t.arena.length := by
  intro fuel
  induction fuel with
  | zero => intro t w o id r _ h; simp [uniqueNodeF] at h
  | succ f ih =>
      intro t w o id r hB h
      simp only [uniqueNodeF] at h
      cases hf : (nodeProps (getNode t id) true).find? (fun k => k.isPrefixOf w) with
      | none => rw [hf] at h; simp at h
      | some k =>
          rw [hf] at h
          have h2 : (if List.isPrefixOf k o = true then
              uniqueNodeF f t (w.drop k.length) (o.drop k.length)
                (refIdOf (getProp (getNode t id) k))
            else some (refIdOf (getProp (getNode t id) k))) = some r := h
          have hmem := List.mem_of_find?_eq_some hf
          rcases (mem_nodeProps_iff _ _ _).1 hmem with ⟨v, hv, hvk, hobj⟩
          have hgv : getProp (getNode t id) k = some v :=
            mem_getProp_eq_some _ _ _ (hB.2.1 id).1 hv
          rcases (show ∃ i, v = Val.ref i from by
            cases v with
            | ref i => exact ⟨i, rfl⟩
            | num m => simp [isObj] at hobj
            | str s => simp [isObj] at hobj
            | undef => simp [isObj] at hobj) with ⟨i, rfl⟩
          have hi : i < t.arena.length := (hB.2.1 id).2.2.1 (k, .ref i) hv i rfl
          by_cases hko : k.isPrefixOf o = true
          · rw [if_pos hko] at h2
            exact ih t _ _ _ r hB h2
          · rw [if_neg hko] at h2
            simp only [Option.some.injEq] at h2
            rw [← h2, hgv]
            exact hi

theorem insert_invB (t : Trie) (w : Str) (h : invB t) : invB (insert t w) := by
  unfold insert
  have h1 : invB (_insert t w 0) := insertLowF_invB _ t w 0 h h.1
  have h2 : invB { _insert t w 0 with lastWord := w } := ⟨h1.1, h1.2.1, h1.2.2⟩
  by_cases hpre : commonPre w t.lastWord = t.lastWord
  · rw [if_pos hpre]; exact h2
  · rw [if_neg hpre]
    cases hu : uniqueNode { _insert t w 0 with lastWord := w } t.lastWord w 0 with
    | none => exact h2
    | some fid =>
        have hfid : fid < ({ _insert t w 0 with lastWord := w } : Trie).arena.length :=
          uniqueNodeF_lt _ _ _ _ _ _ h2 hu
        exact (combineSuffixNode_inv _ _ fid h2 hfid).1.1

theorem build_invB (ws : List Str) : invB (build ws) := by
  unfold build
  exact foldl_rel insert invB ws trie0 invB_trie0 (fun t w _ h => insert_invB t w h)

theorem visited_inv (t : Trie) (id : Nat) (h : invB t) :
    invB (visited t id).1 ∧ (visited t id).1.arena.length = t.arena.length ∧
      (visited t id).1.vCur = t.vCur := by
  unfold visited
  by_cases hc : getProp (getNode t id) kV = some (.num t.vCur)
  · rw [if_pos hc]; exact ⟨h, rfl, rfl⟩
  · rw [if_neg hc]
    refine ⟨?_, by rw [setNode_arena_len], rfl⟩
    apply invB_setNode _ _ _ h
    apply nodeOk_setProp _ _ _ _ (h.2.1 id)
    · right; right; right; rfl
    · intro i hi; exact absurd hi (by simp)
    · intro hv; exact absurd hv (by rw [visKey_kV]; simp)

theorem countDegree_inv :
    ∀ (fuel : Nat) (t : Trie) (id : Nat), invB t →
      invB (countDegree fuel t id) ∧
        (countDegree fuel t id).arena.length = t.arena.length ∧
        (countDegree fuel t id).vCur = t.vCur := by
  intro fuel
  induction fuel with
  | zero => intro t id hB; exact ⟨hB, rfl, rfl⟩
  | succ f ih =>
      intro t id hB
      simp only [countDegree]
      generalize (match getProp (getNode t id) kD with
        | some (Val.num m) => m
        | _ => 0) = d
      have hB1 : invB (setNode t id (setProp (getNode t id) kD (.num (d + 1)))) := by
        apply invB_setNode _ _ _ hB
        apply nodeOk_setProp _ _ _ _ (hB.2.1 id)
        · right; right; left; rfl
        · intro i hi; exact absurd hi (by simp)
        · intro hv; exact absurd hv (by rw [visKey_kD]; simp)
      have hlen1 : (setNode t id (setProp (getNode t id) kD (.num (d + 1)))).arena.length =
          t.arena.length := setNode_arena_len _ _ _
      have hvr := visited_inv (setNode t id (setProp (getNode t id) kD (.num (d + 1)))) id hB1
      by_cases hb : (visited (setNode t id (setProp (getNode t id) kD (.num (d + 1)))) id).2 = true
      · rw [if_pos hb]
        exact ⟨hvr.1, hvr.2.1.trans hlen1, hvr.2.2⟩
      · rw [if_neg hb]
        refine foldl_rel _ (fun tt => invB tt ∧ tt.arena.length = t.arena.length ∧
          tt.vCur = t.vCur) _ _ ⟨hvr.1, hvr.2.1.trans hlen1, hvr.2.2⟩ ?_
        intro tt p hp htt
        have := ih tt (refIdOf (getProp (getNode tt id) p)) htt.1
        exact ⟨this.1, this.2.1.trans htt.2.1, this.2.2.trans htt.2.2⟩

end TrieHard

namespace TrieHard

theorem pres_refl (t : Trie) : pres t t := fun _ _ _ => rfl

theorem pres_trans (a b c : Trie) (h1 : pres a b) (h2 : pres b c) : pres a c :=
  fun j w hw => (h2 j w hw).trans (h1 j w hw)

theorem invB_invA (t : Trie) (h : invB t) : invA t :=
  ⟨h.1, fun j => ⟨(h.2.1 j).1, (h.2.1 j).2.1, (h.2.1 j).2.2.1⟩⟩

theorem nodeProps_setProp_invis (n : Node) (k : Str) (v : Val) (b : Bool)
    (hk : visKey k = false) :
    nodeProps (setProp n k v) b = nodeProps n b := by
  unfold nodeProps
  congr 1
  unfold setProp
  by_cases hm : n.any (fun kv => kv.1 = k) = true
  · rw [if_pos hm]
    induction n with
    | nil => rfl
    | cons a tl ih =>
        simp only [List.any_cons, Bool.or_eq_true] at hm
        by_cases ha : a.1 = k
        · simp only [List.map_cons, if_pos ha]
          rw [List.filter_cons, List.filter_cons]
          have h1 : (visKey k && (!b || isObj v)) = false := by rw [hk]; rfl
          have h2 : (visKey a.1 && (!b || isObj a.2)) = false := by rw [ha, hk]; rfl
          rw [h1, h2]
          simp only [Bool.false_eq_true, if_neg]
          by_cases htl : tl.any (fun kv => kv.1 = k) = true
          · exact ih htl
          · -- no further occurrence of k: the map is the identity on tl
            have : tl.map (fun kv => if kv.1 = k then (k, v) else kv) = tl.map id := by
              apply List.map_congr_left
              intro kv hkv
              rw [if_neg]
              · rfl
              · intro he
                exact htl (List.any_eq_true.2 ⟨kv, hkv, by simp [he]⟩)
            rw [this, List.map_id]
            rfl
        · simp only [List.map_cons, if_neg ha]
          rw [List.filter_cons, List.filter_cons]
          rcases hm with hm1 | hm2
          · exact absurd (by simpa using hm1) ha
          · cases hcond : (visKey a.1 && (!b || isObj a.2)) with
            | true =>
                rw [if_pos (rfl : (true : Bool) = true), if_pos (rfl : (true : Bool) = true)]
                rw [List.map_cons, List.map_cons, ih hm2]
            | false =>
                rw [if_neg (by simp), if_neg (by simp)]
                exact ih hm2
  · rw [if_neg hm, List.filter_append]
    have : List.filter (fun kv => visKey kv.1 && (!b || isObj kv.2)) [(k, v)] = [] := by
      rw [List.filter_cons]
      have h1 : (visKey k && (!b || isObj v)) = false := by rw [hk]; rfl
      rw [h1]
      simp
    rw [this, List.append_nil]

theorem getProp_nonund (n : Node) (k w : Str) (v : Val)
    (hk : visKey k = false) (hw : '_' ∉ w) (hwne : w ≠ []) :
    getProp (setProp n k v) w = getProp n w := by
  rw [getProp_setProp]
  rw [if_neg]
  intro he
  subst he
  cases w with
  | nil => exact hwne rfl
  | cons c cs =>
      simp only [visKey] at hk
      simp only [decide_eq_false_iff_not, not_not] at hk
      subst hk
      exact hw (by simp)

theorem isTerminal_setProp_ne (n : Node) (k : Str) (v : Val) (hk : k ≠ []) :
    isTerminal (setProp n k v) = isTerminal n := by
  unfold isTerminal
  rw [getProp_setProp, if_neg (fun he => hk he.symm)]

/-- A write to an invisible, nonempty property of one node preserves
membership for every `'_'`-free query word. -/
theorem pres_invis_write (t : Trie) (id : Nat) (k : Str) (v : Val)
    (hk : visKey k = false) (hkne : k ≠ []) :
    pres t (setNode t id (setProp (getNode t id) k v)) := by
  have hnode : ∀ j2 : Nat,
      (j2 = id ∧ getNode (setNode t id (setProp (getNode t id) k v)) j2 =
        setProp (getNode t id) k v) ∨
      getNode (setNode t id (setProp (getNode t id) k v)) j2 = getNode t j2 := by
    intro j2
    rw [getNode_setNode]
    by_cases hc : j2 = id ∧ j2 < t.arena.length
    · rw [if_pos hc]; exact Or.inl ⟨hc.1, rfl⟩
    · rw [if_neg hc]; exact Or.inr rfl
  have main : ∀ (len : Nat) (j : Nat) (w : Str), w.length ≤ len → '_' ∉ w →
      isWordN (setNode t id (setProp (getNode t id) k v)) j w = isWordN t j w := by
    intro len
    induction len with
    | zero =>
        intro j w hlen hw
        have hwn : w = [] := List.eq_nil_of_length_eq_zero (by omega)
        subst hwn
        rw [isWordN_unfold, isWordN_unfold, if_pos rfl, if_pos rfl]
        rcases hnode j with ⟨hj, he⟩ | he
        · rw [he, isTerminal_setProp_ne _ _ _ hkne, hj]
        · rw [he]
    | succ L ih =>
        intro j w hlen hw
        rw [isWordN_unfold, isWordN_unfold]
        by_cases hwnil : w = []
        · rw [if_pos hwnil, if_pos hwnil]
          rcases hnode j with ⟨hj, he⟩ | he
          · rw [he, isTerminal_setProp_ne _ _ _ hkne, hj]
          · rw [he]
        · rw [if_neg hwnil, if_neg hwnil]
          have hgp : getProp (getNode (setNode t id (setProp (getNode t id) k v)) j) w =
              getProp (getNode t j) w := by
            rcases hnode j with ⟨hj, he⟩ | he
            · rw [he, getProp_nonund _ _ _ _ hk hw hwnil, hj]
            · rw [he]
          rw [hgp]
          by_cases hraw : getProp (getNode t j) w = some (.num 1)
          · rw [if_pos hraw, if_pos hraw]
          · rw [if_neg hraw, if_neg hraw]
            have hprops : nodeProps (getNode (setNode t id (setProp (getNode t id) k v)) j) true =
                nodeProps (getNode t j) true := by
              rcases hnode j with ⟨hj, he⟩ | he
              · rw [he, nodeProps_setProp_invis _ _ _ _ hk, hj]
              · rw [he]
            rw [hprops]
            cases hf : (nodeProps (getNode t j) true).find? (fun p => p.isPrefixOf w) with
            | none => rfl
            | some p =>
                rcases nodeProps_find?_facts _ _ _ hf with ⟨hpne, hpre⟩
                have hpvk : visKey p = true := by
                  rcases (mem_nodeProps_iff _ _ _).1 (List.mem_of_find?_eq_some hf) with
                    ⟨v2, _, hvk2, _⟩
                  exact hvk2
                have hgpp : getProp (getNode (setNode t id (setProp (getNode t id) k v)) j) p =
                    getProp (getNode t j) p := by
                  rcases hnode j with ⟨hj, he⟩ | he
                  · rw [he, getProp_setProp, if_neg (by
                      intro hek
                      rw [hek, hk] at hpvk
                      simp at hpvk), hj]
                  · rw [he]
                show isWordN (setNode t id (setProp (getNode t id) k v))
                    (refIdOf (getProp (getNode (setNode t id (setProp (getNode t id) k v)) j) p))
                    (w.drop p.length) =
                  isWordN t (refIdOf (getProp (getNode t j) p)) (w.drop p.length)
                rw [hgpp]
                apply ih
                · have hple : 0 < p.length := List.length_pos.2 hpne
                  rw [List.length_drop]
                  omega
                · intro hmem
                  exact hw (List.drop_subset _ _ hmem)
  exact fun j w hw => main w.length j w (le_refl _) hw

theorem getProp_some_mem (n : Node) (k : Str) (v : Val)
    (h : getProp n k = some v) : (k, v) ∈ n := by
  unfold getProp at h
  cases hf : n.find? (fun kv => kv.1 = k) with
  | none => rw [hf] at h; exact absurd h (by simp)
  | some kv =>
      rw [hf] at h
      have hm := List.mem_of_find?_eq_some hf
      have hp := List.find?_some hf
      simp only [decide_eq_true_eq] at hp
      injection h with h2
      obtain ⟨a, b⟩ := kv
      simp only at hp h2
      subst hp
      subst h2
      exact hm

theorem getProp_eq_of_mem (n : Node) (k : Str) (v : Val)
    (hnd : ndKeys n) (hm : (k, v) ∈ n) : getProp n k = some v := by
  induction n with
  | nil => simp at hm
  | cons a tl ih =>
      unfold ndKeys keysOf at hnd
      rw [List.map_cons, List.nodup_cons] at hnd
      rcases List.mem_cons.1 hm with he | hmem
      · subst he
        simp [getProp, List.find?]
      · have hk : k ∈ keysOf tl := List.mem_map.2 ⟨(k, v), hmem, rfl⟩
        have hne : ¬ a.1 = k := fun he => hnd.1 (he ▸ hk)
        have : (decide (a.1 = k)) = false := decide_eq_false hne
        simp only [getProp, List.find?, this]
        exact ih hnd.2 hmem

theorem head_of_pre (q w : Str) (h : q.isPrefixOf w = true) (hne : q ≠ []) :
    q.head? = w.head? := by
  cases q with
  | nil => exact absurd rfl hne
  | cons a as =>
      cases w with
      | nil => simp [List.isPrefixOf] at h
      | cons b bs =>
          simp only [List.isPrefixOf, Bool.and_eq_true, beq_iff_eq] at h
          simp [h.1]

theorem pre_append_cancel (p a b : Str) :
    (p ++ a).isPrefixOf (p ++ b) = a.isPrefixOf b := by
  induction p with
  | nil => rfl
  | cons c cs ih => simp [List.isPrefixOf, ih]

theorem drop_append_len (p a : Str) (k : Nat) :
    (p ++ a).drop (p.length + k) = a.drop k := by
  induction p with
  | nil => simp
  | cons c cs ih => simp [Nat.succ_add, ih]

theorem head_append_ne_nil (p g : Str) (h : p ≠ []) :
    (p ++ g).head? = p.head? := by
  cases p with
  | nil => exact absurd rfl h
  | cons c cs => rfl

theorem visKey_append (p g : Str) (h : visKey p = true) :
    visKey (p ++ g) = true := by
  cases p with
  | nil => simp [visKey] at h
  | cons c cs => exact h

theorem nodeProps_false_eq (n : Node) :
    nodeProps n false = sortStrs (visibleKeys n) := by
  unfold nodeProps visibleKeys
  simp only [Bool.not_false, Bool.true_or, Bool.and_true]

theorem any_keys (n : Node) (k : Str) :
    n.any (fun kv => kv.1 = k) = true ↔ k ∈ keysOf n := by
  rw [List.any_eq_true]
  constructor
  · rintro ⟨kv, hm, he⟩
    simp only [decide_eq_true_eq] at he
    exact List.mem_map.2 ⟨kv, hm, he⟩
  · intro hk
    rcases List.mem_map.1 hk with ⟨kv, hm, he⟩
    exact ⟨kv, hm, by simp [he]⟩

theorem keysOf_delProp_sub (n : Node) (p k : Str)
    (h : k ∈ keysOf (delProp n p)) : k ∈ keysOf n := by
  rcases List.mem_map.1 h with ⟨kv, hm, he⟩
  exact List.mem_map.2 ⟨kv, mem_delProp n p kv hm, he⟩

theorem mem_delProp_of_ne (n : Node) (p : Str) (kv : Str × Val)
    (hm : kv ∈ n) (hne : kv.1 ≠ p) : kv ∈ delProp n p := by
  unfold delProp
  rw [List.mem_filter]
  exact ⟨hm, by simpa using hne⟩

theorem setProp_new (n : Node) (k : Str) (v : Val)
    (h : k ∉ keysOf n) : setProp n k v = n ++ [(k, v)] := by
  unfold setProp
  rw [if_neg]
  intro ha
  exact h ((any_keys n k).1 ha)

theorem mem_nodeProps_false_of_true (n : Node) (q : Str)
    (h : q ∈ nodeProps n true) : q ∈ nodeProps n false := by
  rcases (mem_nodeProps_iff n true q).1 h with ⟨v, hm, hvk, _⟩
  exact (mem_nodeProps_iff n false q).2 ⟨v, hm, hvk, by intro hf; cases hf⟩

theorem pairwise_heads_ne (l : List Str) (hpw : l.Pairwise (fun a b => a.head? ≠ b.head?))
    (hnd : l.Nodup) (a b : Str) (ha : a ∈ l) (hb : b ∈ l) (hne : a ≠ b) :
    a.head? ≠ b.head? := by
  induction l with
  | nil => simp at ha
  | cons x xs ih =>
      rw [List.pairwise_cons] at hpw
      rw [List.nodup_cons] at hnd
      rcases List.mem_cons.1 ha with hea | hma
      · rcases List.mem_cons.1 hb with heb | hmb
        · exact absurd (hea.trans heb.symm) hne
        · exact hea ▸ hpw.1 b hmb
      · rcases List.mem_cons.1 hb with heb | hmb
        · subst heb
          exact fun he => (hpw.1 a hma) he.symm
        · exact ih hpw.2 hnd.2 hma hmb

theorem visibleKeys_nodup (n : Node) (hnd : ndKeys n) : (visibleKeys n).Nodup := by
  unfold visibleKeys
  unfold ndKeys keysOf at hnd
  have hsub : (n.filter (fun kv => visKey kv.1)).Sublist n := List.filter_sublist n
  exact List.Nodup.sublist (hsub.map (fun kv => kv.1)) hnd

theorem mem_visibleKeys_of_getProp (n : Node) (k : Str) (v : Val)
    (hg : getProp n k = some v) (hvk : visKey k = true) : k ∈ visibleKeys n :=
  (mem_visibleKeys_iff n k).2
    ⟨List.mem_map.2 ⟨(k, v), getProp_some_mem n k v hg, rfl⟩, hvk⟩

theorem visKey_hfree (w : Str) (hne : w ≠ []) (hw : '_' ∉ w) : visKey w = true := by
  cases w with
  | nil => exact absurd rfl hne
  | cons c cs =>
      simp only [visKey, decide_eq_true_eq]
      intro he
      exact hw (by rw [he]; exact List.mem_cons_self _ _)

theorem nodeProps_mem_ne_nil (n : Node) (b : Bool) (q : Str)
    (h : q ∈ nodeProps n b) : q ≠ [] := by
  rcases (mem_nodeProps_iff n b q).1 h with ⟨v, _, hvk, _⟩
  exact visKey_ne_nil q hvk

theorem nodeProps_sub_visible (n : Node) (b : Bool) (q : Str)
    (h : q ∈ nodeProps n b) : q ∈ visibleKeys n := by
  rcases (mem_nodeProps_iff n b q).1 h with ⟨v, hm, hvk, _⟩
  exact (mem_visibleKeys_iff n q).2 ⟨List.mem_map.2 ⟨(q, v), hm, rfl⟩, hvk⟩

/-- Hoisting a tagged child into its parent (delete the edge label `p`,
add `p ++ g` carrying the child's single visible property value)
preserves membership for every `'_'`-free query word. -/
theorem hoist_pres (t : Trie) (id cid : Nat) (p g : Str) (val : Val)
    (hid : id < t.arena.length)
    (hnd : ndKeys (getNode t id)) (hfcu : fcu (getNode t id))
    (hndc : ndKeys (getNode t cid)) (hfcuc : fcu (getNode t cid))
    (hp : getProp (getNode t id) p = some (.ref cid))
    (hpvis : visKey p = true)
    (hcprops : nodeProps (getNode t cid) false = [g])
    (hcterm : isTerminal (getNode t cid) = false)
    (hval : getProp (getNode t cid) g = some val) :
    pres t (setNode t id (setProp (delProp (getNode t id) p) (p ++ g) val)) := by
  have hgm : g ∈ nodeProps (getNode t cid) false := by
    rw [hcprops]; exact List.mem_singleton.2 rfl
  have hgvis : visKey g = true := by
    rcases (mem_nodeProps_iff _ _ _).1 hgm with ⟨v', _, hvk, _⟩
    exact hvk
  have hgne : g ≠ [] := visKey_ne_nil g hgvis
  have hpne : p ≠ [] := visKey_ne_nil p hpvis
  have hpk : p ∈ keysOf (getNode t id) :=
    List.mem_map.2 ⟨(p, .ref cid), getProp_some_mem _ _ _ hp, rfl⟩
  have hpmem : p ∈ visibleKeys (getNode t id) := (mem_visibleKeys_iff _ _).2 ⟨hpk, hpvis⟩
  have hnpvis : visKey (p ++ g) = true := visKey_append p g hpvis
  have hnphead : (p ++ g).head? = p.head? := head_append_ne_nil p g hpne
  have hnpnep : p ++ g ≠ p := by
    intro he
    have h2 : p.length + g.length = p.length := by simpa using congrArg List.length he
    exact hgne (List.eq_nil_of_length_eq_zero (by omega))
  have hnpnk : (p ++ g) ∉ keysOf (getNode t id) := by
    intro hk
    have hnpm : (p ++ g) ∈ visibleKeys (getNode t id) := (mem_visibleKeys_iff _ _).2 ⟨hk, hnpvis⟩
    exact pairwise_heads_ne _ hfcu (visibleKeys_nodup _ hnd) _ _ hnpm hpmem hnpnep hnphead
  have hform : setProp (delProp (getNode t id) p) (p ++ g) val =
      delProp (getNode t id) p ++ [(p ++ g, val)] :=
    setProp_new _ _ _ (fun hk => hnpnk (keysOf_delProp_sub _ _ _ hk))
  have hgp' : ∀ q, getProp (setProp (delProp (getNode t id) p) (p ++ g) val) q =
      if q = p ++ g then some val else if q = p then none else getProp (getNode t id) q := by
    intro q
    rw [getProp_setProp]
    by_cases h1 : q = p ++ g
    · rw [if_pos h1, if_pos h1]
    · rw [if_neg h1, if_neg h1, getProp_delProp]
  have hvk' : visibleKeys (setProp (delProp (getNode t id) p) (p ++ g) val) =
      (visibleKeys (getNode t id)).filter (fun x => ¬ x = p) ++ [p ++ g] := by
    rw [hform]
    show ((delProp (getNode t id) p ++ [(p ++ g, val)]).filter
        (fun kv => visKey kv.1)).map (fun kv => kv.1) = _
    rw [List.filter_append, List.map_append]
    congr 1
    · exact visibleKeys_delProp (getNode t id) p
    · simp [hnpvis]
  have hfcu' : fcu (setProp (delProp (getNode t id) p) (p ++ g) val) := by
    unfold fcu
    rw [hvk', List.pairwise_append]
    refine ⟨List.Pairwise.sublist (List.filter_sublist _) hfcu,
      List.pairwise_singleton _ _, ?_⟩
    intro a ha b hb
    rw [List.mem_singleton] at hb
    subst hb
    rw [List.mem_filter] at ha
    have hane : a ≠ p := by simpa using ha.2
    rw [hnphead]
    exact pairwise_heads_ne _ hfcu (visibleKeys_nodup _ hnd) _ _ ha.1 hpmem hane
  have hnd' : ndKeys (setProp (delProp (getNode t id) p) (p ++ g) val) :=
    ndKeys_setProp _ _ _ (ndKeys_delProp _ _ hnd)
  have hmem' : ∀ q, q ∈ nodeProps (setProp (delProp (getNode t id) p) (p ++ g) val) true ↔
      (q = p ++ g ∧ isObj val = true) ∨ (q ∈ nodeProps (getNode t id) true ∧ q ≠ p) := by
    intro q
    rw [mem_nodeProps_iff]
    constructor
    · rintro ⟨v, hm, hvk, hobj⟩
      rw [hform] at hm
      rcases List.mem_append.1 hm with hm1 | hm2
      · right
        have hqnep : q ≠ p := by
          rcases List.mem_filter.1 hm1 with ⟨_, hcond⟩
          simpa using hcond
        exact ⟨(mem_nodeProps_iff _ _ _).2 ⟨v, mem_delProp _ _ _ hm1, hvk, hobj⟩, hqnep⟩
      · rw [List.mem_singleton] at hm2
        left
        have h1 : q = p ++ g := congrArg Prod.fst hm2
        have h2 : v = val := congrArg Prod.snd hm2
        exact ⟨h1, h2 ▸ hobj rfl⟩
    · rintro (⟨he, hobj⟩ | ⟨hq, hqnep⟩)
      · subst he
        exact ⟨val, by rw [hform]; exact List.mem_append_right _ (List.mem_singleton.2 rfl),
          hnpvis, fun _ => hobj⟩
      · rcases (mem_nodeProps_iff _ _ _).1 hq with ⟨v, hm, hvk, hobj⟩
        exact ⟨v, by
          rw [hform]
          exact List.mem_append_left _ (mem_delProp_of_ne _ _ _ hm hqnep), hvk, hobj⟩
  have hvisc : visibleKeys (getNode t cid) = [g] := by
    have h1 : sortStrs (visibleKeys (getNode t cid)) = [g] := by
      rw [← nodeProps_false_eq, hcprops]
    exact List.perm_singleton.1 (h1 ▸ (sortStrs_perm (visibleKeys (getNode t cid))).symm)
  have hckey : ∀ q v', (q, v') ∈ getNode t cid → visKey q = true → q = g ∧ v' = val := by
    intro q v' hm hvk
    have hq : q ∈ visibleKeys (getNode t cid) :=
      (mem_visibleKeys_iff _ _).2 ⟨List.mem_map.2 ⟨(q, v'), hm, rfl⟩, hvk⟩
    rw [hvisc, List.mem_singleton] at hq
    subst hq
    have h2 := getProp_eq_of_mem _ _ _ hndc hm
    rw [hval] at h2
    injection h2 with h3
    exact ⟨rfl, h3.symm⟩
  have hctru : ∀ q, q ∈ nodeProps (getNode t cid) true → q = g ∧ isObj val = true := by
    intro q hq
    rcases (mem_nodeProps_iff _ _ _).1 hq with ⟨v', hm, hvk, hobj⟩
    rcases hckey q v' hm hvk with ⟨he, hv⟩
    exact ⟨he, hv ▸ hobj rfl⟩
  have hnode : ∀ j2 : Nat,
      (j2 = id ∧ getNode (setNode t id (setProp (delProp (getNode t id) p) (p ++ g) val)) j2 =
        setProp (delProp (getNode t id) p) (p ++ g) val) ∨
      (j2 ≠ id ∧ getNode (setNode t id (setProp (delProp (getNode t id) p) (p ++ g) val)) j2 =
        getNode t j2) := by
    intro j2
    by_cases hj : j2 = id
    · left
      refine ⟨hj, ?_⟩
      rw [getNode_setNode, if_pos ⟨hj, hj ▸ hid⟩]
    · right
      exact ⟨hj, getNode_setNode_ne _ _ _ _ hj⟩
  have main : ∀ (len : Nat) (j : Nat) (w : Str), w.length ≤ len → '_' ∉ w →
      isWordN (setNode t id (setProp (delProp (getNode t id) p) (p ++ g) val)) j w =
        isWordN t j w := by
    intro len
    induction len with
    | zero =>
        intro j w hlen hw
        have hwn : w = [] := List.eq_nil_of_length_eq_zero (by omega)
        subst hwn
        rw [isWordN_unfold, isWordN_unfold, if_pos rfl, if_pos rfl]
        rcases hnode j with ⟨hj, he⟩ | ⟨hj, he⟩
        · rw [he]
          show truthy (getProp (setProp (delProp (getNode t id) p) (p ++ g) val) []) =
            isTerminal (getNode t j)
          rw [hgp' [], if_neg (fun h2 => (hpne (by
            cases p with
            | nil => rfl
            | cons a as => exact absurd h2 (by simp)))), if_neg (Ne.symm hpne), hj]
          rfl
        · rw [he]
    | succ L ih =>
        intro j w hlen hw
        rcases hnode j with ⟨hj, he⟩ | ⟨hj, he⟩
        · -- the rebuilt parent node
          rw [hj] at he ⊢
          rw [isWordN_unfold, isWordN_unfold, he]
          by_cases hwnil : w = []
          · rw [if_pos hwnil, if_pos hwnil]
            subst hwnil
            show truthy (getProp (setProp (delProp (getNode t id) p) (p ++ g) val) []) =
              isTerminal (getNode t id)
            rw [hgp' [], if_neg (fun h2 => (hpne (by
              cases p with
              | nil => rfl
              | cons a as => exact absurd h2 (by simp)))), if_neg (Ne.symm hpne)]
            rfl
          · rw [if_neg hwnil, if_neg hwnil]
            by_cases hraw : getProp (getNode t id) w = some (.num 1)
            · -- the parent has `w` as an inline terminal: unaffected by the hoist
              have hwk : w ∈ keysOf (getNode t id) :=
                List.mem_map.2 ⟨(w, .num 1), getProp_some_mem _ _ _ hraw, rfl⟩
              have hwnp : w ≠ p ++ g := fun he2 => hnpnk (he2 ▸ hwk)
              have hwp : w ≠ p := by
                intro he2
                rw [he2, hp] at hraw
                exact absurd hraw (by simp)
              rw [if_pos hraw, hgp' w, if_neg hwnp, if_neg hwp, if_pos hraw]
            · rw [if_neg hraw]
              by_cases hppre : p.isPrefixOf w = true
              · -- the query passes through the deleted edge
                obtain ⟨w', hw2⟩ := List.isPrefixOf_iff_prefix.1 hppre
                have hwapp : w = p ++ w' := hw2.symm
                have hdropw : w.drop p.length = w' := by
                  rw [hwapp]
                  exact drop_append_len p w' 0
                have hw'f : '_' ∉ w' := fun hm => hw (by rw [hwapp]; exact List.mem_append_right _ hm)
                have hpm : p ∈ nodeProps (getNode t id) true :=
                  (mem_nodeProps_iff _ _ _).2 ⟨.ref cid, getProp_some_mem _ _ _ hp, hpvis,
                    fun _ => rfl⟩
                have hfr : (nodeProps (getNode t id) true).find? (fun x => x.isPrefixOf w) =
                    some p :=
                  find?_pre_unique _ _ (fcu_nodeProps _ _ hfcu)
                    (fun x hx => nodeProps_mem_ne_nil _ _ _ hx) p hpm hppre
                rw [hfr]
                show _ = isWordN t (refIdOf (getProp (getNode t id) p)) (w.drop p.length)
                rw [hp, hdropw]
                show _ = isWordN t cid w'
                conv_rhs => rw [isWordN_unfold]
                by_cases hw'nil : w' = []
                · -- `w` is exactly the deleted label: the child is not terminal
                  rw [if_pos hw'nil, hcterm]
                  have hwp : w = p := by rw [hwapp, hw'nil, List.append_nil]
                  have h1 : ¬ w = p ++ g := by rw [hwp]; exact fun h2 => hnpnep h2.symm
                  rw [hgp' w, if_neg h1, if_pos hwp,
                    if_neg (by simp : ¬ (none : Option Val) = some (Val.num 1))]
                  have hfl : (nodeProps (setProp (delProp (getNode t id) p) (p ++ g) val)
                      true).find? (fun x => x.isPrefixOf w) = none := by
                    refine List.find?_eq_none.2 (fun q hq => ?_)
                    simp only [Bool.not_eq_true]
                    cases hqp : q.isPrefixOf w with
                    | false => rfl
                    | true =>
                        exfalso
                        rcases (hmem' q).1 hq with ⟨he2, _⟩ | ⟨hqm, hqnep⟩
                        · subst he2
                          have hle : (p ++ g).length ≤ w.length :=
                            (List.isPrefixOf_iff_prefix.1 hqp).length_le
                          rw [hwp, List.length_append] at hle
                          have h3 : 0 < g.length := List.length_pos.2 hgne
                          omega
                        · have hqne : q ≠ [] := nodeProps_mem_ne_nil _ _ _ hqm
                          have hqh : q.head? = w.head? := head_of_pre q w hqp hqne
                          rw [hwp] at hqh
                          exact pairwise_heads_ne _ hfcu (visibleKeys_nodup _ hnd) _ _
                            (nodeProps_sub_visible _ _ _ hqm) hpmem hqnep hqh
                  rw [hfl]
                · -- the query continues past the deleted label
                  rw [if_neg hw'nil]
                  by_cases hcraw : getProp (getNode t cid) w' = some (.num 1)
                  · -- the child's single visible property is an inline terminal hit
                    rw [if_pos hcraw]
                    have hw'vis : visKey w' = true := visKey_hfree w' hw'nil hw'f
                    rcases hckey w' (.num 1) (getProp_some_mem _ _ _ hcraw) hw'vis with
                      ⟨hw'g, hv1⟩
                    have hwnp : w = p ++ g := by rw [hwapp, hw'g]
                    rw [hgp' w, if_pos hwnp, ← hv1, if_pos rfl]
                  · rw [if_neg hcraw]
                    have hlraw : ¬ ((if w = p ++ g then some val else if w = p then none
                        else getProp (getNode t id) w) = some (Val.num 1)) := by
                      by_cases h1 : w = p ++ g
                      · rw [if_pos h1]
                        intro h2
                        injection h2 with h3
                        have h4 : w' = g := by
                          rw [hwapp] at h1
                          exact List.append_cancel_left h1
                        rw [h4, hval] at hcraw
                        exact hcraw (by rw [h3])
                      · rw [if_neg h1]
                        by_cases h2 : w = p
                        · rw [if_pos h2]; simp
                        · rw [if_neg h2]; exact hraw
                    by_cases hB : isObj val = true ∧ g.isPrefixOf w' = true
                    · -- follow the child's single edge on both sides
                      obtain ⟨hobj, hgpre⟩ := hB
                      have hgm2 : g ∈ nodeProps (getNode t cid) true :=
                        (mem_nodeProps_iff _ _ _).2 ⟨val, getProp_some_mem _ _ _ hval, hgvis,
                          fun _ => hobj⟩
                      have hfrc : (nodeProps (getNode t cid) true).find?
                          (fun x => x.isPrefixOf w') = some g :=
                        find?_pre_unique _ _ (fcu_nodeProps _ _ hfcuc)
                          (fun x hx => nodeProps_mem_ne_nil _ _ _ hx) g hgm2 hgpre
                      rw [hfrc]
                      show _ = isWordN t (refIdOf (getProp (getNode t cid) g)) (w'.drop g.length)
                      rw [hval]
                      rw [hgp' w, if_neg hlraw]
                      have hnpm : (p ++ g) ∈ nodeProps
                          (setProp (delProp (getNode t id) p) (p ++ g) val) true :=
                        (hmem' _).2 (Or.inl ⟨rfl, hobj⟩)
                      have hnppre : (p ++ g).isPrefixOf w = true := by
                        rw [hwapp, pre_append_cancel]
                        exact hgpre
                      have hfl : (nodeProps (setProp (delProp (getNode t id) p) (p ++ g) val)
                          true).find? (fun x => x.isPrefixOf w) = some (p ++ g) :=
                        find?_pre_unique _ _ (fcu_nodeProps _ _ hfcu')
                          (fun x hx => nodeProps_mem_ne_nil _ _ _ hx) _ hnpm hnppre
                      rw [hfl]
                      show isWordN (setNode t id (setProp (delProp (getNode t id) p) (p ++ g) val))
                          (refIdOf (getProp (setProp (delProp (getNode t id) p) (p ++ g) val)
                            (p ++ g))) (w.drop (p ++ g).length) = _
                      rw [hgp' (p ++ g), if_pos rfl]
                      have hdrop2 : w.drop (p ++ g).length = w'.drop g.length := by
                        rw [hwapp, List.length_append, drop_append_len]
                      rw [hdrop2]
                      apply ih
                      · rw [List.length_drop]
                        have h3 : 0 < p.length := List.length_pos.2 hpne
                        have h4 : w.length = p.length + w'.length := by
                          rw [hwapp, List.length_append]
                        omega
                      · intro hm
                        exact hw'f (List.drop_subset _ _ hm)
                    · -- the child has no usable edge: both sides fail
                      have hfrc : (nodeProps (getNode t cid) true).find?
                          (fun x => x.isPrefixOf w') = none := by
                        refine List.find?_eq_none.2 (fun q hq => ?_)
                        rcases hctru q hq with ⟨he2, hobj⟩
                        subst he2
                        simp only [Bool.not_eq_true]
                        cases hqp : q.isPrefixOf w' with
                        | false => rfl
                        | true => exact absurd ⟨hobj, hqp⟩ hB
                      rw [hfrc]
                      rw [hgp' w, if_neg hlraw]
                      have hfl : (nodeProps (setProp (delProp (getNode t id) p) (p ++ g) val)
                          true).find? (fun x => x.isPrefixOf w) = none := by
                        refine List.find?_eq_none.2 (fun q hq => ?_)
                        simp only [Bool.not_eq_true]
                        cases hqp : q.isPrefixOf w with
                        | false => rfl
                        | true =>
                            exfalso
                            rcases (hmem' q).1 hq with ⟨he2, hobj⟩ | ⟨hqm, hqnep⟩
                            · subst he2
                              have h5 : g.isPrefixOf w' = true := by
                                rw [hwapp, pre_append_cancel] at hqp
                                exact hqp
                              exact hB ⟨hobj, h5⟩
                            · have hqne : q ≠ [] := nodeProps_mem_ne_nil _ _ _ hqm
                              have hqh : q.head? = w.head? := head_of_pre q w hqp hqne
                              rw [hwapp, head_append_ne_nil p w' hpne] at hqh
                              exact pairwise_heads_ne _ hfcu (visibleKeys_nodup _ hnd) _ _
                                (nodeProps_sub_visible _ _ _ hqm) hpmem hqnep hqh
                      rw [hfl]
              · -- the query avoids the deleted edge
                have hwp : w ≠ p := by
                  intro he2
                  rw [he2] at hppre
                  exact hppre (List.isPrefixOf_iff_prefix.2 (List.prefix_refl p))
                have hwnp : w ≠ p ++ g := by
                  intro he2
                  exact hppre (by rw [he2]; exact List.isPrefixOf_iff_prefix.2 ⟨g, rfl⟩)
                rw [hgp' w, if_neg hwnp, if_neg hwp, if_neg hraw]
                by_cases hex : ∃ q ∈ nodeProps (getNode t id) true, q.isPrefixOf w = true
                · obtain ⟨q, hqm, hqp⟩ := hex
                  have hqnep : q ≠ p := fun he2 => hppre (he2 ▸ hqp)
                  have hqnnp : q ≠ p ++ g := by
                    intro he2
                    rcases (mem_nodeProps_iff _ _ _).1 hqm with ⟨v, hm, _, _⟩
                    exact hnpnk (he2 ▸ List.mem_map.2 ⟨(q, v), hm, rfl⟩)
                  have hfr : (nodeProps (getNode t id) true).find? (fun x => x.isPrefixOf w) =
                      some q :=
                    find?_pre_unique _ _ (fcu_nodeProps _ _ hfcu)
                      (fun x hx => nodeProps_mem_ne_nil _ _ _ hx) q hqm hqp
                  have hq'm : q ∈ nodeProps (setProp (delProp (getNode t id) p) (p ++ g) val)
                      true := (hmem' q).2 (Or.inr ⟨hqm, hqnep⟩)
                  have hfl : (nodeProps (setProp (delProp (getNode t id) p) (p ++ g) val)
                      true).find? (fun x => x.isPrefixOf w) = some q :=
                    find?_pre_unique _ _ (fcu_nodeProps _ _ hfcu')
                      (fun x hx => nodeProps_mem_ne_nil _ _ _ hx) q hq'm hqp
                  rw [hfr, hfl]
                  show isWordN (setNode t id (setProp (delProp (getNode t id) p) (p ++ g) val))
                      (refIdOf (getProp (setProp (delProp (getNode t id) p) (p ++ g) val) q))
                      (w.drop q.length) =
                    isWordN t (refIdOf (getProp (getNode t id) q)) (w.drop q.length)
                  rw [hgp' q, if_neg hqnnp, if_neg hqnep]
                  have hqne : q ≠ [] := nodeProps_mem_ne_nil _ _ _ hqm
                  have hqlen : q.length ≤ w.length :=
                    (List.isPrefixOf_iff_prefix.1 hqp).length_le
                  apply ih
                  · rw [List.length_drop]
                    have : 0 < q.length := List.length_pos.2 hqne
                    omega
                  · intro hm
                    exact hw (List.drop_subset _ _ hm)
                · push_neg at hex
                  have hfr : (nodeProps (getNode t id) true).find? (fun x => x.isPrefixOf w) =
                      none := List.find?_eq_none.2 (fun q hq => by simpa using hex q hq)
                  have hfl : (nodeProps (setProp (delProp (getNode t id) p) (p ++ g) val)
                      true).find? (fun x => x.isPrefixOf w) = none := by
                    refine List.find?_eq_none.2 (fun q hq => ?_)
                    rcases (hmem' q).1 hq with ⟨he2, _⟩ | ⟨hqm, _⟩
                    · subst he2
                      simp only [Bool.not_eq_true]
                      cases hpp : (p ++ g).isPrefixOf w with
                      | false => rfl
                      | true =>
                          exfalso
                          have h2 : p <+: w :=
                            List.IsPrefix.trans ⟨g, rfl⟩ (List.isPrefixOf_iff_prefix.1 hpp)
                          exact hppre (List.isPrefixOf_iff_prefix.2 h2)
                    · simpa using hex q hqm
                  rw [hfr, hfl]
        · -- an untouched node
          rw [isWordN_unfold, isWordN_unfold, he]
          by_cases hwnil : w = []
          · rw [if_pos hwnil, if_pos hwnil]
          · rw [if_neg hwnil, if_neg hwnil]
            by_cases hraw : getProp (getNode t j) w = some (.num 1)
            · rw [if_pos hraw, if_pos hraw]
            · rw [if_neg hraw, if_neg hraw]
              cases hf : (nodeProps (getNode t j) true).find? (fun x => x.isPrefixOf w) with
              | none => rfl
              | some q =>
                  rcases nodeProps_find?_facts _ _ _ hf with ⟨hqne, hqpre⟩
                  show isWordN (setNode t id (setProp (delProp (getNode t id) p) (p ++ g) val))
                      (refIdOf (getProp (getNode t j) q)) (w.drop q.length) =
                    isWordN t (refIdOf (getProp (getNode t j) q)) (w.drop q.length)
                  have hqlen : q.length ≤ w.length :=
                    (List.isPrefixOf_iff_prefix.1 hqpre).length_le
                  apply ih
                  · rw [List.length_drop]
                    have : 0 < q.length := List.length_pos.2 hqne
                    omega
                  · intro hm
                    exact hw (List.drop_subset _ _ hm)
  exact fun j w hw => main w.length j w (le_refl _) hw

theorem visited_cases (t : Trie) (id : Nat) :
    ((visited t id).2 = true ∧ (visited t id).1 = t ∧
      getProp (getNode t id) kV = some (.num t.vCur)) ∨
    ((visited t id).2 = false ∧
      (visited t id).1 = setNode t id (setProp (getNode t id) kV (.num t.vCur)) ∧
      ¬ getProp (getNode t id) kV = some (.num t.vCur)) := by
  unfold visited
  by_cases hc : getProp (getNode t id) kV = some (.num t.vCur)
  · rw [if_pos hc]; exact Or.inl ⟨rfl, rfl, hc⟩
  · rw [if_neg hc]; exact Or.inr ⟨rfl, rfl, hc⟩

theorem collapseChains_eq (f : Nat) (t : Trie) (id : Nat) :
    collapseChains (f + 1) t id =
      (if (visited t id).2 then (visited t id).1
       else
         let props := nodeProps (getNode (visited t id).1 id) false
         let fold := props.foldl (collapseStep f id) ((visited t id).1, [])
         if props.length = 1 ∧ ¬ isTerminal (getNode fold.1 id) then
           setNode fold.1 id (setProp (getNode fold.1 id) kG (.str fold.2))
         else fold.1) := rfl

theorem collapseStep_spec (f id : Nat) (acc : Trie × Str) (p : Str) :
    collapseStep f id acc p = (acc.1, p) ∨
    (∃ cid, getProp (getNode acc.1 id) p = some (.ref cid) ∧
      (collapseStep f id acc p = (collapseChains f acc.1 cid, p) ∨
       ∃ g, getProp (getNode (collapseChains f acc.1 cid) cid) kG = some (.str g) ∧
         (getProp (getNode (collapseChains f acc.1 cid) cid) kD = some (.num 1) ∨
           g.length = 1) ∧
         collapseStep f id acc p =
           (setNode (setNode (collapseChains f acc.1 cid) id
              (delProp (getNode (collapseChains f acc.1 cid) id) p)) id
              (setProp (getNode (setNode (collapseChains f acc.1 cid) id
                (delProp (getNode (collapseChains f acc.1 cid) id) p)) id) (p ++ g)
                ((getProp (getNode (collapseChains f acc.1 cid) cid) g).getD .undef)),
            p ++ g))) := by
  simp only [collapseStep]
  split
  next cid heq =>
    refine Or.inr ⟨cid, heq, ?_⟩
    split
    next g hg =>
      split
      next hc => exact Or.inr ⟨g, hg, hc, rfl⟩
      next hc => exact Or.inl rfl
    next => exact Or.inl rfl
  next => exact Or.inl rfl

theorem collapse_admin : ∀ (fuel : Nat) (t : Trie) (id : Nat),
    (collapseChains fuel t id).vCur = t.vCur ∧
    (collapseChains fuel t id).arena.length = t.arena.length := by
  intro fuel
  induction fuel with
  | zero => intro t id; exact ⟨rfl, rfl⟩
  | succ f ih =>
      intro t id
      rw [collapseChains_eq]
      rcases visited_cases t id with ⟨hv2, hv1, _⟩ | ⟨hv2, hv1, _⟩
      · rw [hv2, if_pos rfl, hv1]
        exact ⟨rfl, rfl⟩
      · rw [hv2, if_neg (by simp), hv1]
        have hP : ∀ u : Trie, u.vCur = t.vCur ∧ u.arena.length = t.arena.length →
            ∀ i n, (setNode u i n).vCur = t.vCur ∧
              (setNode u i n).arena.length = t.arena.length := by
          intro u hu i n
          exact ⟨hu.1, (setNode_arena_len u i n).trans hu.2⟩
        have hstep : ∀ (acc : Trie × Str) (p : Str),
            acc.1.vCur = t.vCur ∧ acc.1.arena.length = t.arena.length →
            (collapseStep f id acc p).1.vCur = t.vCur ∧
              (collapseStep f id acc p).1.arena.length = t.arena.length := by
          intro acc p hacc
          rcases collapseStep_spec f id acc p with he | ⟨cid, _, he | ⟨g, _, _, he⟩⟩
          · rw [he]; exact hacc
          · rw [he]
            have h1 := ih acc.1 cid
            exact ⟨h1.1.trans hacc.1, h1.2.trans hacc.2⟩
          · rw [he]
            have h1 := ih acc.1 cid
            exact hP _ (hP _ ⟨h1.1.trans hacc.1, h1.2.trans hacc.2⟩ _ _) _ _
        have hstart : (setNode t id (setProp (getNode t id) kV (.num t.vCur))).vCur = t.vCur ∧
            (setNode t id (setProp (getNode t id) kV (.num t.vCur))).arena.length =
              t.arena.length :=
          ⟨rfl, setNode_arena_len _ _ _⟩
        have hfolded := foldl_rel (collapseStep f id)
          (fun acc : Trie × Str => acc.1.vCur = t.vCur ∧ acc.1.arena.length = t.arena.length)
          (nodeProps (getNode (setNode t id (setProp (getNode t id) kV (.num t.vCur))) id) false)
          ((setNode t id (setProp (getNode t id) kV (.num t.vCur))), ([] : Str))
          hstart (fun acc p _ hacc => hstep acc p hacc)
        by_cases hcond : (nodeProps (getNode (setNode t id (setProp (getNode t id) kV
            (.num t.vCur))) id) false).length = 1 ∧
            ¬ isTerminal (getNode ((nodeProps (getNode (setNode t id (setProp (getNode t id) kV
              (.num t.vCur))) id) false).foldl (collapseStep f id)
              ((setNode t id (setProp (getNode t id) kV (.num t.vCur))), ([] : Str))).1 id) = true
        · rw [if_pos hcond]
          exact hP _ hfolded _ _
        · rw [if_neg hcond]
          exact hfolded

/-- `collapseChains` never touches a node already stamped in the current
epoch: all its writes target nodes it processes, and processing starts
only on unstamped nodes. -/
theorem collapse_stamped : ∀ (fuel : Nat) (t : Trie) (id z : Nat),
    getProp (getNode t z) kV = some (.num t.vCur) →
    getNode (collapseChains fuel t id) z = getNode t z := by
  intro fuel
  induction fuel with
  | zero => intro t id z _; rfl
  | succ f ih =>
      intro t id z hz
      rw [collapseChains_eq]
      rcases visited_cases t id with ⟨hv2, hv1, _⟩ | ⟨hv2, hv1, hunst⟩
      · rw [hv2, if_pos rfl, hv1]
      · rw [hv2, if_neg (by simp), hv1]
        have hzid : z ≠ id := fun he => hunst (he ▸ hz)
        have hstart : getNode (setNode t id (setProp (getNode t id) kV (.num t.vCur))) z =
            getNode t z := getNode_setNode_ne _ _ _ _ hzid
        have hstep : ∀ (acc : Trie × Str) (p : Str),
            getNode acc.1 z = getNode t z ∧ acc.1.vCur = t.vCur →
            getNode (collapseStep f id acc p).1 z = getNode t z ∧
              (collapseStep f id acc p).1.vCur = t.vCur := by
          intro acc p hacc
          have hzacc : getProp (getNode acc.1 z) kV = some (.num acc.1.vCur) := by
            rw [hacc.1, hacc.2]
            exact hz
          rcases collapseStep_spec f id acc p with he | ⟨cid, _, he | ⟨g, _, _, he⟩⟩
          · rw [he]; exact hacc
          · rw [he]
            exact ⟨(ih acc.1 cid z hzacc).trans hacc.1,
              (collapse_admin f acc.1 cid).1.trans hacc.2⟩
          · rw [he]
            refine ⟨?_, (collapse_admin f acc.1 cid).1.trans hacc.2⟩
            rw [getNode_setNode_ne _ _ _ _ hzid, getNode_setNode_ne _ _ _ _ hzid]
            exact (ih acc.1 cid z hzacc).trans hacc.1
        have hfolded := foldl_rel (collapseStep f id)
          (fun acc : Trie × Str => getNode acc.1 z = getNode t z ∧ acc.1.vCur = t.vCur)
          (nodeProps (getNode (setNode t id (setProp (getNode t id) kV (.num t.vCur))) id) false)
          ((setNode t id (setProp (getNode t id) kV (.num t.vCur))), ([] : Str))
          ⟨hstart, rfl⟩ (fun acc p _ hacc => hstep acc p hacc)
        by_cases hcond : (nodeProps (getNode (setNode t id (setProp (getNode t id) kV
            (.num t.vCur))) id) false).length = 1 ∧
            ¬ isTerminal (getNode ((nodeProps (getNode (setNode t id (setProp (getNode t id) kV
              (.num t.vCur))) id) false).foldl (collapseStep f id)
              ((setNode t id (setProp (getNode t id) kV (.num t.vCur))), ([] : Str))).1 id) = true
        · rw [if_pos hcond]
          exact (getNode_setNode_ne _ _ _ _ hzid).trans hfolded.1
        · rw [if_neg hcond]
          exact hfolded.1

theorem setNode_setNode (t : Trie) (id : Nat) (a b : Node) :
    setNode (setNode t id a) id b = setNode t id b := by
  simp [setNode, List.set_set]

theorem getNode_setNode_self (t : Trie) (id : Nat) (n : Node)
    (h : id < t.arena.length) : getNode (setNode t id n) id = n := by
  rw [getNode_setNode, if_pos ⟨rfl, h⟩]

theorem setNode_vCur (t : Trie) (id : Nat) (n : Node) :
    (setNode t id n).vCur = t.vCur := rfl

theorem nodeOkA_delProp (m : Nat) (n : Node) (k : Str) (h : nodeOkA m n) :
    nodeOkA m (delProp n k) := by
  refine ⟨ndKeys_delProp n k h.1, ?_, ?_⟩
  · unfold fcu
    rw [visibleKeys_delProp]
    exact List.Pairwise.sublist (List.filter_sublist _) h.2.1
  · intro kv hkv i hi
    exact h.2.2 kv (mem_delProp n k kv hkv) i hi

theorem nodeOkA_setProp (m : Nat) (n : Node) (k : Str) (v : Val) (h : nodeOkA m n)
    (hrefs : ∀ i, v = Val.ref i → i < m)
    (hfcu : visKey k = true → ¬ n.any (fun kv => kv.1 = k) = true →
      ∀ q ∈ visibleKeys n, q.head? ≠ k.head?) :
    nodeOkA m (setProp n k v) := by
  refine ⟨ndKeys_setProp n k v h.1, ?_, ?_⟩
  · unfold fcu
    by_cases hm : n.any (fun kv => kv.1 = k) = true
    · rw [visibleKeys_setProp_mem n k v hm]
      exact h.2.1
    · rw [visibleKeys_setProp_new n k v hm]
      cases hv : visKey k with
      | false => simpa using h.2.1
      | true =>
          rw [if_pos rfl]
          rw [List.pairwise_append]
          refine ⟨h.2.1, List.pairwise_singleton _ _, ?_⟩
          intro q hq b hb
          rw [List.mem_singleton] at hb
          subst hb
          exact hfcu hv hm q hq
  · intro kv hkv i hi
    rcases mem_setProp n k v kv hkv with he | hmem
    · subst he
      exact hrefs i hi
    · exact h.2.2 kv hmem i hi

theorem invA_setNode (t : Trie) (id : Nat) (n : Node) (h : invA t)
    (hok : nodeOkA t.arena.length n) : invA (setNode t id n) := by
  have hlen : (setNode t id n).arena.length = t.arena.length := setNode_arena_len t id n
  refine ⟨by rw [hlen]; exact h.1, ?_⟩
  intro j
  rw [hlen, getNode_setNode]
  by_cases hc : j = id ∧ j < t.arena.length
  · rw [if_pos hc]; exact hok
  · rw [if_neg hc]; exact h.2 j

theorem nodeOkA_invis (m : Nat) (n : Node) (k : Str) (v : Val) (h : nodeOkA m n)
    (hk : visKey k = false) (hrefs : ∀ i, v = Val.ref i → i < m) :
    nodeOkA m (setProp n k v) :=
  nodeOkA_setProp m n k v h hrefs (fun hvk _ _ _ _ => absurd hvk (by rw [hk]; simp))

/-- Well-formedness of the rebuilt parent node after a hoist. -/
theorem hoist_nodeOkA (m : Nat) (n c : Node) (p g : Str) (val : Val) (cid : Nat)
    (hok : nodeOkA m n) (hokc : nodeOkA m c)
    (hp : getProp n p = some (.ref cid)) (hpvis : visKey p = true)
    (hval : getProp c g = some val) (hgne : g ≠ []) :
    nodeOkA m (setProp (delProp n p) (p ++ g) val) := by
  have hpne : p ≠ [] := visKey_ne_nil p hpvis
  have hpk : p ∈ keysOf n := List.mem_map.2 ⟨(p, .ref cid), getProp_some_mem _ _ _ hp, rfl⟩
  have hpmem : p ∈ visibleKeys n := (mem_visibleKeys_iff _ _).2 ⟨hpk, hpvis⟩
  have hnpvis : visKey (p ++ g) = true := visKey_append p g hpvis
  have hnphead : (p ++ g).head? = p.head? := head_append_ne_nil p g hpne
  refine nodeOkA_setProp m _ _ _ (nodeOkA_delProp m n p hok) ?_ ?_
  · intro i hi
    exact hokc.2.2 (g, val) (getProp_some_mem _ _ _ hval) i (by rw [hi])
  · intro _ _ q hq
    rw [visibleKeys_delProp, List.mem_filter] at hq
    have hqnep : q ≠ p := by simpa using hq.2
    rw [hnphead]
    exact pairwise_heads_ne _ hok.2.1 (visibleKeys_nodup _ hok.1) _ _ hq.1 hpmem hqnep

theorem getProp_hoist_other (n : Node) (p g q : Str) (val : Val)
    (hq1 : q ≠ p ++ g) (hq2 : q ≠ p) :
    getProp (setProp (delProp n p) (p ++ g) val) q = getProp n q := by
  rw [getProp_setProp, if_neg hq1, getProp_delProp, if_neg hq2]

theorem kG_ne_kV : kG ≠ kV := by decide

theorem invis_ne_vis (k q : Str) (hk : visKey k = false) (hq : visKey q = true) : k ≠ q :=
  fun he => by rw [he, hq] at hk; cases hk

theorem gAcc_setNode_none (t : Trie) (id : Nat) (n : Node) (hG : gAcc t)
    (hkg : getProp n kG = none) : gAcc (setNode t id n) := by
  intro j v hv
  rw [getNode_setNode] at hv ⊢
  by_cases hc : j = id ∧ j < t.arena.length
  · rw [if_pos hc] at hv ⊢
    rw [hkg] at hv
    cases hv
  · rw [if_neg hc] at hv ⊢
    exact hG j v hv

theorem gAcc_setNode_tagged (t : Trie) (id : Nat) (n2 : Node) (g0 : Str) (hG : gAcc t)
    (hprops : nodeProps n2 false = [g0]) (hterm : isTerminal n2 = false) :
    gAcc (setNode t id (setProp n2 kG (.str g0))) := by
  intro j v hv
  rw [getNode_setNode] at hv ⊢
  by_cases hc : j = id ∧ j < t.arena.length
  · rw [if_pos hc] at hv ⊢
    rw [getProp_setProp, if_pos rfl] at hv
    injection hv with hv2
    refine ⟨g0, hv2.symm, ?_, ?_⟩
    · rw [nodeProps_setProp_invis _ _ _ _ visKey_kG, hprops]
    · rw [isTerminal_setProp_ne _ _ _ (by decide : kG ≠ []), hterm]
  · rw [if_neg hc] at hv ⊢
    exact hG j v hv

theorem gStamp_setNode (t : Trie) (id : Nat) (n : Node) (hG : gStamp t)
    (hnode : ∀ v, getProp n kG = some v → getProp n kV = some (.num t.vCur)) :
    gStamp (setNode t id n) := by
  intro j v hv
  show getProp (getNode (setNode t id n) j) kV = some (.num t.vCur)
  rw [getNode_setNode] at hv ⊢
  by_cases hc : j = id ∧ j < t.arena.length
  · rw [if_pos hc] at hv ⊢
    exact hnode v hv
  · rw [if_neg hc] at hv ⊢
    exact hG j v hv

/-- A hoist step keeps the collapse invariant, preserves membership, and
leaves the parent untagged and stamped. -/
theorem hoist_good (t1 : Trie) (id cid : Nat) (p g : Str) (val : Val)
    (hG : goodC t1) (hid : id < t1.arena.length)
    (hp : getProp (getNode t1 id) p = some (.ref cid))
    (hpvis : visKey p = true)
    (hg : getProp (getNode t1 cid) kG = some (.str g))
    (hkgnone : getProp (getNode t1 id) kG = none)
    (hval : getProp (getNode t1 cid) g = some val) :
    goodC (setNode t1 id (setProp (delProp (getNode t1 id) p) (p ++ g) val)) ∧
    pres t1 (setNode t1 id (setProp (delProp (getNode t1 id) p) (p ++ g) val)) ∧
    getProp (getNode (setNode t1 id (setProp (delProp (getNode t1 id) p) (p ++ g) val)) id)
      kG = none ∧
    getProp (getNode (setNode t1 id (setProp (delProp (getNode t1 id) p) (p ++ g) val)) id)
      kV = getProp (getNode t1 id) kV := by
  rcases hG.2.1 cid (.str g) hg with ⟨g2, hg2, hprops0, hterm⟩
  have hgg : g2 = g := by injection hg2 with h2; exact h2.symm
  rw [hgg] at hprops0
  have hgvis : visKey g = true := by
    have hgm : g ∈ nodeProps (getNode t1 cid) false := by
      rw [hprops0]; exact List.mem_singleton.2 rfl
    rcases (mem_nodeProps_iff _ _ _).1 hgm with ⟨v', _, hvk, _⟩
    exact hvk
  have hgne : g ≠ [] := visKey_ne_nil g hgvis
  have hnpvis : visKey (p ++ g) = true := visKey_append p g hpvis
  have hkgnp : kG ≠ p ++ g := invis_ne_vis _ _ visKey_kG hnpvis
  have hkgp : kG ≠ p := invis_ne_vis _ _ visKey_kG hpvis
  have hkvnp : kV ≠ p ++ g := invis_ne_vis _ _ visKey_kV hnpvis
  have hkvp : kV ≠ p := invis_ne_vis _ _ visKey_kV hpvis
  have hself : getNode (setNode t1 id (setProp (delProp (getNode t1 id) p) (p ++ g) val)) id =
      setProp (delProp (getNode t1 id) p) (p ++ g) val := getNode_setNode_self _ _ _ hid
  refine ⟨⟨?_, ?_, ?_⟩, ?_, ?_, ?_⟩
  · exact invA_setNode _ _ _ hG.1
      (hoist_nodeOkA _ _ _ _ _ _ cid (hG.1.2 id) (hG.1.2 cid) hp hpvis hval hgne)
  · exact gAcc_setNode_none _ _ _ hG.2.1
      (by rw [getProp_hoist_other _ _ _ _ _ hkgnp hkgp]; exact hkgnone)
  · refine gStamp_setNode _ _ _ hG.2.2 ?_
    intro v hv
    rw [getProp_hoist_other _ _ _ _ _ hkgnp hkgp] at hv
    rw [hkgnone] at hv
    cases hv
  · exact hoist_pres t1 id cid p g val hid (hG.1.2 id).1 (hG.1.2 id).2.1
      (hG.1.2 cid).1 (hG.1.2 cid).2.1 hp hpvis hprops0 hterm hval
  · rw [hself, getProp_hoist_other _ _ _ _ _ hkgnp hkgp]
    exact hkgnone
  · rw [hself, getProp_hoist_other _ _ _ _ _ hkvnp hkvp]

/-- The rebuilt parent of a hoist whose previous only visible key was the
hoisted label has exactly the new label visible. -/
theorem hoist_vis_singleton (n : Node) (p g : Str) (val : Val)
    (hvis : visibleKeys n = [p]) (hpvis : visKey p = true) (hgne : g ≠ []) :
    nodeProps (setProp (delProp n p) (p ++ g) val) false = [p ++ g] := by
  have hnpvis : visKey (p ++ g) = true := visKey_append p g hpvis
  have hnpnep : p ++ g ≠ p := by
    intro he
    have h2 : p.length + g.length = p.length := by simpa using congrArg List.length he
    exact hgne (List.eq_nil_of_length_eq_zero (by omega))
  have hnpnk : (p ++ g) ∉ keysOf n := by
    intro hk
    have hm : (p ++ g) ∈ visibleKeys n := (mem_visibleKeys_iff _ _).2 ⟨hk, hnpvis⟩
    rw [hvis, List.mem_singleton] at hm
    exact hnpnep hm
  have hform : setProp (delProp n p) (p ++ g) val = delProp n p ++ [(p ++ g, val)] :=
    setProp_new _ _ _ (fun hk => hnpnk (keysOf_delProp_sub _ _ _ hk))
  rw [nodeProps_false_eq, hform]
  have hvk2 : visibleKeys (delProp n p ++ [(p ++ g, val)]) =
      (visibleKeys n).filter (fun x => ¬ x = p) ++ [p ++ g] := by
    show ((delProp n p ++ [(p ++ g, val)]).filter (fun kv => visKey kv.1)).map
        (fun kv => kv.1) = _
    rw [List.filter_append, List.map_append]
    congr 1
    · exact visibleKeys_delProp n p
    · simp [hnpvis]
  rw [hvk2, hvis]
  simp [sortStrs, insSorted]

/-- The collapse pass from a well-formed state: the invariant is kept and
membership of every `'_'`-free word is unchanged through every node. -/
theorem collapse_main : ∀ (fuel : Nat) (t : Trie) (id : Nat), goodC t →
    id < t.arena.length →
    goodC (collapseChains fuel t id) ∧ pres t (collapseChains fuel t id) := by
  intro fuel
  induction fuel with
  | zero => intro t id hG _; exact ⟨hG, pres_refl t⟩
  | succ f ih =>
      intro t id hG hid
      rw [collapseChains_eq]
      rcases visited_cases t id with ⟨hv2, hv1, _⟩ | ⟨hv2, hv1, hunst⟩
      · rw [hv2, if_pos rfl, hv1]
        exact ⟨hG, pres_refl t⟩
      · rw [hv2, if_neg (by simp), hv1]
        have hkG0 : getProp (getNode t id) kG = none := by
          cases hx : getProp (getNode t id) kG with
          | none => rfl
          | some v => exact absurd (hG.2.2 id v hx) hunst
        have hpresT : pres t (setNode t id (setProp (getNode t id) kV (.num t.vCur))) :=
          pres_invis_write t id kV (.num t.vCur) visKey_kV (by decide)
        set ts := setNode t id (setProp (getNode t id) kV (.num t.vCur)) with hts
        have htk : getNode ts id = setProp (getNode t id) kV (.num t.vCur) := by
          rw [hts]
          exact getNode_setNode_self _ _ _ hid
        have hGts : goodC ts := by
          refine ⟨?_, ?_, ?_⟩
          · rw [hts]
            exact invA_setNode _ _ _ hG.1
              (nodeOkA_invis _ _ _ _ (hG.1.2 id) visKey_kV (by intro i hi; cases hi))
          · rw [hts]
            refine gAcc_setNode_none _ _ _ hG.2.1 ?_
            rw [getProp_setProp, if_neg kG_ne_kV]
            exact hkG0
          · rw [hts]
            refine gStamp_setNode _ _ _ hG.2.2 ?_
            intro v hv
            rw [getProp_setProp, if_neg kG_ne_kV, hkG0] at hv
            cases hv
        have hkVts : getProp (getNode ts id) kV = some (.num t.vCur) := by
          rw [htk, getProp_setProp, if_pos rfl]
        have hkGts : getProp (getNode ts id) kG = none := by
          rw [htk, getProp_setProp, if_neg kG_ne_kV]
          exact hkG0
        have hlents : ts.arena.length = t.arena.length := by
          rw [hts]
          exact setNode_arena_len _ _ _
        have hvCts : ts.vCur = t.vCur := by rw [hts]; rfl
        have hstep : ∀ (acc : Trie × Str) (p : Str), p ∈ nodeProps (getNode ts id) false →
            (goodC acc.1 ∧ pres ts acc.1 ∧ acc.1.vCur = t.vCur ∧
              acc.1.arena.length = t.arena.length ∧
              getProp (getNode acc.1 id) kV = some (.num t.vCur) ∧
              getProp (getNode acc.1 id) kG = none) →
            (goodC (collapseStep f id acc p).1 ∧ pres ts (collapseStep f id acc p).1 ∧
              (collapseStep f id acc p).1.vCur = t.vCur ∧
              (collapseStep f id acc p).1.arena.length = t.arena.length ∧
              getProp (getNode (collapseStep f id acc p).1 id) kV = some (.num t.vCur) ∧
              getProp (getNode (collapseStep f id acc p).1 id) kG = none) := by
          intro acc p hpm hQ
          obtain ⟨hQ1, hQ2, hQ3, hQ4, hQ5, hQ6⟩ := hQ
          rcases collapseStep_spec f id acc p with he | ⟨cid, hpgp, he | ⟨g, hg, _, he⟩⟩
          · rw [he]
            exact ⟨hQ1, hQ2, hQ3, hQ4, hQ5, hQ6⟩
          · have hcid : cid < acc.1.arena.length :=
              (hQ1.1.2 id).2.2 (p, .ref cid) (getProp_some_mem _ _ _ hpgp) cid rfl
            have hih := ih acc.1 cid hQ1 hcid
            have hstamp : getProp (getNode acc.1 id) kV = some (.num acc.1.vCur) := by
              rw [hQ3]
              exact hQ5
            have hnodeid : getNode (collapseChains f acc.1 cid) id = getNode acc.1 id :=
              collapse_stamped f acc.1 cid id hstamp
            rw [he]
            exact ⟨hih.1, pres_trans _ _ _ hQ2 hih.2,
              (collapse_admin f acc.1 cid).1.trans hQ3,
              (collapse_admin f acc.1 cid).2.trans hQ4,
              by rw [hnodeid]; exact hQ5,
              by rw [hnodeid]; exact hQ6⟩
          · have hcid : cid < acc.1.arena.length :=
              (hQ1.1.2 id).2.2 (p, .ref cid) (getProp_some_mem _ _ _ hpgp) cid rfl
            have hih := ih acc.1 cid hQ1 hcid
            have hstamp : getProp (getNode acc.1 id) kV = some (.num acc.1.vCur) := by
              rw [hQ3]
              exact hQ5
            have hnodeid : getNode (collapseChains f acc.1 cid) id = getNode acc.1 id :=
              collapse_stamped f acc.1 cid id hstamp
            have hid1 : id < (collapseChains f acc.1 cid).arena.length := by
              rw [(collapse_admin f acc.1 cid).2, hQ4]
              exact hid
            have hpvis : visKey p = true := by
              rcases (mem_nodeProps_iff _ _ _).1 hpm with ⟨v', _, hvk, _⟩
              exact hvk
            have hp1 : getProp (getNode (collapseChains f acc.1 cid) id) p =
                some (.ref cid) := by
              rw [hnodeid]
              exact hpgp
            have hkg1 : getProp (getNode (collapseChains f acc.1 cid) id) kG = none := by
              rw [hnodeid]
              exact hQ6
            have hgm : g ∈ nodeProps (getNode (collapseChains f acc.1 cid) cid) false := by
              rcases hih.1.2.1 cid (.str g) hg with ⟨g2, hg2, hprops2, _⟩
              have hgg : g2 = g := by injection hg2 with h2; exact h2.symm
              rw [hgg] at hprops2
              rw [hprops2]
              exact List.mem_singleton.2 rfl
            obtain ⟨val, hval⟩ := getProp_of_mem_keys _ _
              (visibleKeys_subset_keysOf _ _ (nodeProps_sub_visible _ _ _ hgm))
            obtain ⟨hH1, hH2, hH3, hH4⟩ := hoist_good (collapseChains f acc.1 cid) id cid p g
              val hih.1 hid1 hp1 hpvis hg hkg1 hval
            have heq : (collapseStep f id acc p).1 =
                setNode (collapseChains f acc.1 cid) id
                  (setProp (delProp (getNode (collapseChains f acc.1 cid) id) p)
                    (p ++ g) val) := by
              rw [he]
              show setNode (setNode (collapseChains f acc.1 cid) id
                (delProp (getNode (collapseChains f acc.1 cid) id) p)) id _ = _
              rw [setNode_setNode]
              congr 1
              rw [getNode_setNode_self _ _ _ hid1, hval]
              rfl
            rw [heq]
            refine ⟨hH1, pres_trans _ _ _ (pres_trans _ _ _ hQ2 hih.2) hH2, ?_, ?_, ?_, hH3⟩
            · rw [setNode_vCur]
              exact (collapse_admin f acc.1 cid).1.trans hQ3
            · rw [setNode_arena_len]
              exact (collapse_admin f acc.1 cid).2.trans hQ4
            · rw [hH4, hnodeid]
              exact hQ5
        have hfold := foldl_rel (collapseStep f id)
          (fun acc : Trie × Str => goodC acc.1 ∧ pres ts acc.1 ∧ acc.1.vCur = t.vCur ∧
            acc.1.arena.length = t.arena.length ∧
            getProp (getNode acc.1 id) kV = some (.num t.vCur) ∧
            getProp (getNode acc.1 id) kG = none)
          (nodeProps (getNode ts id) false) (ts, ([] : Str))
          ⟨hGts, pres_refl ts, hvCts, hlents, hkVts, hkGts⟩
          (fun acc p hpm hQ => hstep acc p hpm hQ)
        set fold := (nodeProps (getNode ts id) false).foldl (collapseStep f id)
          (ts, ([] : Str)) with hfolddef
        obtain ⟨hF1, hF2, hF3, hF4, hF5, hF6⟩ := hfold
        by_cases hcond : (nodeProps (getNode ts id) false).length = 1 ∧
            ¬ isTerminal (getNode fold.1 id) = true
        · rw [if_pos hcond]
          obtain ⟨p₁, hp₁⟩ := List.length_eq_one.1 hcond.1
          have hfold1 : fold = collapseStep f id (ts, ([] : Str)) p₁ := by
            rw [hfolddef, hp₁]
            rfl
          have hsing : nodeProps (getNode fold.1 id) false = [fold.2] := by
            rcases collapseStep_spec f id (ts, ([] : Str)) p₁ with
              he | ⟨cid, hpgp, he | ⟨g, hg, _, he⟩⟩
            · rw [hfold1, he]
              exact hp₁
            · rw [hfold1, he]
              show nodeProps (getNode (collapseChains f ts cid) id) false = [p₁]
              rw [collapse_stamped f ts cid id (by rw [hvCts]; exact hkVts)]
              exact hp₁
            · have hstamp : getProp (getNode ts id) kV = some (.num ts.vCur) := by
                rw [hvCts]
                exact hkVts
              have hnodeid : getNode (collapseChains f ts cid) id = getNode ts id :=
                collapse_stamped f ts cid id hstamp
              have hid1 : id < (collapseChains f ts cid).arena.length := by
                rw [(collapse_admin f ts cid).2, hlents]
                exact hid
              have hcid : cid < ts.arena.length :=
                (hGts.1.2 id).2.2 (p₁, .ref cid) (getProp_some_mem _ _ _ hpgp) cid rfl
              have hih := ih ts cid hGts hcid
              rcases hih.1.2.1 cid (.str g) hg with ⟨g2, hg2, hprops2, _⟩
              have hgg : g2 = g := by injection hg2 with h2; exact h2.symm
              rw [hgg] at hprops2
              have hgm : g ∈ nodeProps (getNode (collapseChains f ts cid) cid) false := by
                rw [hprops2]
                exact List.mem_singleton.2 rfl
              have hgvis : visKey g = true := by
                rcases (mem_nodeProps_iff _ _ _).1 hgm with ⟨v', _, hvk, _⟩
                exact hvk
              obtain ⟨val, hval⟩ := getProp_of_mem_keys _ _
                (visibleKeys_subset_keysOf _ _ (nodeProps_sub_visible _ _ _ hgm))
              have hp1vis : visKey p₁ = true := by
                have hm1 : p₁ ∈ nodeProps (getNode ts id) false := by
                  rw [hp₁]
                  exact List.mem_singleton.2 rfl
                rcases (mem_nodeProps_iff _ _ _).1 hm1 with ⟨v', _, hvk, _⟩
                exact hvk
              have heq : (collapseStep f id (ts, ([] : Str)) p₁).1 =
                  setNode (collapseChains f ts cid) id
                    (setProp (delProp (getNode (collapseChains f ts cid) id) p₁)
                      (p₁ ++ g) val) := by
                rw [he]
                show setNode (setNode (collapseChains f ts cid) id
                  (delProp (getNode (collapseChains f ts cid) id) p₁)) id _ = _
                rw [setNode_setNode]
                congr 1
                rw [getNode_setNode_self _ _ _ hid1, hval]
                rfl
              have hvisid : visibleKeys (getNode (collapseChains f ts cid) id) = [p₁] := by
                rw [hnodeid]
                have h1 : sortStrs (visibleKeys (getNode ts id)) = [p₁] := by
                  rw [← nodeProps_false_eq]
                  exact hp₁
                exact List.perm_singleton.1 (h1 ▸ (sortStrs_perm _).symm)
              have hsnd : fold.2 = p₁ ++ g := by
                rw [hfold1, he]
              rw [hsnd, hfold1, heq]
              rw [getNode_setNode_self _ _ _ hid1]
              exact hoist_vis_singleton _ _ _ _ hvisid hp1vis (visKey_ne_nil g hgvis)
          refine ⟨⟨?_, ?_, ?_⟩, ?_⟩
          · exact invA_setNode _ _ _ hF1.1
              (nodeOkA_invis _ _ _ _ (hF1.1.2 id) visKey_kG (by intro i hi; cases hi))
          · refine gAcc_setNode_tagged _ _ _ _ hF1.2.1 hsing ?_
            cases hx : isTerminal (getNode fold.1 id) with
            | false => rfl
            | true => exact absurd hx hcond.2
          · refine gStamp_setNode _ _ _ hF1.2.2 ?_
            intro v hv
            rw [getProp_setProp, if_neg (Ne.symm kG_ne_kV), hF3]
            exact hF5
          · exact pres_trans _ _ _ hpresT (pres_trans _ _ _ hF2
              (pres_invis_write fold.1 id kG (.str fold.2) visKey_kG (by decide)))
        · rw [if_neg hcond]
          exact ⟨hF1, pres_trans _ _ _ hpresT hF2⟩

theorem invB_prepDFS (t : Trie) (h : invB t) : invB (prepDFS t) := h

theorem kG_not_shape : ¬ (kG.length ≤ 1 ∨ kG = kC ∨ kG = kD ∨ kG = kV) := by decide

theorem no_kG_of_invB (t : Trie) (h : invB t) (j : Nat) :
    getProp (getNode t j) kG = none := by
  cases hx : getProp (getNode t j) kG with
  | none => rfl
  | some v =>
      exfalso
      exact kG_not_shape ((h.2.1 j).2.2.2 (kG, v) (getProp_some_mem _ _ _ hx))

theorem gAcc_of_invB (t : Trie) (h : invB t) : gAcc t := by
  intro j v hv
  rw [no_kG_of_invB t h j] at hv
  cases hv

theorem gStamp_of_invB (t : Trie) (h : invB t) : gStamp t := by
  intro j v hv
  rw [no_kG_of_invB t h j] at hv
  cases hv

theorem goodC_of_invB (t : Trie) (h : invB t) : goodC t :=
  ⟨invB_invA t h, gAcc_of_invB t h, gStamp_of_invB t h⟩

theorem canonCounted_invB (t : Trie) (h : invB t) : invB (canonCounted t) := by
  unfold canonCounted
  have h1 : invB (combineSuffixNode (graphFuel t) t 0).1 :=
    (combineSuffixNode_inv (graphFuel t) t 0 h h.1).1.1
  exact (countDegree_inv _ _ 0 (invB_prepDFS _ h1)).1

theorem preCollapse_invB (t : Trie) (h : invB t) : invB (preCollapse t) :=
  invB_prepDFS _ (canonCounted_invB t h)

theorem preCollapse_goodC (t : Trie) (h : invB t) : goodC (preCollapse t) :=
  goodC_of_invB _ (preCollapse_invB t h)

theorem optimize_eq_collapse (t : Trie) :
    optimize t = collapseChains (graphFuel (preCollapse t)) (preCollapse t) 0 := rfl

/-- Membership of every `'_'`-free word is unchanged by the collapse pass
inside `optimize`, run on any built dictionary. -/
theorem collapse_membership (ws : List Str) (w : Str) (hw : '_' ∉ w) :
    isWord (optimize (build ws)) w = isWord (preCollapse (build ws)) w := by
  have hB : invB (build ws) := build_invB ws
  have hG : goodC (preCollapse (build ws)) := preCollapse_goodC _ hB
  have h0 : 0 < (preCollapse (build ws)).arena.length := (preCollapse_invB _ hB).1
  rw [optimize_eq_collapse]
  exact (collapse_main (graphFuel (preCollapse (build ws))) (preCollapse (build ws)) 0
    hG h0).2 0 w hw

theorem short_ne_kD (k : Str) (h : k.length ≤ 1) : k ≠ kD := by
  intro he
  rw [he] at h
  simp [kD] at h

theorem short_ne_kV (k : Str) (h : k.length ≤ 1) : k ≠ kV := by
  intro he
  rw [he] at h
  simp [kV] at h

theorem noDV_setNode (t : Trie) (id : Nat) (n : Node) (h : noDV t)
    (hd : getProp n kD = none) (hv : getProp n kV = none) : noDV (setNode t id n) := by
  intro j
  rw [getNode_setNode]
  by_cases hc : j = id ∧ j < t.arena.length
  · rw [if_pos hc]; exact ⟨hd, hv⟩
  · rw [if_neg hc]; exact h j

theorem noDV_alloc (t : Trie) (h : noDV t) : noDV (alloc t).1 := by
  intro j
  rw [getNode_alloc]
  exact h j

theorem noDV_setProp (t : Trie) (id : Nat) (k : Str) (v : Val) (h : noDV t)
    (hk1 : k ≠ kD) (hk2 : k ≠ kV) :
    noDV (setNode t id (setProp (getNode t id) k v)) := by
  refine noDV_setNode t id _ h ?_ ?_
  · rw [getProp_setProp, if_neg (fun he => hk1 he.symm)]
    exact (h id).1
  · rw [getProp_setProp, if_neg (fun he => hk2 he.symm)]
    exact (h id).2

theorem addTerminal_noDV : ∀ (p : Str) (t : Trie) (id : Nat), noDV t →
    noDV (addTerminal t id p) := by
  intro p
  induction p with
  | nil =>
      intro t id h
      exact noDV_setProp t id [] (.num 1) h (by decide) (by decide)
  | cons c rest ih =>
      intro t id h
      cases rest with
      | nil => exact noDV_setProp t id [c] (.num 1) h (by simp [kD]) (by simp [kV])
      | cons c2 r2 =>
          show noDV (addTerminal (setNode (alloc t).1 id
            (setProp (getNode (alloc t).1 id) [c] (.ref (alloc t).2))) (alloc t).2 (c2 :: r2))
          refine ih _ _ ?_
          refine noDV_setNode _ _ _ (noDV_alloc t h) ?_ ?_
          · rw [getProp_setProp, if_neg (by simp [kD])]
            rw [getNode_alloc]
            exact (h id).1
          · rw [getProp_setProp, if_neg (by simp [kV])]
            rw [getNode_alloc]
            exact (h id).2

theorem kC_drop_ne_kD (m : Nat) : kC.drop m ≠ kD := by
  match m with
  | 0 => decide
  | 1 => decide
  | m + 2 => simp [kC, kD]

theorem kC_drop_ne_kV (m : Nat) : kC.drop m ≠ kV := by
  match m with
  | 0 => decide
  | 1 => decide
  | m + 2 => simp [kC, kV]

theorem pre_kC_ne_kD (p : Str) (h : p.isPrefixOf kC = true) : p ≠ kD := by
  intro he
  rw [he] at h
  exact absurd h (by decide)

theorem pre_kC_ne_kV (p : Str) (h : p.isPrefixOf kC = true) : p ≠ kV := by
  intro he
  rw [he] at h
  exact absurd h (by decide)

theorem drop_short (k : Str) (m : Nat) (h : k.length ≤ 1) : (k.drop m).length ≤ 1 := by
  rw [List.length_drop]
  omega

theorem noDV_wordCount (t : Trie) (h : noDV t) (m : Nat) :
    noDV { t with wordCount := m } := h

theorem insertLowF_noDV : ∀ (fuel : Nat) (t : Trie) (w : Str) (id : Nat),
    invB t → noDV t → noDV (insertLowF fuel t w id) := by
  intro fuel
  induction fuel with
  | zero => intro t w id _ h; exact h
  | succ f ih =>
      intro t w id hB h
      simp only [insertLowF]
      split
      next k hf =>
        have hkm : k ∈ keysOf (getNode t id) := List.mem_of_find?_eq_some hf
        have hshape := (hB.2.1 id).2.2.2
        obtain ⟨vk, hvk⟩ := getProp_of_mem_keys _ _ hkm
        have hkcase : k.length ≤ 1 ∨ k = kC := by
          rcases List.mem_map.1 hkm with ⟨kv, hkv, hke⟩
          rcases hshape kv hkv with h1 | h2 | h3 | h4
          · left; rw [← hke]; exact h1
          · right; rw [← hke]; exact h2
          · exfalso; rw [← hke, h3] at hvk; rw [(h id).1] at hvk; cases hvk
          · exfalso; rw [← hke, h4] at hvk; rw [(h id).2] at hvk; cases hvk
        have hpre : (commonPre w k).isPrefixOf k = true := commonPre_pre_right w k
        have hpd : commonPre w k ≠ kD := by
          rcases hkcase with h1 | h2
          · exact short_ne_kD _ (le_trans
              (List.isPrefixOf_iff_prefix.1 hpre).length_le h1)
          · exact pre_kC_ne_kD _ (h2 ▸ hpre)
        have hpv : commonPre w k ≠ kV := by
          rcases hkcase with h1 | h2
          · exact short_ne_kV _ (le_trans
              (List.isPrefixOf_iff_prefix.1 hpre).length_le h1)
          · exact pre_kC_ne_kV _ (h2 ▸ hpre)
        have hdd : k.drop (commonPre w k).length ≠ kD := by
          rcases hkcase with h1 | h2
          · exact short_ne_kD _ (drop_short k _ h1)
          · rw [h2]; exact kC_drop_ne_kD _
        have hdv : k.drop (commonPre w k).length ≠ kV := by
          rcases hkcase with h1 | h2
          · exact short_ne_kV _ (drop_short k _ h1)
          · rw [h2]; exact kC_drop_ne_kV _
        split
        next hc1 => exact ih t _ _ hB h
        next hc1 =>
          split
          next hc2 => exact h
          next hc2 =>
            refine noDV_wordCount _ ?_ _
            refine noDV_setProp _ _ _ _ ?_ hpd hpv
            refine noDV_setNode _ _ _ ?_ ?_ ?_
            · refine addTerminal_noDV _ _ _ ?_
              refine noDV_setNode _ _ _ (noDV_alloc t h) ?_ ?_
              · rw [getProp_setProp, if_neg (fun he => hdd he.symm), getNode_alloc]
                exact (h _).1
              · rw [getProp_setProp, if_neg (fun he => hdv he.symm), getNode_alloc]
                exact (h _).2
            · rw [getProp_delProp]
              by_cases hx : kD = k
              · rw [if_pos hx]
              · rw [if_neg hx]
                exact (addTerminal_noDV _ _ _ (noDV_setNode _ _ _ (noDV_alloc t h)
                  (by rw [getProp_setProp, if_neg (fun he => hdd he.symm), getNode_alloc]
                      exact (h _).1)
                  (by rw [getProp_setProp, if_neg (fun he => hdv he.symm), getNode_alloc]
                      exact (h _).2)) _).1
            · rw [getProp_delProp]
              by_cases hx : kV = k
              · rw [if_pos hx]
              · rw [if_neg hx]
                exact (addTerminal_noDV _ _ _ (noDV_setNode _ _ _ (noDV_alloc t h)
                  (by rw [getProp_setProp, if_neg (fun he => hdd he.symm), getNode_alloc]
                      exact (h _).1)
                  (by rw [getProp_setProp, if_neg (fun he => hdv he.symm), getNode_alloc]
                      exact (h _).2)) _).2
      next hf =>
        exact noDV_wordCount _ (addTerminal_noDV w t id h) _

theorem noDV_combRel (t0 t' : Trie) (h : noDV t0) (hc : combRel t0 t') : noDV t' := by
  intro j
  constructor
  · cases hx : getProp (getNode t' j) kD with
    | none => rfl
    | some v =>
        exfalso
        have hk : kD ∈ keysOf (getNode t' j) :=
          List.mem_map.2 ⟨(kD, v), getProp_some_mem _ _ _ hx, rfl⟩
        rcases hc.2.2.2.2 j kD hk with hm | he
        · exact absurd ((getProp_none_iff _ _).1 (h j).1) (by simp [hm])
        · exact absurd he (by decide)
  · cases hx : getProp (getNode t' j) kV with
    | none => rfl
    | some v =>
        exfalso
        have hk : kV ∈ keysOf (getNode t' j) :=
          List.mem_map.2 ⟨(kV, v), getProp_some_mem _ _ _ hx, rfl⟩
        rcases hc.2.2.2.2 j kV hk with hm | he
        · exact absurd ((getProp_none_iff _ _).1 (h j).2) (by simp [hm])
        · exact absurd he (by decide)

theorem insert_noDV (t : Trie) (w : Str) (hB : invB t) (h : noDV t) :
    noDV (insert t w) := by
  unfold insert
  have h1 : noDV (_insert t w 0) := insertLowF_noDV _ t w 0 hB h
  have hB1 : invB (_insert t w 0) := insertLowF_invB _ t w 0 hB hB.1
  have h2 : noDV { _insert t w 0 with lastWord := w } := h1
  have hB2 : invB { _insert t w 0 with lastWord := w } := ⟨hB1.1, hB1.2.1, hB1.2.2⟩
  by_cases hpre : commonPre w t.lastWord = t.lastWord
  · rw [if_pos hpre]
    exact h2
  · rw [if_neg hpre]
    cases hu : uniqueNode { _insert t w 0 with lastWord := w } t.lastWord w 0 with
    | none => exact h2
    | some fid =>
        have hfid : fid < ({ _insert t w 0 with lastWord := w } : Trie).arena.length :=
          uniqueNodeF_lt _ _ _ _ _ _ hB2 hu
        exact noDV_combRel _ _ h2 (combineSuffixNode_inv _ _ fid hB2 hfid).1

theorem noDV_trie0 : noDV trie0 := by
  intro j
  rw [getNode_trie0]
  exact ⟨rfl, rfl⟩

theorem build_noDV (ws : List Str) : noDV (build ws) := by
  unfold build
  have h := foldl_rel insert (fun t => invB t ∧ noDV t) ws trie0 ⟨invB_trie0, noDV_trie0⟩
    (fun t w _ ht => ⟨insert_invB t w ht.1, insert_noDV t w ht.1 ht.2⟩)
  exact h.2

theorem skel_refl (t : Trie) : skel t t := ⟨rfl, rfl, fun _ _ => rfl, fun _ _ _ => rfl⟩

theorem skel_trans (a b c : Trie) (h1 : skel a b) (h2 : skel b c) : skel a c :=
  ⟨h2.1.trans h1.1, h2.2.1.trans h1.2.1,
   fun j x => (h2.2.2.1 j x).trans (h1.2.2.1 j x),
   fun j q hq => (h2.2.2.2 j q hq).trans (h1.2.2.2 j q hq)⟩

theorem skel_write_invis (t : Trie) (id : Nat) (k : Str) (v : Val)
    (hk : visKey k = false) :
    skel t (setNode t id (setProp (getNode t id) k v)) := by
  refine ⟨setNode_arena_len _ _ _, rfl, ?_, ?_⟩
  · intro j b
    rw [getNode_setNode]
    by_cases hc : j = id ∧ j < t.arena.length
    · rw [if_pos hc, nodeProps_setProp_invis _ _ _ _ hk, hc.1]
    · rw [if_neg hc]
  · intro j q hq
    rw [getNode_setNode]
    by_cases hc : j = id ∧ j < t.arena.length
    · rw [if_pos hc, getProp_setProp, if_neg (fun he => by rw [he, hk] at hq; cases hq), hc.1]
    · rw [if_neg hc]

theorem cd_skel : ∀ (fuel : Nat) (t : Trie) (id : Nat), skel t (countDegree fuel t id) := by
  intro fuel
  induction fuel with
  | zero => intro t id; exact skel_refl t
  | succ f ih =>
      intro t id
      simp only [countDegree]
      have h1 : skel t (setNode t id (setProp (getNode t id) kD
          (.num ((match getProp (getNode t id) kD with
            | some (Val.num m) => m
            | _ => 0) + 1)))) := skel_write_invis t id kD _ visKey_kD
      rcases visited_cases (setNode t id (setProp (getNode t id) kD
          (.num ((match getProp (getNode t id) kD with
            | some (Val.num m) => m
            | _ => 0) + 1)))) id with ⟨hv2, hv1, _⟩ | ⟨hv2, hv1, _⟩
      · rw [hv2, if_pos rfl, hv1]
        exact h1
      · rw [hv2, if_neg (by simp), hv1]
        have h2 : skel t (setNode (setNode t id (setProp (getNode t id) kD
            (.num ((match getProp (getNode t id) kD with
              | some (Val.num m) => m
              | _ => 0) + 1)))) id (setProp (getNode (setNode t id (setProp (getNode t id) kD
            (.num ((match getProp (getNode t id) kD with
              | some (Val.num m) => m
              | _ => 0) + 1)))) id) kV (.num (setNode t id (setProp (getNode t id) kD
            (.num ((match getProp (getNode t id) kD with
              | some (Val.num m) => m
              | _ => 0) + 1)))).vCur))) :=
          skel_trans _ _ _ h1 (skel_write_invis _ id kV _ visKey_kV)
        refine foldl_rel _ (fun tt => skel t tt) _ _ h2 ?_
        intro tt p _ htt
        exact skel_trans _ _ _ htt (ih tt (refIdOf (getProp (getNode tt id) p)))

theorem edgeTargets_congr (n n' : Node)
    (h1 : nodeProps n' true = nodeProps n true)
    (h2 : ∀ q, visKey q = true → getProp n' q = getProp n q) :
    edgeTargets n' = edgeTargets n := by
  unfold edgeTargets
  rw [h1]
  refine List.map_congr_left ?_
  intro p hp
  rcases (mem_nodeProps_iff _ _ _).1 hp with ⟨v, _, hvk, _⟩
  rw [h2 p hvk]

theorem foldl_add_eq_sum (l : List Nat) (f : Nat → Nat) :
    ∀ a : Nat, l.foldl (fun a i => a + f i) a = a + (l.map f).sum := by
  induction l with
  | nil => intro a; simp
  | cons x xs ih =>
      intro a
      rw [List.foldl_cons, ih, List.map_cons, List.sum_cons]
      omega

theorem sum_map_shift (f f' : Nat → Nat) (k m : Nat) :
    ∀ (l : List Nat), k ∈ l → l.Nodup →
    (∀ i ∈ l, i ≠ k → f' i = f i) → f' k = f k + m →
    (l.map f').sum = (l.map f).sum + m := by
  intro l
  induction l with
  | nil => intro hk; simp at hk
  | cons x xs ih =>
      intro hk hnd hsame hchg
      rw [List.nodup_cons] at hnd
      rw [List.map_cons, List.map_cons, List.sum_cons, List.sum_cons]
      rcases List.mem_cons.1 hk with he | hm
      · subst he
        have hxs : xs.map f' = xs.map f :=
          List.map_congr_left (fun i hi => hsame i (List.mem_cons_of_mem _ hi)
            (fun he2 => hnd.1 (he2 ▸ hi)))
        rw [hxs, hchg]
        omega
      · have hx : f' x = f x := hsame x (List.mem_cons_self _ _)
          (fun he2 => hnd.1 (he2 ▸ hm))
        rw [hx, ih hm hnd.2 (fun i hi hine => hsame i (List.mem_cons_of_mem _ hi) hine) hchg]
        omega

theorem sum_map_le (f g : Nat → Nat) : ∀ (l : List Nat), (∀ i ∈ l, f i ≤ g i) →
    (l.map f).sum ≤ (l.map g).sum := by
  intro l
  induction l with
  | nil => intro _; simp
  | cons x xs ih =>
      intro h
      rw [List.map_cons, List.map_cons, List.sum_cons, List.sum_cons]
      have h1 := h x (List.mem_cons_self _ _)
      have h2 := ih (fun i hi => h i (List.mem_cons_of_mem _ hi))
      omega

theorem scE_le (t : Trie) (e : Nat) : scE t e ≤ t.arena.length := by
  unfold scE
  have h := sum_map_le (fun j => if getProp (getNode t j) kV = some (.num e) then 1 else 0)
    (fun _ => 1) (List.range t.arena.length)
    (fun i _ => by by_cases hc : getProp (getNode t i) kV = some (.num e) <;> simp [hc])
  calc ((List.range t.arena.length).map (fun j =>
      if getProp (getNode t j) kV = some (.num e) then 1 else 0)).sum
      ≤ ((List.range t.arena.length).map (fun _ => 1)).sum := h
    _ = t.arena.length := by simp [List.map_const]

theorem dVal_setD (n : Node) (m : Nat) : dVal (setProp n kD (.num m)) = m := by
  unfold dVal
  rw [getProp_setProp, if_pos rfl]

theorem dVal_setProp_ne (n : Node) (k : Str) (v : Val) (hk : k ≠ kD) :
    dVal (setProp n k v) = dVal n := by
  unfold dVal
  rw [getProp_setProp, if_neg (fun he => hk he.symm)]

theorem foldl_acct (step : Trie → Str → Trie) (Inv : Trie → Prop) (A E : Trie → Nat) :
    ∀ (l : List Str),
    (∀ u p, p ∈ l → Inv u → Inv (step u p) ∧ A (step u p) + E u = A u + 1 + E (step u p)) →
    ∀ u : Trie, Inv u → Inv (l.foldl step u) ∧
      A (l.foldl step u) + E u = A u + l.length + E (l.foldl step u) := by
  intro l
  induction l with
  | nil => intro _ u hu; exact ⟨hu, by simp⟩
  | cons x xs ih =>
      intro h u hu
      have h1 := h u x (List.mem_cons_self _ _) hu
      have h2 := ih (fun u2 p hp hu2 => h u2 p (List.mem_cons_of_mem _ hp) hu2)
        (step u x) h1.1
      refine ⟨h2.1, ?_⟩
      have e1 := h1.2
      have e2 := h2.2
      rw [List.foldl_cons]
      rw [List.length_cons]
      omega

theorem kV_ne_kD : kV ≠ kD := by decide

theorem countDegree_eq (f : Nat) (t : Trie) (id : Nat) :
    countDegree (f + 1) t id =
      (if (visited (setNode t id (setProp (getNode t id) kD
            (.num (dVal (getNode t id) + 1)))) id).2 then
        (visited (setNode t id (setProp (getNode t id) kD
          (.num (dVal (getNode t id) + 1)))) id).1
       else (nodeProps (getNode (visited (setNode t id (setProp (getNode t id) kD
            (.num (dVal (getNode t id) + 1)))) id).1 id) true).foldl
         (fun tt p => countDegree f tt (refIdOf (getProp (getNode tt id) p)))
         (visited (setNode t id (setProp (getNode t id) kD
           (.num (dVal (getNode t id) + 1)))) id).1) := rfl

/-- The accounting identity of `countDegree`: each call adds one to the
total of the `_d` fields, and the calls are one for the root plus one per
edge out of a stamped node. -/
theorem countDegree_acct : ∀ (fuel : Nat) (t : Trie) (id e : Nat),
    invB t → id < t.arena.length → t.vCur = e →
    t.arena.length + 1 ≤ fuel + scE t e →
    (∀ j, ¬ getProp (getNode t j) kV = some (.num e) → dVal (getNode t j) = 0) →
    (sumDAll (countDegree fuel t id) + eSE t e =
       sumDAll t + 1 + eSE (countDegree fuel t id) e) ∧
    (∀ j, getProp (getNode t j) kV = some (.num e) →
       getProp (getNode (countDegree fuel t id) j) kV = some (.num e)) ∧
    (∀ j, ¬ getProp (getNode (countDegree fuel t id) j) kV = some (.num e) →
       dVal (getNode (countDegree fuel t id) j) = 0) ∧
    getProp (getNode (countDegree fuel t id) id) kV = some (.num e) := by
  intro fuel
  induction fuel with
  | zero =>
      intro t id e _ _ _ hfuel _
      exact absurd hfuel (by have := scE_le t e; omega)
  | succ f ih =>
      intro t id e hB hid hvc hfuel hzero
      rw [countDegree_eq]
      set t1 := setNode t id (setProp (getNode t id) kD (.num (dVal (getNode t id) + 1)))
        with ht1
      have hlen1 : t1.arena.length = t.arena.length := by
        rw [ht1]
        exact setNode_arena_len _ _ _
      have hvc1 : t1.vCur = t.vCur := by rw [ht1]; rfl
      have hB1 : invB t1 := by
        rw [ht1]
        apply invB_setNode _ _ _ hB
        apply nodeOk_setProp _ _ _ _ (hB.2.1 id)
        · right; right; left; rfl
        · intro i hi; exact absurd hi (by simp)
        · intro hv; exact absurd hv (by rw [visKey_kD]; simp)
      have hnode1 : ∀ j, j ≠ id → getNode t1 j = getNode t j := by
        intro j hj
        rw [ht1]
        exact getNode_setNode_ne _ _ _ _ hj
      have hnode1id : getNode t1 id =
          setProp (getNode t id) kD (.num (dVal (getNode t id) + 1)) := by
        rw [ht1]
        exact getNode_setNode_self _ _ _ hid
      have hkv1 : ∀ j, getProp (getNode t1 j) kV = getProp (getNode t j) kV := by
        intro j
        by_cases hj : j = id
        · rw [hj, hnode1id, getProp_setProp, if_neg kV_ne_kD]
        · rw [hnode1 j hj]
      have hdv1 : ∀ j, j ≠ id → dVal (getNode t1 j) = dVal (getNode t j) := by
        intro j hj
        rw [hnode1 j hj]
      have hdv1id : dVal (getNode t1 id) = dVal (getNode t id) + 1 := by
        rw [hnode1id, dVal_setD]
      have hedges1 : ∀ j, edgeTargets (getNode t1 j) = edgeTargets (getNode t j) := by
        intro j
        by_cases hj : j = id
        · rw [hj, hnode1id]
          exact edgeTargets_congr _ _ (nodeProps_setProp_invis _ _ _ _ visKey_kD)
            (fun q hq => by
              rw [getProp_setProp, if_neg (fun he => by rw [he, visKey_kD] at hq; cases hq)])
        · rw [hnode1 j hj]
      have hsum1 : sumDAll t1 = sumDAll t + 1 := by
        unfold sumDAll
        rw [hlen1]
        exact sum_map_shift _ _ id 1 (List.range t.arena.length) (List.mem_range.2 hid)
          (List.nodup_range _) (fun i _ hine => hdv1 i hine) hdv1id
      have hsc1 : scE t1 e = scE t e := by
        unfold scE
        rw [hlen1]
        exact congrArg _ (List.map_congr_left (fun i _ => by rw [hkv1 i]))
      have heS1 : eSE t1 e = eSE t e := by
        unfold eSE
        rw [hlen1]
        exact congrArg _ (List.map_congr_left (fun i _ => by rw [hkv1 i, hedges1 i]))
      rcases visited_cases t1 id with ⟨hv2, hv1, hst⟩ | ⟨hv2, hv1, hst⟩
      · -- the node was already stamped: only its in-degree grows
        rw [hv2, if_pos rfl, hv1]
        rw [hvc1, hvc] at hst
        refine ⟨?_, ?_, ?_, hst⟩
        · rw [hsum1, heS1]
        · intro j hj
          rw [hkv1 j]
          exact hj
        · intro j hj
          by_cases hje : j = id
          · rw [hje] at hj
            exact absurd hst hj
          · rw [hkv1 j] at hj
            rw [hdv1 j hje]
            exact hzero j hj
      · -- fresh visit: stamp, then recurse into the edge children
        rw [hvc1, hvc] at hv1 hst
        rw [hv2, if_neg (by simp), hv1]
        have hstid_t : ¬ getProp (getNode t id) kV = some (.num e) := by
          rw [← hkv1 id]
          exact hst
        set t2 := setNode t1 id (setProp (getNode t1 id) kV (.num e)) with ht2
        have hid1 : id < t1.arena.length := by rw [hlen1]; exact hid
        have hlen2 : t2.arena.length = t.arena.length := by
          rw [ht2, setNode_arena_len]
          exact hlen1
        have hvc2 : t2.vCur = e := by
          rw [ht2, setNode_vCur, hvc1, hvc]
        have hB2 : invB t2 := by
          rw [ht2]
          apply invB_setNode _ _ _ hB1
          apply nodeOk_setProp _ _ _ _ (hB1.2.1 id)
          · right; right; right; rfl
          · intro i hi; exact absurd hi (by simp)
          · intro hv; exact absurd hv (by rw [visKey_kV]; simp)
        have hnode2 : ∀ j, j ≠ id → getNode t2 j = getNode t1 j := by
          intro j hj
          rw [ht2]
          exact getNode_setNode_ne _ _ _ _ hj
        have hnode2id : getNode t2 id = setProp (getNode t1 id) kV (.num e) := by
          rw [ht2]
          exact getNode_setNode_self _ _ _ hid1
        have hkv2id : getProp (getNode t2 id) kV = some (.num e) := by
          rw [hnode2id, getProp_setProp, if_pos rfl]
        have hkv2 : ∀ j, j ≠ id → getProp (getNode t2 j) kV = getProp (getNode t j) kV := by
          intro j hj
          rw [hnode2 j hj, hkv1 j]
        have hdv2 : ∀ j, dVal (getNode t2 j) = dVal (getNode t1 j) := by
          intro j
          by_cases hj : j = id
          · rw [hj, hnode2id, dVal_setProp_ne _ _ _ kV_ne_kD]
          · rw [hnode2 j hj]
        have hedges2 : ∀ j, edgeTargets (getNode t2 j) = edgeTargets (getNode t j) := by
          intro j
          by_cases hj : j = id
          · rw [hj, hnode2id]
            rw [show edgeTargets (setProp (getNode t1 id) kV (.num e)) =
                edgeTargets (getNode t1 id) from edgeTargets_congr _ _
              (nodeProps_setProp_invis _ _ _ _ visKey_kV)
              (fun q hq => by
                rw [getProp_setProp, if_neg (fun he => by rw [he, visKey_kV] at hq; cases hq)])]
            exact hedges1 id
          · rw [hnode2 j hj, hedges1 j]
        have hsum2 : sumDAll t2 = sumDAll t + 1 := by
          unfold sumDAll
          rw [hlen2]
          rw [show ((List.range t.arena.length).map (fun j => dVal (getNode t2 j))) =
            ((List.range t.arena.length).map (fun j => dVal (getNode t1 j))) from
            List.map_congr_left (fun i _ => hdv2 i)]
          unfold sumDAll at hsum1
          rw [hlen1] at hsum1
          exact hsum1
        have hsc2 : scE t2 e = scE t e + 1 := by
          unfold scE
          rw [hlen2]
          refine sum_map_shift _ _ id 1 (List.range t.arena.length) (List.mem_range.2 hid)
            (List.nodup_range _) ?_ ?_
          · intro i _ hine
            rw [hkv2 i hine]
          · rw [if_pos hkv2id, if_neg hstid_t]
        have heS2 : eSE t2 e = eSE t e + (edgeTargets (getNode t id)).length := by
          unfold eSE
          rw [hlen2]
          refine sum_map_shift _ _ id ((edgeTargets (getNode t id)).length)
            (List.range t.arena.length) (List.mem_range.2 hid) (List.nodup_range _) ?_ ?_
          · intro i _ hine
            rw [hkv2 i hine, hedges2 i]
          · rw [if_pos hkv2id, if_neg hstid_t, hedges2 id]
            omega
        have hzero2 : ∀ j, ¬ getProp (getNode t2 j) kV = some (.num e) →
            dVal (getNode t2 j) = 0 := by
          intro j hj
          by_cases hje : j = id
          · exact absurd (hje ▸ hkv2id) hj
          · rw [hdv2 j, hdv1 j hje]
            apply hzero j
            rw [← hkv2 j hje]
            exact hj
        have hprops2 : nodeProps (getNode t2 id) true = nodeProps (getNode t id) true := by
          rw [hnode2id, nodeProps_setProp_invis _ _ _ _ visKey_kV, hnode1id,
            nodeProps_setProp_invis _ _ _ _ visKey_kD]
        have hpropslen : (nodeProps (getNode t2 id) true).length =
            (edgeTargets (getNode t id)).length := by
          rw [hprops2]
          unfold edgeTargets
          rw [List.length_map]
        have hstep : ∀ (u : Trie) (p : Str), p ∈ nodeProps (getNode t2 id) true →
            (invB u ∧ u.vCur = e ∧ u.arena.length = t.arena.length ∧
              (∀ j, getProp (getNode t2 j) kV = some (.num e) →
                getProp (getNode u j) kV = some (.num e)) ∧
              (∀ j, ¬ getProp (getNode u j) kV = some (.num e) →
                dVal (getNode u j) = 0) ∧
              (∀ j b, nodeProps (getNode u j) b = nodeProps (getNode t2 j) b) ∧
              (∀ j q, visKey q = true → getProp (getNode u j) q = getProp (getNode t2 j) q)) →
            ((invB (countDegree f u (refIdOf (getProp (getNode u id) p))) ∧
              (countDegree f u (refIdOf (getProp (getNode u id) p))).vCur = e ∧
              (countDegree f u (refIdOf (getProp (getNode u id) p))).arena.length =
                t.arena.length ∧
              (∀ j, getProp (getNode t2 j) kV = some (.num e) →
                getProp (getNode (countDegree f u (refIdOf (getProp (getNode u id) p))) j)
                  kV = some (.num e)) ∧
              (∀ j, ¬ getProp (getNode (countDegree f u (refIdOf (getProp (getNode u id) p)))
                  j) kV = some (.num e) →
                dVal (getNode (countDegree f u (refIdOf (getProp (getNode u id) p))) j) = 0) ∧
              (∀ j b, nodeProps (getNode (countDegree f u (refIdOf (getProp (getNode u id)
                p))) j) b = nodeProps (getNode t2 j) b) ∧
              (∀ j q, visKey q = true →
                getProp (getNode (countDegree f u (refIdOf (getProp (getNode u id) p))) j) q =
                  getProp (getNode t2 j) q)) ∧
              sumDAll (countDegree f u (refIdOf (getProp (getNode u id) p))) + eSE u e =
                sumDAll u + 1 +
                  eSE (countDegree f u (refIdOf (getProp (getNode u id) p))) e) := by
          intro u p hpm hu
          obtain ⟨hu1, hu2, hu3, hu4, hu5, hu6, hu7⟩ := hu
          rcases (mem_nodeProps_iff _ _ _).1 hpm with ⟨v, hvm, hvk, hobj⟩
          have hgp2 : getProp (getNode t2 id) p = some v :=
            getProp_eq_of_mem _ _ _ (hB2.2.1 id).1 hvm
          obtain ⟨c0, hc0⟩ : ∃ c0, v = Val.ref c0 := by
            cases v with
            | ref r => exact ⟨r, rfl⟩
            | num m => exact absurd (hobj rfl) (by simp [isObj])
            | str s => exact absurd (hobj rfl) (by simp [isObj])
            | undef => exact absurd (hobj rfl) (by simp [isObj])
          have hgpu : getProp (getNode u id) p = some (Val.ref c0) := by
            rw [hu7 id p hvk, hgp2, hc0]
          have hcid : refIdOf (getProp (getNode u id) p) = c0 := by rw [hgpu]; rfl
          have hc0lt : c0 < u.arena.length := by
            rw [hu3, ← hlen2]
            exact (hB2.2.1 id).2.2.1 (p, v) hvm c0 (by rw [hc0])
          have hscu : u.arena.length + 1 ≤ f + scE u e := by
            have h2 : scE t2 e ≤ scE u e := by
              unfold scE
              rw [hu3, hlen2]
              exact sum_map_le _ _ _ (fun i _ => by
                by_cases hc : getProp (getNode t2 i) kV = some (.num e)
                · rw [if_pos hc, if_pos (hu4 i hc)]
                · rw [if_neg hc]
                  omega)
            rw [hsc2] at h2
            rw [hu3]
            omega
          have hihres := ih u (refIdOf (getProp (getNode u id) p)) e hu1
            (by rw [hcid]; exact hc0lt) hu2 hscu hu5
          have hsk := cd_skel f u (refIdOf (getProp (getNode u id) p))
          refine ⟨⟨(countDegree_inv f u _ hu1).1, ?_, ?_, ?_, hihres.2.2.1, ?_, ?_⟩,
            hihres.1⟩
          · rw [hsk.2.1]
            exact hu2
          · rw [hsk.1]
            exact hu3
          · intro j hj
            exact hihres.2.1 j (hu4 j hj)
          · intro j b
            rw [hsk.2.2.1 j b]
            exact hu6 j b
          · intro j q hq
            rw [hsk.2.2.2 j q hq]
            exact hu7 j q hq
        have hfacct := foldl_acct
          (fun tt p => countDegree f tt (refIdOf (getProp (getNode tt id) p)))
          (fun u => invB u ∧ u.vCur = e ∧ u.arena.length = t.arena.length ∧
            (∀ j, getProp (getNode t2 j) kV = some (.num e) →
              getProp (getNode u j) kV = some (.num e)) ∧
            (∀ j, ¬ getProp (getNode u j) kV = some (.num e) → dVal (getNode u j) = 0) ∧
            (∀ j b, nodeProps (getNode u j) b = nodeProps (getNode t2 j) b) ∧
            (∀ j q, visKey q = true → getProp (getNode u j) q = getProp (getNode t2 j) q))
          sumDAll (fun u => eSE u e)
          (nodeProps (getNode t2 id) true)
          (fun u p hp hu => hstep u p hp hu)
          t2 ⟨hB2, hvc2, hlen2, fun j hj => hj, hzero2, fun _ _ => rfl, fun _ _ _ => rfl⟩
        obtain ⟨hFInv, hFeq0⟩ := hfacct
        obtain ⟨hf1, hf2, hf3, hf4, hf5, hf6, hf7⟩ := hFInv
        have hFeq : sumDAll ((nodeProps (getNode t2 id) true).foldl
            (fun tt p => countDegree f tt (refIdOf (getProp (getNode tt id) p))) t2) +
              eSE t2 e =
            sumDAll t2 + (nodeProps (getNode t2 id) true).length +
              eSE ((nodeProps (getNode t2 id) true).foldl
                (fun tt p => countDegree f tt (refIdOf (getProp (getNode tt id) p))) t2) e :=
          hFeq0
        refine ⟨?_, ?_, hf5, hf4 id hkv2id⟩
        · rw [hsum2, heS2, hpropslen] at hFeq
          omega
        · intro j hj
          apply hf4 j
          by_cases hje : j = id
          · rw [hje]
            exact hkv2id
          · rw [hkv2 j hje]
            exact hj

theorem dVal_none (n : Node) (h : getProp n kD = none) : dVal n = 0 := by
  unfold dVal
  rw [h]

theorem sum_filter_ind (b : Nat → Bool) (f : Nat → Nat) : ∀ (l : List Nat),
    ((l.filter b).map f).sum = (l.map (fun i => if b i = true then f i else 0)).sum := by
  intro l
  induction l with
  | nil => rfl
  | cons x xs ih =>
      rw [List.filter_cons]
      cases hb : b x with
      | true =>
          rw [if_pos rfl, List.map_cons, List.sum_cons, List.map_cons, List.sum_cons,
            if_pos hb, ih]
      | false =>
          rw [if_neg (by simp), List.map_cons, List.sum_cons, if_neg (by simp [hb]), ih]
          omega

theorem sumD_eq_sum (t : Trie) (ids : List Nat) :
    sumD t ids = (ids.map (fun i => dVal (getNode t i))).sum := by
  unfold sumD
  rw [foldl_add_eq_sum]
  omega

theorem edgeCount_eq_sum (t : Trie) (ids : List Nat) :
    edgeCount t ids = (ids.map (fun i => (edgeTargets (getNode t i)).length)).sum := by
  unfold edgeCount
  rw [foldl_add_eq_sum]
  omega

theorem edgeCount_visited_eq_eSE (t : Trie) :
    edgeCount t (visitedIds t) = eSE t t.vCur := by
  rw [edgeCount_eq_sum]
  unfold visitedIds eSE
  rw [sum_filter_ind]
  refine congrArg _ (List.map_congr_left ?_)
  intro i _
  by_cases hc : getProp (getNode t i) kV = some (.num t.vCur)
  · rw [if_pos (by simp [hc]), if_pos hc]
  · rw [if_neg (by simp [hc]), if_neg hc]

theorem canon_acct (ws : List Str) :
    sumDAll (canonCounted (build ws)) =
      eSE (canonCounted (build ws)) (canonCounted (build ws)).vCur + 1 := by
  have hB0 : invB (build ws) := build_invB ws
  have hDV0 : noDV (build ws) := build_noDV ws
  have hB1 : invB (combineSuffixNode (graphFuel (build ws)) (build ws) 0).1 :=
    (combineSuffixNode_inv _ _ 0 hB0 hB0.1).1.1
  have hDV1 : noDV (combineSuffixNode (graphFuel (build ws)) (build ws) 0).1 :=
    noDV_combRel _ _ hDV0 (combineSuffixNode_inv _ _ 0 hB0 hB0.1).1
  have hB2 : invB (prepDFS (combineSuffixNode (graphFuel (build ws)) (build ws) 0).1) :=
    invB_prepDFS _ hB1
  have hDV2 : noDV (prepDFS (combineSuffixNode (graphFuel (build ws)) (build ws) 0).1) :=
    hDV1
  set t2 := prepDFS (combineSuffixNode (graphFuel (build ws)) (build ws) 0).1 with ht2
  have hzero : ∀ j, ¬ getProp (getNode t2 j) kV = some (.num t2.vCur) →
      dVal (getNode t2 j) = 0 :=
    fun j _ => dVal_none _ (hDV2 j).1
  have hsc0 : scE t2 t2.vCur = 0 := by
    unfold scE
    rw [show ((List.range t2.arena.length).map (fun j =>
        if getProp (getNode t2 j) kV = some (.num t2.vCur) then 1 else 0)) =
      ((List.range t2.arena.length).map (fun _ => 0)) from
      List.map_congr_left (fun i _ => by rw [if_neg (by rw [(hDV2 i).2]; simp)])]
    simp
  have heS0 : eSE t2 t2.vCur = 0 := by
    unfold eSE
    rw [show ((List.range t2.arena.length).map (fun j =>
        if getProp (getNode t2 j) kV = some (.num t2.vCur) then
          (edgeTargets (getNode t2 j)).length else 0)) =
      ((List.range t2.arena.length).map (fun _ => 0)) from
      List.map_congr_left (fun i _ => by rw [if_neg (by rw [(hDV2 i).2]; simp)])]
    simp
  have hsum0 : sumDAll t2 = 0 := by
    unfold sumDAll
    rw [show ((List.range t2.arena.length).map (fun j => dVal (getNode t2 j))) =
      ((List.range t2.arena.length).map (fun _ => 0)) from
      List.map_congr_left (fun i _ => dVal_none _ (hDV2 i).1)]
    simp
  have hacct := countDegree_acct (graphFuel t2) t2 0 t2.vCur hB2 hB2.1 rfl
    (by unfold graphFuel; omega) hzero
  have hvc3 : (countDegree (graphFuel t2) t2 0).vCur = t2.vCur :=
    (cd_skel (graphFuel t2) t2 0).2.1
  have hmain : sumDAll (countDegree (graphFuel t2) t2 0) =
      eSE (countDegree (graphFuel t2) t2 0) t2.vCur + 1 := by
    have h1 := hacct.1
    rw [hsum0, heS0] at h1
    omega
  show sumDAll (countDegree (graphFuel t2) t2 0) =
    eSE (countDegree (graphFuel t2) t2 0) (countDegree (graphFuel t2) t2 0).vCur + 1
  rw [hvc3]
  exact hmain

theorem Reaches_congr (t t' : Trie)
    (h : ∀ j, edgeTargets (getNode t' j) = edgeTargets (getNode t j)) :
    ∀ j, Reaches t j → Reaches t' j := by
  intro j hr
  induction hr with
  | root => exact Reaches.root
  | step hri he ih => exact Reaches.step ih (by rw [h]; exact he)

/-- Every node stamped by `countDegree` is in the closure: the traversal
only follows edges. -/
theorem cd_reach : ∀ (fuel : Nat) (u : Trie) (id : Nat) (T : Trie) (e : Nat),
    (∀ j b, nodeProps (getNode u j) b = nodeProps (getNode T j) b) →
    (∀ j q, visKey q = true → getProp (getNode u j) q = getProp (getNode T j) q) →
    u.vCur = e →
    (∀ j, getProp (getNode u j) kV = some (.num e) → Reaches T j) →
    Reaches T id →
    ∀ j, getProp (getNode (countDegree fuel u id) j) kV = some (.num e) →
      Reaches T j := by
  intro fuel
  induction fuel with
  | zero => intro u id T e _ _ _ hst _ j hj; exact hst j hj
  | succ f ih =>
      intro u id T e hsk1 hsk2 hvc hst hrid
      rw [countDegree_eq]
      set t1 := setNode u id (setProp (getNode u id) kD (.num (dVal (getNode u id) + 1)))
        with ht1
      have hnode1 : ∀ j, j ≠ id → getNode t1 j = getNode u j := by
        intro j hj
        rw [ht1]
        exact getNode_setNode_ne _ _ _ _ hj
      have hkv1 : ∀ j, getProp (getNode t1 j) kV = getProp (getNode u j) kV := by
        intro j
        by_cases hj : j = id
        · rw [hj, ht1, getNode_setNode]
          by_cases hc : id = id ∧ id < u.arena.length
          · rw [if_pos hc, getProp_setProp, if_neg kV_ne_kD]
          · rw [if_neg hc]
        · rw [hnode1 j hj]
      have hsk1' : ∀ j b, nodeProps (getNode t1 j) b = nodeProps (getNode T j) b := by
        intro j b
        by_cases hj : j = id
        · rw [hj, ht1, getNode_setNode]
          by_cases hc : id = id ∧ id < u.arena.length
          · rw [if_pos hc, nodeProps_setProp_invis _ _ _ _ visKey_kD]
            exact hsk1 id b
          · rw [if_neg hc]
            exact hsk1 id b
        · rw [hnode1 j hj]
          exact hsk1 j b
      have hsk2' : ∀ j q, visKey q = true →
          getProp (getNode t1 j) q = getProp (getNode T j) q := by
        intro j q hq
        by_cases hj : j = id
        · rw [hj, ht1, getNode_setNode]
          by_cases hc : id = id ∧ id < u.arena.length
          · rw [if_pos hc, getProp_setProp,
              if_neg (fun he => by rw [he, visKey_kD] at hq; cases hq)]
            exact hsk2 id q hq
          · rw [if_neg hc]
            exact hsk2 id q hq
        · rw [hnode1 j hj]
          exact hsk2 j q hq
      have hvc1 : t1.vCur = e := by rw [ht1, setNode_vCur, hvc]
      have hst1 : ∀ j, getProp (getNode t1 j) kV = some (.num e) → Reaches T j := by
        intro j hj
        rw [hkv1 j] at hj
        exact hst j hj
      rcases visited_cases t1 id with ⟨hv2, hv1, _⟩ | ⟨hv2, hv1, _⟩
      · rw [hv2, if_pos rfl, hv1]
        intro j hj
        exact hst1 j hj
      · rw [hvc1] at hv1
        rw [hv2, if_neg (by simp), hv1]
        set t2 := setNode t1 id (setProp (getNode t1 id) kV (.num e)) with ht2
        have hnode2 : ∀ j, j ≠ id → getNode t2 j = getNode t1 j := by
          intro j hj
          rw [ht2]
          exact getNode_setNode_ne _ _ _ _ hj
        have hsk1'' : ∀ j b, nodeProps (getNode t2 j) b = nodeProps (getNode T j) b := by
          intro j b
          by_cases hj : j = id
          · rw [hj, ht2, getNode_setNode]
            by_cases hc : id = id ∧ id < t1.arena.length
            · rw [if_pos hc, nodeProps_setProp_invis _ _ _ _ visKey_kV]
              exact hsk1' id b
            · rw [if_neg hc]
              exact hsk1' id b
          · rw [hnode2 j hj]
            exact hsk1' j b
        have hsk2'' : ∀ j q, visKey q = true →
            getProp (getNode t2 j) q = getProp (getNode T j) q := by
          intro j q hq
          by_cases hj : j = id
          · rw [hj, ht2, getNode_setNode]
            by_cases hc : id = id ∧ id < t1.arena.length
            · rw [if_pos hc, getProp_setProp,
                if_neg (fun he => by rw [he, visKey_kV] at hq; cases hq)]
              exact hsk2' id q hq
            · rw [if_neg hc]
              exact hsk2' id q hq
          · rw [hnode2 j hj]
            exact hsk2' j q hq
        have hvc2 : t2.vCur = e := by rw [ht2, setNode_vCur, hvc1]
        have hst2 : ∀ j, getProp (getNode t2 j) kV = some (.num e) → Reaches T j := by
          intro j hj
          by_cases hj2 : j = id
          · rw [hj2]
            exact hrid
          · rw [hnode2 j hj2] at hj
            exact hst1 j hj
        have hfold := foldl_rel
          (fun tt p => countDegree f tt (refIdOf (getProp (getNode tt id) p)))
          (fun tt => (∀ j b, nodeProps (getNode tt j) b = nodeProps (getNode T j) b) ∧
            (∀ j q, visKey q = true →
              getProp (getNode tt j) q = getProp (getNode T j) q) ∧
            tt.vCur = e ∧
            (∀ j, getProp (getNode tt j) kV = some (.num e) → Reaches T j))
          (nodeProps (getNode t2 id) true) t2 ⟨hsk1'', hsk2'', hvc2, hst2⟩ ?_
        · exact hfold.2.2.2
        · intro tt p hp htt
          obtain ⟨ht1', ht2', ht3', ht4'⟩ := htt
          have hpT : p ∈ nodeProps (getNode T id) true := by
            rw [← hsk1'' id true]
            exact hp
          have hpvis : visKey p = true := by
            rcases (mem_nodeProps_iff _ _ _).1 hpT with ⟨v, _, hvk, _⟩
            exact hvk
          have hgpT : getProp (getNode tt id) p = getProp (getNode T id) p :=
            ht2' id p hpvis
          have hcr : Reaches T (refIdOf (getProp (getNode tt id) p)) := by
            refine Reaches.step hrid ?_
            rw [hgpT]
            exact List.mem_map.2 ⟨p, hpT, rfl⟩
          have hsk := cd_skel f tt (refIdOf (getProp (getNode tt id) p))
          refine ⟨?_, ?_, ?_, ?_⟩
          · intro j b
            rw [hsk.2.2.1 j b]
            exact ht1' j b
          · intro j q hq
            rw [hsk.2.2.2 j q hq]
            exact ht2' j q hq
          · rw [hsk.2.1]
            exact ht3'
          · exact ih tt (refIdOf (getProp (getNode tt id) p)) T e ht1' ht2' ht3' ht4' hcr

/-- `countDegree` never unstamps a node. -/
theorem cd_mono : ∀ (fuel : Nat) (u : Trie) (id : Nat) (e : Nat), u.vCur = e →
    ∀ j, getProp (getNode u j) kV = some (.num e) →
      getProp (getNode (countDegree fuel u id) j) kV = some (.num e) := by
  intro fuel
  induction fuel with
  | zero => intro u id e _ j hj; exact hj
  | succ f ih =>
      intro u id e hvc j hj
      rw [countDegree_eq]
      set t1 := setNode u id (setProp (getNode u id) kD (.num (dVal (getNode u id) + 1)))
        with ht1
      have hkv1 : ∀ j2, getProp (getNode t1 j2) kV = getProp (getNode u j2) kV := by
        intro j2
        by_cases hj2 : j2 = id
        · rw [hj2, ht1, getNode_setNode]
          by_cases hc : id = id ∧ id < u.arena.length
          · rw [if_pos hc, getProp_setProp, if_neg kV_ne_kD]
          · rw [if_neg hc]
        · rw [ht1, getNode_setNode_ne _ _ _ _ hj2]
      have hvc1 : t1.vCur = e := by rw [ht1, setNode_vCur, hvc]
      have hj1 : getProp (getNode t1 j) kV = some (.num e) := by
        rw [hkv1 j]
        exact hj
      rcases visited_cases t1 id with ⟨hv2, hv1, _⟩ | ⟨hv2, hv1, _⟩
      · rw [hv2, if_pos rfl, hv1]
        exact hj1
      · rw [hvc1] at hv1
        rw [hv2, if_neg (by simp), hv1]
        set t2 := setNode t1 id (setProp (getNode t1 id) kV (.num e)) with ht2
        have hvc2 : t2.vCur = e := by rw [ht2, setNode_vCur, hvc1]
        have hj2 : getProp (getNode t2 j) kV = some (.num e) := by
          by_cases hje : j = id
          · rw [hje, ht2, getNode_setNode]
            by_cases hc : id = id ∧ id < t1.arena.length
            · rw [if_pos hc, getProp_setProp, if_pos rfl]
            · rw [if_neg hc]
              rw [hje] at hj1
              exact hj1
          · rw [ht2, getNode_setNode_ne _ _ _ _ hje]
            exact hj1
        have hfold := foldl_rel
          (fun tt p => countDegree f tt (refIdOf (getProp (getNode tt id) p)))
          (fun tt => tt.vCur = e ∧ getProp (getNode tt j) kV = some (.num e))
          (nodeProps (getNode t2 id) true) t2 ⟨hvc2, hj2⟩ ?_
        · exact hfold.2
        · intro tt p _ htt
          have hsk := cd_skel f tt (refIdOf (getProp (getNode tt id) p))
          exact ⟨by rw [hsk.2.1]; exact htt.1,
            ih tt (refIdOf (getProp (getNode tt id) p)) e htt.1 j htt.2⟩

/-- A call with positive fuel leaves its argument stamped. -/
theorem cd_stamps_id : ∀ (f : Nat) (u : Trie) (id : Nat) (e : Nat), u.vCur = e →
    id < u.arena.length →
    getProp (getNode (countDegree (f + 1) u id) id) kV = some (.num e) := by
  intro f u id e hvc hid
  rw [countDegree_eq]
  set t1 := setNode u id (setProp (getNode u id) kD (.num (dVal (getNode u id) + 1)))
    with ht1
  have hvc1 : t1.vCur = e := by rw [ht1, setNode_vCur, hvc]
  have hid1 : id < t1.arena.length := by
    rw [ht1, setNode_arena_len]
    exact hid
  rcases visited_cases t1 id with ⟨hv2, hv1, hst⟩ | ⟨hv2, hv1, _⟩
  · rw [hv2, if_pos rfl, hv1]
    rw [hvc1] at hst
    exact hst
  · rw [hvc1] at hv1
    rw [hv2, if_neg (by simp), hv1]
    set t2 := setNode t1 id (setProp (getNode t1 id) kV (.num e)) with ht2
    have hvc2 : t2.vCur = e := by rw [ht2, setNode_vCur, hvc1]
    have hst2 : getProp (getNode t2 id) kV = some (.num e) := by
      rw [ht2, getNode_setNode_self _ _ _ hid1, getProp_setProp, if_pos rfl]
    have hfold := foldl_rel
      (fun tt p => countDegree f tt (refIdOf (getProp (getNode tt id) p)))
      (fun tt => tt.vCur = e ∧ getProp (getNode tt id) kV = some (.num e))
      (nodeProps (getNode t2 id) true) t2 ⟨hvc2, hst2⟩ ?_
    · exact hfold.2
    · intro tt p _ htt
      have hsk := cd_skel f tt (refIdOf (getProp (getNode tt id) p))
      exact ⟨by rw [hsk.2.1]; exact htt.1,
        cd_mono f tt (refIdOf (getProp (getNode tt id) p)) e htt.1 id htt.2⟩

theorem cd_stamps_pos (f : Nat) (u : Trie) (id e : Nat) (hf : 1 ≤ f)
    (hvc : u.vCur = e) (hid : id < u.arena.length) :
    getProp (getNode (countDegree f u id) id) kV = some (.num e) := by
  cases f with
  | zero => omega
  | succ f2 => exact cd_stamps_id f2 u id e hvc hid

theorem foldl_establish {α β : Type} (step : β → α → β) (Inv : β → Prop)
    (Q : α → β → Prop) :
    ∀ (l : List α),
    (∀ u p, p ∈ l → Inv u → Inv (step u p) ∧ Q p (step u p)) →
    (∀ u p p', p ∈ l → Inv u → Q p' u → Q p' (step u p)) →
    ∀ u : β, Inv u → Inv (l.foldl step u) ∧ ∀ p ∈ l, Q p (l.foldl step u) := by
  intro l
  induction l with
  | nil =>
      intro _ _ u hu
      exact ⟨hu, by intro p hp; simp at hp⟩
  | cons x xs ih =>
      intro hest hper u hu
      have h1 := hest u x (List.mem_cons_self _ _) hu
      have h2 := ih (fun u2 p hp hu2 => hest u2 p (List.mem_cons_of_mem _ hp) hu2)
        (fun u2 p p' hp hu2 hq => hper u2 p p' (List.mem_cons_of_mem _ hp) hu2 hq)
        (step u x) h1.1
      refine ⟨h2.1, ?_⟩
      intro p hp
      rcases List.mem_cons.1 hp with he | hm
      · subst he
        rw [List.foldl_cons]
        have h3 := foldl_rel step (fun tt => Inv tt ∧ Q p tt) xs (step u p)
          ⟨h1.1, h1.2⟩
          (fun b2 a ha hb2 => ⟨(hest b2 a (List.mem_cons_of_mem _ ha) hb2.1).1,
            hper b2 a p (List.mem_cons_of_mem _ ha) hb2.1 hb2.2⟩)
        exact h3.2
      · rw [List.foldl_cons]
        exact (h2.2 p hm)

/-- DFS completeness of `countDegree` with sufficient fuel: the edge
children of every newly stamped node end up stamped. -/
theorem cd_done : ∀ (fuel : Nat) (u : Trie) (id e : Nat),
    invB u → id < u.arena.length → u.vCur = e →
    u.arena.length + 1 ≤ fuel + scE u e →
    ∀ i, ¬ getProp (getNode u i) kV = some (.num e) →
      getProp (getNode (countDegree fuel u id) i) kV = some (.num e) →
      ∀ c ∈ edgeTargets (getNode u i),
        getProp (getNode (countDegree fuel u id) c) kV = some (.num e) := by
  intro fuel
  induction fuel with
  | zero =>
      intro u id e _ _ _ hfuel
      exact absurd hfuel (by have := scE_le u e; omega)
  | succ f ih =>
      intro u id e hB hid hvc hfuel
      rw [countDegree_eq]
      set t1 := setNode u id (setProp (getNode u id) kD (.num (dVal (getNode u id) + 1)))
        with ht1
      have hlen1 : t1.arena.length = u.arena.length := by
        rw [ht1]
        exact setNode_arena_len _ _ _
      have hvc1 : t1.vCur = e := by rw [ht1, setNode_vCur, hvc]
      have hnode1 : ∀ j, j ≠ id → getNode t1 j = getNode u j := by
        intro j hj
        rw [ht1]
        exact getNode_setNode_ne _ _ _ _ hj
      have hnode1id : getNode t1 id =
          setProp (getNode u id) kD (.num (dVal (getNode u id) + 1)) := by
        rw [ht1]
        exact getNode_setNode_self _ _ _ hid
      have hkv1 : ∀ j, getProp (getNode t1 j) kV = getProp (getNode u j) kV := by
        intro j
        by_cases hj : j = id
        · rw [hj, hnode1id, getProp_setProp, if_neg kV_ne_kD]
        · rw [hnode1 j hj]
      rcases visited_cases t1 id with ⟨hv2, hv1, _⟩ | ⟨hv2, hv1, hst⟩
      · rw [hv2, if_pos rfl, hv1]
        intro i hiu hi1
        rw [hkv1 i] at hi1
        exact (hiu hi1).elim
      · rw [hvc1] at hv1 hst
        rw [hv2, if_neg (by simp), hv1]
        have hstid_u : ¬ getProp (getNode u id) kV = some (.num e) := by
          rw [← hkv1 id]
          exact hst
        set t2 := setNode t1 id (setProp (getNode t1 id) kV (.num e)) with ht2
        have hid1 : id < t1.arena.length := by rw [hlen1]; exact hid
        have hlen2 : t2.arena.length = u.arena.length := by
          rw [ht2, setNode_arena_len]
          exact hlen1
        have hvc2 : t2.vCur = e := by rw [ht2, setNode_vCur, hvc1]
        have hB1 : invB t1 := by
          rw [ht1]
          apply invB_setNode _ _ _ hB
          apply nodeOk_setProp _ _ _ _ (hB.2.1 id)
          · right; right; left; rfl
          · intro i hi; exact absurd hi (by simp)
          · intro hv; exact absurd hv (by rw [visKey_kD]; simp)
        have hB2 : invB t2 := by
          rw [ht2]
          apply invB_setNode _ _ _ hB1
          apply nodeOk_setProp _ _ _ _ (hB1.2.1 id)
          · right; right; right; rfl
          · intro i hi; exact absurd hi (by simp)
          · intro hv; exact absurd hv (by rw [visKey_kV]; simp)
        have hnode2 : ∀ j, j ≠ id → getNode t2 j = getNode t1 j := by
          intro j hj
          rw [ht2]
          exact getNode_setNode_ne _ _ _ _ hj
        have hnode2id : getNode t2 id = setProp (getNode t1 id) kV (.num e) := by
          rw [ht2]
          exact getNode_setNode_self _ _ _ hid1
        have hkv2id : getProp (getNode t2 id) kV = some (.num e) := by
          rw [hnode2id, getProp_setProp, if_pos rfl]
        have hkv2 : ∀ j, j ≠ id → getProp (getNode t2 j) kV = getProp (getNode u j) kV := by
          intro j hj
          rw [hnode2 j hj, hkv1 j]
        have hsk1 : ∀ j b, nodeProps (getNode t2 j) b = nodeProps (getNode u j) b := by
          intro j b
          by_cases hj : j = id
          · rw [hj, hnode2id, nodeProps_setProp_invis _ _ _ _ visKey_kV, hnode1id,
              nodeProps_setProp_invis _ _ _ _ visKey_kD]
          · rw [hnode2 j hj, hnode1 j hj]
        have hsk2 : ∀ j q, visKey q = true →
            getProp (getNode t2 j) q = getProp (getNode u j) q := by
          intro j q hq
          by_cases hj : j = id
          · rw [hj, hnode2id, getProp_setProp,
              if_neg (fun he => by rw [he, visKey_kV] at hq; cases hq), hnode1id,
              getProp_setProp, if_neg (fun he => by rw [he, visKey_kD] at hq; cases hq)]
          · rw [hnode2 j hj, hnode1 j hj]
        have hedges2 : ∀ j, edgeTargets (getNode t2 j) = edgeTargets (getNode u j) := by
          intro j
          exact edgeTargets_congr _ _ (hsk1 j true) (fun q hq => hsk2 j q hq)
        have hsc2 : scE t2 e = scE u e + 1 := by
          unfold scE
          rw [hlen2]
          refine sum_map_shift _ _ id 1 (List.range u.arena.length) (List.mem_range.2 hid)
            (List.nodup_range _) ?_ ?_
          · intro i _ hine
            rw [hkv2 i hine]
          · rw [if_pos hkv2id, if_neg hstid_u]
        have hInvt2 : invB t2 ∧ t2.vCur = e ∧ t2.arena.length = u.arena.length ∧
            (∀ j, getProp (getNode t2 j) kV = some (.num e) →
              getProp (getNode t2 j) kV = some (.num e)) ∧
            (∀ j b, nodeProps (getNode t2 j) b = nodeProps (getNode u j) b) ∧
            (∀ j q, visKey q = true →
              getProp (getNode t2 j) q = getProp (getNode u j) q) ∧
            (∀ i, ¬ getProp (getNode u i) kV = some (.num e) →
              getProp (getNode t2 i) kV = some (.num e) →
              i = id ∨ ∀ c ∈ edgeTargets (getNode u i),
                getProp (getNode t2 c) kV = some (.num e)) := by
          refine ⟨hB2, hvc2, hlen2, fun j hj => hj, hsk1, hsk2, ?_⟩
          intro i hiu hi2
          by_cases hie : i = id
          · exact Or.inl hie
          · rw [hkv2 i hie] at hi2
            exact (hiu hi2).elim
        have hstep : ∀ (tt : Trie) (p : Str), p ∈ nodeProps (getNode t2 id) true →
            (invB tt ∧ tt.vCur = e ∧ tt.arena.length = u.arena.length ∧
              (∀ j, getProp (getNode t2 j) kV = some (.num e) →
                getProp (getNode tt j) kV = some (.num e)) ∧
              (∀ j b, nodeProps (getNode tt j) b = nodeProps (getNode u j) b) ∧
              (∀ j q, visKey q = true →
                getProp (getNode tt j) q = getProp (getNode u j) q) ∧
              (∀ i, ¬ getProp (getNode u i) kV = some (.num e) →
                getProp (getNode tt i) kV = some (.num e) →
                i = id ∨ ∀ c ∈ edgeTargets (getNode u i),
                  getProp (getNode tt c) kV = some (.num e))) →
            ((invB (countDegree f tt (refIdOf (getProp (getNode tt id) p))) ∧
              (countDegree f tt (refIdOf (getProp (getNode tt id) p))).vCur = e ∧
              (countDegree f tt (refIdOf (getProp (getNode tt id) p))).arena.length =
                u.arena.length ∧
              (∀ j, getProp (getNode t2 j) kV = some (.num e) →
                getProp (getNode (countDegree f tt (refIdOf (getProp (getNode tt id) p)))
                  j) kV = some (.num e)) ∧
              (∀ j b, nodeProps (getNode (countDegree f tt (refIdOf (getProp
                (getNode tt id) p))) j) b = nodeProps (getNode u j) b) ∧
              (∀ j q, visKey q = true →
                getProp (getNode (countDegree f tt (refIdOf (getProp (getNode tt id) p)))
                  j) q = getProp (getNode u j) q) ∧
              (∀ i, ¬ getProp (getNode u i) kV = some (.num e) →
                getProp (getNode (countDegree f tt (refIdOf (getProp (getNode tt id) p)))
                  i) kV = some (.num e) →
                i = id ∨ ∀ c ∈ edgeTargets (getNode u i),
                  getProp (getNode (countDegree f tt (refIdOf (getProp (getNode tt id)
                    p))) c) kV = some (.num e))) ∧
              getProp (getNode (countDegree f tt (refIdOf (getProp (getNode tt id) p)))
                (refIdOf (getProp (getNode u id) p))) kV = some (.num e)) := by
          intro tt p hpm htt
          obtain ⟨htB, htvc, htlen, htmono, htsk1, htsk2, htP⟩ := htt
          have hpu : p ∈ nodeProps (getNode u id) true := by
            rw [← hsk1 id true]
            exact hpm
          rcases (mem_nodeProps_iff _ _ _).1 hpu with ⟨v, hvm, hvk, hobj⟩
          have hgpu : getProp (getNode u id) p = some v :=
            getProp_eq_of_mem _ _ _ (hB.2.1 id).1 hvm
          obtain ⟨c0, hc0⟩ : ∃ c0, v = Val.ref c0 := by
            cases v with
            | ref r => exact ⟨r, rfl⟩
            | num m => exact absurd (hobj rfl) (by simp [isObj])
            | str s => exact absurd (hobj rfl) (by simp [isObj])
            | undef => exact absurd (hobj rfl) (by simp [isObj])
          have hgpt : getProp (getNode tt id) p = some (Val.ref c0) := by
            rw [htsk2 id p hvk, hgpu, hc0]
          have hcid : refIdOf (getProp (getNode tt id) p) = c0 := by rw [hgpt]; rfl
          have hcidu : refIdOf (getProp (getNode u id) p) = c0 := by rw [hgpu, hc0]; rfl
          have hc0lt : c0 < tt.arena.length := by
            rw [htlen]
            exact (hB.2.1 id).2.2.1 (p, v) hvm c0 (by rw [hc0])
          have hbound : tt.arena.length + 1 ≤ f + scE tt e := by
            have h2 : scE t2 e ≤ scE tt e := by
              unfold scE
              rw [htlen, hlen2]
              exact sum_map_le _ _ _ (fun i _ => by
                by_cases hc : getProp (getNode t2 i) kV = some (.num e)
                · rw [if_pos hc, if_pos (htmono i hc)]
                · rw [if_neg hc]
                  omega)
            rw [hsc2] at h2
            rw [htlen]
            omega
          have hmonostep := cd_mono f tt (refIdOf (getProp (getNode tt id) p)) e htvc
          have hsk := cd_skel f tt (refIdOf (getProp (getNode tt id) p))
          refine ⟨⟨(countDegree_inv f tt _ htB).1, ?_, ?_, ?_, ?_, ?_, ?_⟩, ?_⟩
          · rw [hsk.2.1]
            exact htvc
          · rw [hsk.1]
            exact htlen
          · intro j hj
            exact hmonostep j (htmono j hj)
          · intro j b
            rw [hsk.2.2.1 j b]
            exact htsk1 j b
          · intro j q hq
            rw [hsk.2.2.2 j q hq]
            exact htsk2 j q hq
          · intro i hiu hinew
            by_cases hti : getProp (getNode tt i) kV = some (.num e)
            · rcases htP i hiu hti with hie | hch
              · exact Or.inl hie
              · right
                intro c hc
                exact hmonostep c (hch c hc)
            · right
              intro c hc
              have hcc : c ∈ edgeTargets (getNode tt i) := by
                rw [edgeTargets_congr _ _ (htsk1 i true) (fun q hq => htsk2 i q hq)]
                exact hc
              rw [hcid] at hinew ⊢
              exact ih tt c0 e htB hc0lt htvc hbound i hti hinew c hcc
          · rw [hcidu, hcid]
            refine cd_stamps_pos f tt c0 e ?_ htvc hc0lt
            have := scE_le tt e
            omega
        have hfE := foldl_establish
          (fun tt p => countDegree f tt (refIdOf (getProp (getNode tt id) p)))
          (fun tt => invB tt ∧ tt.vCur = e ∧ tt.arena.length = u.arena.length ∧
            (∀ j, getProp (getNode t2 j) kV = some (.num e) →
              getProp (getNode tt j) kV = some (.num e)) ∧
            (∀ j b, nodeProps (getNode tt j) b = nodeProps (getNode u j) b) ∧
            (∀ j q, visKey q = true →
              getProp (getNode tt j) q = getProp (getNode u j) q) ∧
            (∀ i, ¬ getProp (getNode u i) kV = some (.num e) →
              getProp (getNode tt i) kV = some (.num e) →
              i = id ∨ ∀ c ∈ edgeTargets (getNode u i),
                getProp (getNode tt c) kV = some (.num e)))
          (fun p tt => getProp (getNode tt (refIdOf (getProp (getNode u id) p))) kV =
            some (.num e))
          (nodeProps (getNode t2 id) true)
          (fun tt p hp htt => hstep tt p hp htt)
          (fun tt p p' hp htt hq => by
            exact cd_mono f tt (refIdOf (getProp (getNode tt id) p)) e htt.2.1 _ hq)
          t2 hInvt2
        obtain ⟨⟨_, _, _, _, _, _, hP⟩, hQ⟩ := hfE
        intro i hiu hif c hc
        by_cases hie : i = id
        · rw [hie] at hc
          rcases List.mem_map.1 hc with ⟨p, hpm, hpe⟩
          have hpm2 : p ∈ nodeProps (getNode t2 id) true := by
            rw [hsk1 id true]
            exact hpm
          have hfin : getProp (getNode ((nodeProps (getNode t2 id) true).foldl
              (fun tt p => countDegree f tt (refIdOf (getProp (getNode tt id) p))) t2)
              (refIdOf (getProp (getNode u id) p))) kV = some (.num e) := hQ p hpm2
          rw [hpe] at hfin
          exact hfin
        · rcases hP i hiu hif with hie2 | hch
          · exact absurd hie2 hie
          · exact hch c hc

/-- Every node in the closure ends up stamped by `countDegree` from the
root with the canonical fuel. -/
theorem reaches_stamped (u : Trie) (e : Nat) (hB : invB u) (hvc : u.vCur = e)
    (hnone : ∀ j, ¬ getProp (getNode u j) kV = some (.num e)) :
    ∀ j, Reaches u j →
      getProp (getNode (countDegree (graphFuel u) u 0) j) kV = some (.num e) := by
  intro j hr
  induction hr with
  | root =>
      exact cd_stamps_pos (graphFuel u) u 0 e (by unfold graphFuel; omega) hvc hB.1
  | step hri he ihp =>
      exact cd_done (graphFuel u) u 0 e hB hB.1 hvc (by unfold graphFuel; omega)
        _ (hnone _) ihp _ he

theorem nodup_bounded_len (seen : List Nat) (n : Nat) (hnd : seen.Nodup)
    (hb : ∀ x ∈ seen, x < n) : seen.length ≤ n := by
  have h1 : seen.length = seen.toFinset.card := (List.toFinset_card_of_nodup hnd).symm
  have h2 : seen.toFinset ⊆ Finset.range n := by
    intro x hx
    rw [List.mem_toFinset] at hx
    rw [Finset.mem_range]
    exact hb x hx
  rw [h1]
  calc seen.toFinset.card ≤ (Finset.range n).card := Finset.card_le_card h2
    _ = n := Finset.card_range n

theorem edgeTargets_lt (t : Trie) (hB : invB t) (j c : Nat)
    (hc : c ∈ edgeTargets (getNode t j)) : c < t.arena.length := by
  rcases List.mem_map.1 hc with ⟨p, hp, hpe⟩
  rcases (mem_nodeProps_iff _ _ _).1 hp with ⟨v, hvm, _, hobj⟩
  obtain ⟨c0, hc0⟩ : ∃ c0, v = Val.ref c0 := by
    cases v with
    | ref r => exact ⟨r, rfl⟩
    | num m => exact absurd (hobj rfl) (by simp [isObj])
    | str s => exact absurd (hobj rfl) (by simp [isObj])
    | undef => exact absurd (hobj rfl) (by simp [isObj])
  have hgp : getProp (getNode t j) p = some v :=
    getProp_eq_of_mem _ _ _ (hB.2.1 j).1 hvm
  have : c = c0 := by rw [← hpe, hgp, hc0]; rfl
  rw [this]
  exact (hB.2.1 j).2.2.1 (p, v) hvm c0 (by rw [hc0])

/-- Soundness of the reachability DFS: everything it collects beyond its
seed is in the closure. -/
theorem RF_sound : ∀ (fuel : Nat) (t : Trie) (id : Nat) (seen : List Nat),
    Reaches t id → ∀ x ∈ reachFrom fuel t id seen, x ∈ seen ∨ Reaches t x := by
  intro fuel
  induction fuel with
  | zero => intro t id seen _ x hx; exact Or.inl hx
  | succ f ih =>
      intro t id seen hrid x hx
      simp only [reachFrom] at hx
      by_cases hmem : id ∈ seen
      · rw [if_pos hmem] at hx
        exact Or.inl hx
      · rw [if_neg hmem] at hx
        have hfold := foldl_rel (fun s c => reachFrom f t c s)
          (fun s => ∀ y ∈ s, y ∈ seen ∨ Reaches t y)
          (edgeTargets (getNode t id)) (seen ++ [id])
          (by
            intro y hy
            rcases List.mem_append.1 hy with h1 | h2
            · exact Or.inl h1
            · rw [List.mem_singleton] at h2
              exact Or.inr (h2 ▸ hrid))
          (by
            intro s c hc hs y hy
            rcases ih t c s (Reaches.step hrid hc) y hy with h1 | h2
            · exact hs y h1
            · exact Or.inr h2)
        exact hfold x hx

/-- Completeness bookkeeping of the reachability DFS with sufficient
fuel: the result extends the seed, stays well-formed, contains the start,
and is closed under edges out of the new elements. -/
theorem RF_done : ∀ (fuel : Nat) (t : Trie) (id : Nat) (seen : List Nat),
    invB t → id < t.arena.length → seen.Nodup → (∀ x ∈ seen, x < t.arena.length) →
    t.arena.length + 1 ≤ fuel + seen.length →
    seen <+: reachFrom fuel t id seen ∧
    (reachFrom fuel t id seen).Nodup ∧
    (∀ x ∈ reachFrom fuel t id seen, x < t.arena.length) ∧
    id ∈ reachFrom fuel t id seen ∧
    (∀ i ∈ reachFrom fuel t id seen, i ∉ seen →
      ∀ c ∈ edgeTargets (getNode t i), c ∈ reachFrom fuel t id seen) := by
  intro fuel
  induction fuel with
  | zero =>
      intro t id seen _ _ hnd hb hfuel
      exact absurd hfuel (by have := nodup_bounded_len seen t.arena.length hnd hb; omega)
  | succ f ih =>
      intro t id seen hB hid hnd hb hfuel
      simp only [reachFrom]
      by_cases hmem : id ∈ seen
      · rw [if_pos hmem]
        exact ⟨List.prefix_refl seen, hnd, hb, hmem, fun i _ hin _ hc => (hin ‹i ∈ seen›).elim⟩
      · rw [if_neg hmem]
        have hnd0 : (seen ++ [id]).Nodup := by
          rw [List.nodup_append]
          exact ⟨hnd, List.nodup_singleton id, by
            intro a ha hbm
            rw [List.mem_singleton] at hbm
            exact hmem (hbm ▸ ha)⟩
        have hb0 : ∀ x ∈ seen ++ [id], x < t.arena.length := by
          intro x hx
          rcases List.mem_append.1 hx with h1 | h2
          · exact hb x h1
          · rw [List.mem_singleton] at h2
            exact h2 ▸ hid
        have hfE := foldl_establish (fun s c => reachFrom f t c s)
          (fun s => (seen ++ [id]) <+: s ∧ s.Nodup ∧
            (∀ x ∈ s, x < t.arena.length) ∧
            (∀ i ∈ s, i ∉ seen ++ [id] →
              ∀ c ∈ edgeTargets (getNode t i), c ∈ s))
          (fun c s => c ∈ s)
          (edgeTargets (getNode t id)) ?_ ?_ (seen ++ [id])
          ⟨List.prefix_refl _, hnd0, hb0, fun i _ hin _ _ => by
            exact (hin ‹i ∈ seen ++ [id]›).elim⟩
        · obtain ⟨⟨hpre, hndf, hbf, hcl⟩, hQ⟩ := hfE
          refine ⟨?_, hndf, hbf, ?_, ?_⟩
          · exact List.IsPrefix.trans ⟨[id], rfl⟩ hpre
          · exact hpre.subset (List.mem_append_right _ (List.mem_singleton.2 rfl))
          · intro i hi hin c hc
            by_cases hie : i = id
            · exact hQ c (by rw [← hie]; exact hc)
            · exact hcl i hi (by
                intro hmem2
                rcases List.mem_append.1 hmem2 with h1 | h2
                · exact hin h1
                · rw [List.mem_singleton] at h2
                  exact hie h2) c hc
        · intro s c hc hs
          obtain ⟨hp1, hp2, hp3, hp4⟩ := hs
          have hclt : c < t.arena.length := edgeTargets_lt t hB id c hc
          have hlen : seen.length + 1 ≤ s.length := by
            have := hp1.length_le
            rw [List.length_append, List.length_singleton] at this
            omega
          have hsub := ih t c s hB hclt hp2 hp3 (by omega)
          obtain ⟨hq1, hq2, hq3, hq4, hq5⟩ := hsub
          refine ⟨⟨hp1.trans hq1, hq2, hq3, ?_⟩, hq4⟩
          intro i hi hin c2 hc2
          by_cases his : i ∈ s
          · exact hq1.subset (hp4 i his hin c2 hc2)
          · exact hq5 i hi his c2 hc2
        · intro s c c' hc hs hq
          have hclt : c < t.arena.length := edgeTargets_lt t hB id c hc
          have hlen : seen.length + 1 ≤ s.length := by
            have := hs.1.length_le
            rw [List.length_append, List.length_singleton] at this
            omega
          have hsub := ih t c s hB hclt hs.2.1 hs.2.2.1 (by omega)
          exact hsub.1.subset hq

theorem sum_over_sub (len : Nat) (R : List Nat) (f : Nat → Nat)
    (hnd : R.Nodup) (hsub : ∀ x ∈ R, x < len)
    (hzero : ∀ j, j < len → j ∉ R → f j = 0) :
    ((List.range len).map f).sum = (R.map f).sum := by
  have h1 : (R.map f).sum = ∑ i ∈ R.toFinset, f i := (List.sum_toFinset f hnd).symm
  have h3 : (List.range len).toFinset = Finset.range len := by
    ext x
    simp [List.mem_range, Finset.mem_range]
  have h2 : ((List.range len).map f).sum = ∑ i ∈ Finset.range len, f i := by
    rw [← h3]
    exact (List.sum_toFinset f (List.nodup_range _)).symm
  rw [h1, h2]
  refine (Finset.sum_subset ?_ ?_).symm
  · intro x hx
    rw [List.mem_toFinset] at hx
    rw [Finset.mem_range]
    exact hsub x hx
  · intro x hx hnx
    rw [Finset.mem_range] at hx
    rw [List.mem_toFinset] at hnx
    exact hzero x hx hnx

/-- After `countDegree` inside `optimize`, a node is stamped exactly when
it is reachable from the root. -/
theorem canon_stamped_iff_reachable (ws : List Str) :
    ∀ j, getProp (getNode (canonCounted (build ws)) j) kV =
        some (.num (canonCounted (build ws)).vCur) ↔
      j ∈ reachable (canonCounted (build ws)) := by
  have hB0 : invB (build ws) := build_invB ws
  have hDV0 : noDV (build ws) := build_noDV ws
  have hB1 : invB (combineSuffixNode (graphFuel (build ws)) (build ws) 0).1 :=
    (combineSuffixNode_inv _ _ 0 hB0 hB0.1).1.1
  have hDV1 : noDV (combineSuffixNode (graphFuel (build ws)) (build ws) 0).1 :=
    noDV_combRel _ _ hDV0 (combineSuffixNode_inv _ _ 0 hB0 hB0.1).1
  set t2 := prepDFS (combineSuffixNode (graphFuel (build ws)) (build ws) 0).1 with ht2
  have hB2 : invB t2 := invB_prepDFS _ hB1
  have hDV2 : noDV t2 := hDV1
  have hnone : ∀ j, ¬ getProp (getNode t2 j) kV = some (.num t2.vCur) := by
    intro j h
    rw [(hDV2 j).2] at h
    cases h
  set t3 := countDegree (graphFuel t2) t2 0 with ht3
  have hcc : canonCounted (build ws) = t3 := rfl
  have hB3 : invB t3 := (countDegree_inv _ _ 0 hB2).1
  have hsk := cd_skel (graphFuel t2) t2 0
  have hvc3 : t3.vCur = t2.vCur := hsk.2.1
  have hedges : ∀ j, edgeTargets (getNode t3 j) = edgeTargets (getNode t2 j) := by
    intro j
    exact edgeTargets_congr _ _ (hsk.2.2.1 j true) (fun q hq => hsk.2.2.2 j q hq)
  rw [hcc]
  intro j
  constructor
  · intro hst
    -- stamped → in the closure of t2 → in the closure of t3 → collected by the DFS
    have hr2 : Reaches t2 j := by
      refine cd_reach (graphFuel t2) t2 0 t2 t2.vCur (fun _ _ => rfl)
        (fun _ _ _ => rfl) rfl (fun j2 hj2 => (hnone j2 hj2).elim) Reaches.root j ?_
      rw [← hvc3]
      exact hst
    have hr3 : Reaches t3 j := Reaches_congr t2 t3 hedges j hr2
    have hdone := RF_done (graphFuel t3) t3 0 [] hB3 hB3.1 List.nodup_nil
      (by intro x hx; cases hx) (by unfold graphFuel; simp)
    unfold reachable
    clear hst
    induction hr3 with
    | root => exact hdone.2.2.2.1
    | step hri he ihp =>
        exact hdone.2.2.2.2 _ (ihp (by
          exact Reaches_congr t3 t2 (fun j2 => (hedges j2).symm) _ hri))
          (by intro hx; cases hx) _ he
  · intro hrch
    -- collected → in the closure of t3 → in the closure of t2 → stamped
    have hr3 : Reaches t3 j := by
      rcases RF_sound (graphFuel t3) t3 0 [] Reaches.root j hrch with h1 | h2
      · cases h1
      · exact h2
    have hr2 : Reaches t2 j := Reaches_congr t3 t2 (fun j2 => (hedges j2).symm) j hr3
    rw [hvc3]
    exact reaches_stamped t2 t2.vCur hB2 rfl hnone j hr2

/-- The amended in-degree identity over the reachable nodes. -/
theorem canon_sum_reachable (ws : List Str) :
    sumD (canonCounted (build ws)) (reachable (canonCounted (build ws))) =
      edgeCount (canonCounted (build ws)) (reachable (canonCounted (build ws))) + 1 := by
  have hB0 : invB (build ws) := build_invB ws
  have hB1 : invB (combineSuffixNode (graphFuel (build ws)) (build ws) 0).1 :=
    (combineSuffixNode_inv _ _ 0 hB0 hB0.1).1.1
  set t2 := prepDFS (combineSuffixNode (graphFuel (build ws)) (build ws) 0).1 with ht2
  have hB2 : invB t2 := invB_prepDFS _ hB1
  have hDV2 : noDV t2 :=
    noDV_combRel _ _ (build_noDV ws) (combineSuffixNode_inv _ _ 0 hB0 hB0.1).1
  have hzero : ∀ j, ¬ getProp (getNode t2 j) kV = some (.num t2.vCur) →
      dVal (getNode t2 j) = 0 :=
    fun j _ => dVal_none _ (hDV2 j).1
  have hacct := countDegree_acct (graphFuel t2) t2 0 t2.vCur hB2 hB2.1 rfl
    (by unfold graphFuel; omega) hzero
  set t3 := countDegree (graphFuel t2) t2 0 with ht3
  have hcc : canonCounted (build ws) = t3 := rfl
  have hB3 : invB t3 := (countDegree_inv _ _ 0 hB2).1
  have hvc3 : t3.vCur = t2.vCur := (cd_skel (graphFuel t2) t2 0).2.1
  have hz3 : ∀ j, ¬ getProp (getNode t3 j) kV = some (.num t3.vCur) →
      dVal (getNode t3 j) = 0 := by
    intro j hj
    rw [hvc3] at hj
    exact hacct.2.2.1 j hj
  have hiff := canon_stamped_iff_reachable ws
  rw [hcc] at hiff
  have hRF := RF_done (graphFuel t3) t3 0 [] hB3 hB3.1 List.nodup_nil
    (by intro x hx; cases hx) (by unfold graphFuel; simp)
  have hRnd : (reachable t3).Nodup := hRF.2.1
  have hRb : ∀ x ∈ reachable t3, x < t3.arena.length := hRF.2.2.1
  have hsum_bridge : ((List.range t3.arena.length).map (fun j => dVal (getNode t3 j))).sum =
      ((reachable t3).map (fun j => dVal (getNode t3 j))).sum := by
    refine sum_over_sub _ _ _ hRnd hRb ?_
    intro j _ hnj
    apply hz3 j
    intro hst
    exact hnj ((hiff j).1 hst)
  have hedge_bridge : eSE t3 t3.vCur =
      ((reachable t3).map (fun j => (edgeTargets (getNode t3 j)).length)).sum := by
    unfold eSE
    have hcongr : ((List.range t3.arena.length).map (fun j =>
        if getProp (getNode t3 j) kV = some (.num t3.vCur) then
          (edgeTargets (getNode t3 j)).length else 0)).sum =
      ((List.range t3.arena.length).map (fun j =>
        if j ∈ reachable t3 then (edgeTargets (getNode t3 j)).length else 0)).sum := by
      refine congrArg _ (List.map_congr_left ?_)
      intro i _
      by_cases hc : getProp (getNode t3 i) kV = some (.num t3.vCur)
      · rw [if_pos hc, if_pos ((hiff i).1 hc)]
      · rw [if_neg hc, if_neg (fun hm => hc ((hiff i).2 hm))]
    rw [hcongr]
    have h2 := sum_over_sub t3.arena.length (reachable t3)
      (fun j => if j ∈ reachable t3 then (edgeTargets (getNode t3 j)).length else 0)
      hRnd hRb (fun j _ hnj => by
        show (if j ∈ reachable t3 then (edgeTargets (getNode t3 j)).length else 0) = 0
        rw [if_neg hnj])
    rw [h2]
    refine congrArg _ (List.map_congr_left ?_)
    intro i hi
    rw [if_pos hi]
  have hfinal : sumDAll t3 = eSE t3 t3.vCur + 1 := canon_acct ws
  rw [hcc, sumD_eq_sum, edgeCount_eq_sum, ← hsum_bridge]
  show sumDAll t3 = _
  rw [hfinal, hedge_bridge]

/-- C1 (amended): the final `collapseChains` pass inside `optimize`
preserves the result of `isWord` for every query word that does not
contain the bookkeeping namespace character `'_'` (membership of words
containing `'_'` can change, as the counterexample shows). -/
theorem C1_collapse_preserves_membership (ws : List Str) (w : Str) (hw : '_' ∉ w) :
    isWord (optimize (build ws)) w = isWord (preCollapse (build ws)) w :=
  collapse_membership ws w hw

theorem C1_witness : '_' ∉ strOf "ab" ∧
    isWord (optimize (build [strOf "abc", strOf "ab"])) (strOf "ab") =
      isWord (preCollapse (build [strOf "abc", strOf "ab"])) (strOf "ab") :=
  ⟨by decide, C1_collapse_preserves_membership [strOf "abc", strOf "ab"] (strOf "ab")
    (by decide)⟩

/-- C3 (amended): after `countDegree` has run over the canonicalized DAWG,
the sum of the in-degree fields over the reachable nodes equals the number
of directed edges out of them plus one: the initial call on the root
contributes one increment beyond the one-per-edge calls. -/
theorem C3_indegree_sum_edges_plus_one (ws : List Str) :
    sumD (canonCounted (build ws)) (reachable (canonCounted (build ws))) =
      edgeCount (canonCounted (build ws)) (reachable (canonCounted (build ws))) + 1 :=
  canon_sum_reachable ws

/-- C4 (amended): `collapseChains` fuses a child into its parent only when
the child carries a `_g` tag (plus the in-degree-1 or length-1 guard), and
a tagged child has exactly one visible property of any kind — a single
edge or a single inline terminal — and no terminal flag. -/
theorem C4_tagged_child_single_visible (fuel : Nat) (t : Trie) (cid : Nat) (g : Str)
    (hG : goodC t) (hcid : cid < t.arena.length)
    (htag : getProp (getNode (collapseChains fuel t cid) cid) kG = some (.str g)) :
    nodeProps (getNode (collapseChains fuel t cid) cid) false = [g] ∧
    isTerminal (getNode (collapseChains fuel t cid) cid) = false := by
  have h := (collapse_main fuel t cid hG hcid).1
  rcases h.2.1 cid (.str g) htag with ⟨g2, hg2, hprops, hterm⟩
  have hgg : g2 = g := by injection hg2 with h2; exact h2.symm
  rw [hgg] at hprops
  exact ⟨hprops, hterm⟩

theorem C4_witness :
    getProp (getNode (collapseChains (graphFuel (preCollapse (build [strOf "abc"])))
        (preCollapse (build [strOf "abc"])) 0) 0) kG = some (.str (strOf "abc")) ∧
    (nodeProps (getNode (collapseChains (graphFuel (preCollapse (build [strOf "abc"])))
        (preCollapse (build [strOf "abc"])) 0) 0) false = [strOf "abc"] ∧
      isTerminal (getNode (collapseChains (graphFuel (preCollapse (build [strOf "abc"])))
        (preCollapse (build [strOf "abc"])) 0) 0) = false) :=
  ⟨by decide, C4_tagged_child_single_visible _ _ 0 (strOf "abc")
    (preCollapse_goodC _ (build_invB _)) (preCollapse_invB _ (build_invB _)).1
    (by decide)⟩

/-- C6: in every state after any sequence of inserts, and still after the
whole `optimize` pass, the visible properties of every node (edge labels
and inline terminals alike) have pairwise distinct first characters. -/
theorem C6_first_char_unique (ws : List Str) (j : Nat) :
    fcu (getNode (build ws) j) ∧ fcu (getNode (optimize (build ws)) j) := by
  have hB := build_invB ws
  refine ⟨(hB.2.1 j).2.1, ?_⟩
  have hG := preCollapse_goodC _ hB
  have h0 := (preCollapse_invB _ hB).1
  rw [optimize_eq_collapse]
  exact ((collapse_main _ _ 0 hG h0).1.1.2 j).2.1


/-! ## Value discipline of '_'-free building (for re-insertion of members) -/

theorem commonPre_nil_left (k : Str) : commonPre [] k = [] := by
  cases k <;> rfl

theorem commonPre_self : ∀ (w : Str), commonPre w w = w := by
  intro w
  induction w with
  | nil => rfl
  | cons c cs ih => simp [commonPre, ih]

theorem commonPre_of_pre (w k : Str) (h : k.isPrefixOf w = true) :
    commonPre w k = k :=
  (commonPre_eq_right_iff w k).2 h

theorem find?_eq_of_sat_unique {α : Type} (l : List α) (p : α → Bool) (a : α)
    (ha : a ∈ l) (hpa : p a = true) (hu : ∀ b ∈ l, p b = true → b = a) :
    l.find? p = some a := by
  induction l with
  | nil => simp at ha
  | cons x xs ih =>
      by_cases hx : p x = true
      · have he : x = a := hu x (List.mem_cons_self x xs) hx
        subst he
        simp [List.find?, hx]
      · have hxf : p x = false := by
          cases hpx : p x with
          | true => exact absurd hpx hx
          | false => rfl
        have ha2 : a ∈ xs := by
          rcases List.mem_cons.1 ha with he | hm
          · rw [he] at hpa; exact absurd hpa hx
          · exact hm
        simp only [List.find?, hxf]
        exact ih ha2 (fun b hb hpb => hu b (List.mem_cons_of_mem x hb) hpb)

/-- A key matched by the raw scan of `_insert` (a key sharing its first
character with the `'_'`-free nonempty word) is a visible key with the
word's first character. -/
theorem match_key_visible (w k : Str) (hu : '_' ∉ w)
    (hkp : ¬ commonPre w k = []) : visKey k = true ∧ k.head? = w.head? := by
  have hwk : w.head? = k.head? := (commonPre_head w k hkp).2
  cases w with
  | nil => exact absurd (commonPre_nil_left k) hkp
  | cons c cs =>
      cases k with
      | nil => exact absurd (commonPre_nil_right (c :: cs)) hkp
      | cons kc ks =>
          refine ⟨?_, hwk.symm⟩
          have hkc : kc = c := by
            have := hwk.symm
            simpa using this
          have hcne : c ≠ '_' := fun he => hu (he ▸ List.mem_cons_self c cs)
          rw [hkc]
          simpa [visKey] using hcne

/-- With pairwise distinct first characters among the visible keys, the
raw key scan of `_insert` finds exactly the given matching key. -/
theorem insert_scan_eq (n : Node) (w k : Str) (hnd : ndKeys n) (hfc : fcu n)
    (hu : '_' ∉ w) (hk : k ∈ keysOf n) (hkp : ¬ commonPre w k = []) :
    (n.map (fun kv => kv.1)).find? (fun x => ¬ (commonPre w x) = []) = some k := by
  apply find?_eq_of_sat_unique _ _ k hk (by simpa using hkp)
  intro b hb hpb
  have hbp : ¬ commonPre w b = [] := by simpa using hpb
  have hkf := match_key_visible w k hu hkp
  have hbf := match_key_visible w b hu hbp
  by_cases he : b = k
  · exact he
  · exfalso
    have hkm : k ∈ visibleKeys n := (mem_visibleKeys_iff n k).2 ⟨hk, hkf.1⟩
    have hbm : b ∈ visibleKeys n := (mem_visibleKeys_iff n b).2 ⟨hb, hbf.1⟩
    exact pairwise_heads_ne (visibleKeys n) hfc (visibleKeys_nodup n hnd) b k hbm hkm he
      (hbf.2.trans hkf.2.symm)

theorem valShape_nil : valShape [] := by
  intro kv hkv
  simp at hkv

theorem valShape_setProp (n : Node) (k : Str) (v : Val) (h : valShape n)
    (h1 : k = [] → v = Val.num 1)
    (h2 : visKey k = true → v = Val.num 1 ∨ ∃ i, v = Val.ref i) :
    valShape (setProp n k v) := by
  intro kv hkv
  rcases mem_setProp n k v kv hkv with he | hmem
  · rw [he]
    exact ⟨h1, h2⟩
  · exact h kv hmem

theorem valShape_delProp (n : Node) (k : Str) (h : valShape n) :
    valShape (delProp n k) :=
  fun kv hkv => h kv (mem_delProp n k kv hkv)

theorem valsOk_setNode (t : Trie) (id : Nat) (n : Node) (h : valsOk t)
    (hn : valShape n) : valsOk (setNode t id n) := by
  intro j
  rw [getNode_setNode]
  by_cases hc : j = id ∧ j < t.arena.length
  · rw [if_pos hc]; exact hn
  · rw [if_neg hc]; exact h j

theorem valsOk_alloc (t : Trie) (h : valsOk t) : valsOk (alloc t).1 := by
  intro j
  rw [getNode_alloc]
  exact h j

theorem valsOk_trie0 : valsOk trie0 := by
  intro j
  rw [getNode_trie0]
  exact valShape_nil

theorem addTerminal_valsOk : ∀ (p : Str) (t : Trie) (id : Nat), valsOk t →
    valsOk (addTerminal t id p) := by
  intro p
  induction p with
  | nil =>
      intro t id h
      exact valsOk_setNode t id _ h
        (valShape_setProp _ _ _ (h id) (fun _ => rfl) (by intro hv; simp [visKey] at hv))
  | cons c rest ih =>
      intro t id h
      cases rest with
      | nil =>
          exact valsOk_setNode t id _ h
            (valShape_setProp _ _ _ (h id) (by simp) (fun _ => Or.inl rfl))
      | cons c2 r2 =>
          show valsOk (addTerminal (setNode (alloc t).1 id
            (setProp (getNode (alloc t).1 id) [c] (.ref (alloc t).2))) (alloc t).2 (c2 :: r2))
          refine ih _ _ ?_
          refine valsOk_setNode _ _ _ (valsOk_alloc t h) ?_
          exact valShape_setProp _ _ _ (valsOk_alloc t h id) (by simp)
            (fun _ => Or.inr ⟨_, rfl⟩)

theorem insertLowF_valsOk : ∀ (fuel : Nat) (t : Trie) (w : Str) (id : Nat),
    invB t → valsOk t → '_' ∉ w → valsOk (insertLowF fuel t w id) := by
  intro fuel
  induction fuel with
  | zero => intro t w id _ h _; exact h
  | succ f ih =>
      intro t w id hB h hu
      simp only [insertLowF]
      cases hf : ((getNode t id).map (fun kv => kv.1)).find?
          (fun k => ¬ (commonPre w k) = []) with
      | none =>
          show valsOk (addTerminal t id w)
          exact addTerminal_valsOk w t id h
      | some k =>
          have hkm : k ∈ keysOf (getNode t id) := List.mem_of_find?_eq_some hf
          have hkp : ¬ (commonPre w k) = [] := by
            have := List.find?_some hf
            simpa using this
          rcases getProp_of_mem_keys _ _ hkm with ⟨v, hv⟩
          have hvmem : (k, v) ∈ getNode t id := getProp_eq_some_mem _ _ _ hv
          simp only []
          by_cases h1 : k = commonPre w k ∧ (isObj ((getProp (getNode t id) k).getD .undef)) = true
          · rw [if_pos h1]
            exact ih t _ _ hB h (fun hmm => hu (List.mem_of_mem_drop hmm))
          · rw [if_neg h1]
            by_cases h2 : k = w ∧ (isNum ((getProp (getNode t id) k).getD .undef)) = true
            · rw [if_pos h2]; exact h
            · rw [if_neg h2]
              have hkvis : visKey k = true := (match_key_visible w k hu hkp).1
              have hsh4 : k.length ≤ 1 ∨ k = kC ∨ k = kD ∨ k = kV :=
                (hB.2.1 id).2.2.2 (k, v) hvmem
              have hsh : k.length ≤ 1 := by
                rcases hsh4 with hs | hs | hs | hs
                · exact hs
                · rw [hs] at hkvis
                  exact absurd hkvis (by rw [visKey_kC]; simp)
                · rw [hs] at hkvis
                  exact absurd hkvis (by rw [visKey_kD]; simp)
                · rw [hs] at hkvis
                  exact absurd hkvis (by rw [visKey_kV]; simp)
              have hkself : commonPre w k = k := by
                have hpre : (commonPre w k).isPrefixOf k = true := commonPre_pre_right w k
                rw [List.isPrefixOf_iff_prefix] at hpre
                apply hpre.eq_of_length
                have hlen1 : 1 ≤ (commonPre w k).length :=
                  Nat.one_le_iff_ne_zero.2 (fun hz => hkp (List.eq_nil_of_length_eq_zero hz))
                have hlen2 : (commonPre w k).length ≤ k.length := hpre.length_le
                omega
              have hvnum : v = Val.num 1 := by
                rcases (h id (k, v) hvmem).2 hkvis with hn | ⟨i, hi⟩
                · exact hn
                · exfalso
                  apply h1
                  refine ⟨hkself.symm, ?_⟩
                  have hi2 : v = Val.ref i := hi
                  rw [hv, hi2]
                  rfl
              have hV1 : valsOk (setNode (alloc t).1 (alloc t).2
                  (setProp (getNode (alloc t).1 (alloc t).2) (k.drop (commonPre w k).length)
                    ((getProp (getNode t id) k).getD .undef))) := by
                apply valsOk_setNode _ _ _ (valsOk_alloc t h)
                apply valShape_setProp _ _ _ (valsOk_alloc t h (alloc t).2)
                · intro _
                  rw [hv]
                  exact hvnum
                · intro _
                  left
                  rw [hv]
                  exact hvnum
              have hV2 : valsOk (addTerminal (setNode (alloc t).1 (alloc t).2
                  (setProp (getNode (alloc t).1 (alloc t).2) (k.drop (commonPre w k).length)
                    ((getProp (getNode t id) k).getD .undef))) (alloc t).2
                  (w.drop (commonPre w k).length)) :=
                addTerminal_valsOk _ _ _ hV1
              have hV3 : valsOk (setNode (addTerminal (setNode (alloc t).1 (alloc t).2
                  (setProp (getNode (alloc t).1 (alloc t).2) (k.drop (commonPre w k).length)
                    ((getProp (getNode t id) k).getD .undef))) (alloc t).2
                  (w.drop (commonPre w k).length)) id
                    (delProp (getNode (addTerminal (setNode (alloc t).1 (alloc t).2
                      (setProp (getNode (alloc t).1 (alloc t).2) (k.drop (commonPre w k).length)
                        ((getProp (getNode t id) k).getD .undef))) (alloc t).2
                      (w.drop (commonPre w k).length)) id) k)) :=
                valsOk_setNode _ _ _ hV2 (valShape_delProp _ _ (hV2 id))
              have hV4 : valsOk (setNode (setNode (addTerminal (setNode (alloc t).1 (alloc t).2
                  (setProp (getNode (alloc t).1 (alloc t).2) (k.drop (commonPre w k).length)
                    ((getProp (getNode t id) k).getD .undef))) (alloc t).2
                  (w.drop (commonPre w k).length)) id
                    (delProp (getNode (addTerminal (setNode (alloc t).1 (alloc t).2
                      (setProp (getNode (alloc t).1 (alloc t).2) (k.drop (commonPre w k).length)
                        ((getProp (getNode t id) k).getD .undef))) (alloc t).2
                      (w.drop (commonPre w k).length)) id) k)) id
                  (setProp (getNode (setNode (addTerminal (setNode (alloc t).1 (alloc t).2
                    (setProp (getNode (alloc t).1 (alloc t).2) (k.drop (commonPre w k).length)
                      ((getProp (getNode t id) k).getD .undef))) (alloc t).2
                    (w.drop (commonPre w k).length)) id
                      (delProp (getNode (addTerminal (setNode (alloc t).1 (alloc t).2
                        (setProp (getNode (alloc t).1 (alloc t).2) (k.drop (commonPre w k).length)
                          ((getProp (getNode t id) k).getD .undef))) (alloc t).2
                        (w.drop (commonPre w k).length)) id) k)) id)
                    (commonPre w k) (.ref (alloc t).2))) := by
                apply valsOk_setNode _ _ _ hV3
                apply valShape_setProp _ _ _ (hV3 id)
                · intro hc
                  exact absurd hc hkp
                · intro _
                  exact Or.inr ⟨_, rfl⟩
              exact hV4

theorem combineSuffixNode_valsOk :
    ∀ (fuel : Nat) (t : Trie) (id : Nat), valsOk t →
      valsOk (combineSuffixNode fuel t id).1 := by
  intro fuel
  induction fuel with
  | zero => intro t id h; exact h
  | succ f ih =>
      intro t id h
      simp only [combineSuffixNode]
      cases hc : truthy (getProp (getNode t id) kC) with
      | true => exact h
      | false =>
          simp only [Bool.false_eq_true, if_neg]
          have hfold : valsOk ((nodeProps (getNode t id) false).foldl
                (fun (acc : Trie × List Str) (p : Str) =>
                  let nn := getNode acc.1 id
                  match getProp nn p with
                  | some (.ref cid) =>
                      let r := combineSuffixNode f acc.1 cid
                      let t2 := setNode r.1 id (setProp (getNode r.1 id) p (.ref r.2))
                      let cv := match getProp (getNode t2 r.2) kC with
                        | some (.num m) => m
                        | _ => 0
                      (t2, acc.2 ++ [p, natToStr cv])
                  | _ => (acc.1, acc.2 ++ [p]))
                (t, if isTerminal (getNode t id) then [['!']] else [])).1 := by
            refine foldl_rel _ (fun acc : Trie × List Str => valsOk acc.1) _ _ h ?_
            intro b p hp hRb
            have hpvis : visKey p = true := by
              rcases (mem_nodeProps_iff _ _ _).1 hp with ⟨v, _, hvk, _⟩
              exact hvk
            simp only []
            cases hg : getProp (getNode b.1 id) p with
            | none => exact hRb
            | some v =>
                cases v with
                | num m => exact hRb
                | str s => exact hRb
                | undef => exact hRb
                | ref cid =>
                    have hr := ih b.1 cid hRb
                    apply valsOk_setNode _ _ _ hr
                    apply valShape_setProp _ _ _ (hr id)
                    · intro hpn
                      exact absurd hpn (visKey_ne_nil p hpvis)
                    · intro _
                      exact Or.inr ⟨_, rfl⟩
          generalize hgen : ((nodeProps (getNode t id) false).foldl
                (fun (acc : Trie × List Str) (p : Str) =>
                  let nn := getNode acc.1 id
                  match getProp nn p with
                  | some (.ref cid) =>
                      let r := combineSuffixNode f acc.1 cid
                      let t2 := setNode r.1 id (setProp (getNode r.1 id) p (.ref r.2))
                      let cv := match getProp (getNode t2 r.2) kC with
                        | some (.num m) => m
                        | _ => 0
                      (t2, acc.2 ++ [p, natToStr cv])
                  | _ => (acc.1, acc.2 ++ [p]))
                (t, if isTerminal (getNode t id) then [['!']] else [])) = fd
          rw [hgen] at hfold
          cases hlook : fd.1.suffixes.find? (fun kv => kv.1 = joinDash fd.2) with
          | some kv => exact hfold
          | none =>
              show valsOk (setNode { fd.1 with suffixes := fd.1.suffixes ++ [(joinDash fd.2, id)] } id
                (setProp (getNode { fd.1 with suffixes := fd.1.suffixes ++ [(joinDash fd.2, id)] } id)
                  kC (.num ({ fd.1 with suffixes := fd.1.suffixes ++ [(joinDash fd.2, id)] } : Trie).cNext)))
              apply valsOk_setNode _ _ _ (fun j => hfold j)
              apply valShape_setProp _ _ _ (hfold id)
              · intro hc2
                exact absurd hc2 (by simp [kC])
              · intro hv2
                exact absurd hv2 (by rw [visKey_kC]; simp)

theorem insert_valsOk (t : Trie) (w : Str) (hB : invB t) (h : valsOk t)
    (hu : '_' ∉ w) : valsOk (insert t w) := by
  unfold insert
  have h1 : valsOk (_insert t w 0) := insertLowF_valsOk _ t w 0 hB h hu
  have h2 : valsOk { _insert t w 0 with lastWord := w } := h1
  by_cases hpre : commonPre w t.lastWord = t.lastWord
  · rw [if_pos hpre]; exact h2
  · rw [if_neg hpre]
    cases hun : uniqueNode { _insert t w 0 with lastWord := w } t.lastWord w 0 with
    | none => exact h2
    | some fid => exact combineSuffixNode_valsOk _ _ fid h2

theorem build_valsOk (ws : List Str) (hws : ∀ w ∈ ws, '_' ∉ w) :
    valsOk (build ws) := by
  unfold build
  have h := foldl_rel insert (fun t => invB t ∧ valsOk t) ws trie0
    ⟨invB_trie0, valsOk_trie0⟩
    (fun t w hw ht => ⟨insert_invB t w ht.1, insert_valsOk t w ht.1 ht.2 (hws w hw)⟩)
  exact h.2

/-! ## Re-inserting a member word is a heap no-op -/

theorem set_getD_self (l : List Node) : ∀ (i : Nat), l.set i (l.getD i []) = l := by
  induction l with
  | nil => intro i; rfl
  | cons a tl ih =>
      intro i
      cases i with
      | zero => simp [List.set, List.getD]
      | succ j =>
          simp only [List.set, List.getD_cons_succ]
          rw [ih j]

theorem setNode_self (t : Trie) (id : Nat) : setNode t id (getNode t id) = t := by
  show { t with arena := t.arena.set id (t.arena.getD id []) } = t
  rw [set_getD_self]

/-- Rewriting the terminal property with its invariant value changes
nothing. -/
theorem setProp_terminal_self (n : Node) (h : valShape n)
    (hk : [] ∈ keysOf n) : setProp n [] (Val.num 1) = n := by
  unfold setProp
  rw [if_pos ((any_key_iff n []).2 hk)]
  have hcong : ∀ kv ∈ n,
      (if kv.1 = [] then (([] : Str), Val.num 1) else kv) = id kv := by
    intro kv hkv
    by_cases he : kv.1 = []
    · rw [if_pos he]
      have h1 := (h kv hkv).1 he
      cases kv with
      | mk a b =>
          simp only at he h1
          rw [he, h1]
          rfl
    · rw [if_neg he]
      rfl
  rw [List.map_congr_left hcong, List.map_id]

theorem isFragmentF_arena : ∀ (fuel : Nat) (t1 t2 : Trie), t1.arena = t2.arena →
    ∀ (w : Str) (id : Nat), isFragmentF fuel t1 w id = isFragmentF fuel t2 w id := by
  intro fuel
  induction fuel with
  | zero => intro t1 t2 _ w id; rfl
  | succ f ih =>
      intro t1 t2 ha w id
      have hn : getNode t1 id = getNode t2 id := by
        unfold getNode
        rw [ha]
      simp only [isFragmentF]
      rw [hn]
      by_cases hw : w = []
      · rw [if_pos hw, if_pos hw]
      · rw [if_neg hw, if_neg hw]
        by_cases hraw : getProp (getNode t2 id) w = some (.num 1)
        · rw [if_pos hraw, if_pos hraw]
        · rw [if_neg hraw, if_neg hraw]
          cases hfd : (nodeProps (getNode t2 id) true).find? (fun p => p.isPrefixOf w) with
          | none => rfl
          | some p =>
              show isFragmentF f t1 (w.drop p.length) (refIdOf (getProp (getNode t2 id) p)) =
                isFragmentF f t2 (w.drop p.length) (refIdOf (getProp (getNode t2 id) p))
              exact ih t1 t2 ha _ _

theorem isWord_arena (t1 t2 : Trie) (ha : t1.arena = t2.arena) (q : Str) :
    isWord t1 q = isWord t2 q :=
  isFragmentF_arena _ t1 t2 ha q 0

theorem insert_pre_eq (t : Trie) (w : Str) (h : commonPre w t.lastWord = t.lastWord) :
    insert t w = { _insert t w 0 with lastWord := w } := by
  unfold insert
  rw [if_pos h]

theorem member_walk_eq : ∀ (fuel : Nat) (t : Trie) (w : Str) (id : Nat),
    invB t → valsOk t → '_' ∉ w → isFragmentF fuel t w id = true →
    insertLowF fuel t w id = t ∨
      insertLowF fuel t w id = { t with wordCount := t.wordCount + 1 } := by
  intro fuel
  induction fuel with
  | zero =>
      intro t w id _ _ _ hm
      simp [isFragmentF] at hm
  | succ f ih =>
      intro t w id hB hV hu hm
      simp only [isFragmentF] at hm
      by_cases hw : w = []
      · rw [if_pos hw] at hm
        subst hw
        have hfind : ((getNode t id).map (fun kv => kv.1)).find?
            (fun x => ¬ (commonPre [] x) = []) = none := by
          rw [List.find?_eq_none]
          intro x hx
          simp [commonPre_nil_left]
        simp only [insertLowF]
        rw [hfind]
        right
        have htv : ∃ v, getProp (getNode t id) [] = some v := by
          unfold isTerminal at hm
          cases hg : getProp (getNode t id) [] with
          | none => rw [hg] at hm; exact absurd hm (by simp [truthy])
          | some v => exact ⟨v, rfl⟩
        rcases htv with ⟨v, hg⟩
        have hmem : (([] : Str), v) ∈ getNode t id := getProp_eq_some_mem _ _ _ hg
        have hkeys : ([] : Str) ∈ keysOf (getNode t id) := List.mem_map.2 ⟨_, hmem, rfl⟩
        have hAT : addTerminal t id [] = t := by
          show setNode t id (setProp (getNode t id) [] (.num 1)) = t
          rw [setProp_terminal_self _ (hV id) hkeys, setNode_self]
        show { addTerminal t id [] with
          wordCount := (addTerminal t id []).wordCount + 1 } = _
        rw [hAT]
      · rw [if_neg hw] at hm
        by_cases hraw : getProp (getNode t id) w = some (.num 1)
        · left
          have hmem : (w, Val.num 1) ∈ getNode t id := getProp_eq_some_mem _ _ _ hraw
          have hkeys : w ∈ keysOf (getNode t id) := List.mem_map.2 ⟨_, hmem, rfl⟩
          have hkp : ¬ commonPre w w = [] := by
            rw [commonPre_self]
            exact hw
          have hfind := insert_scan_eq (getNode t id) w w (hB.2.1 id).1 (hB.2.1 id).2.1
            hu hkeys hkp
          simp only [insertLowF]
          cases hf : ((getNode t id).map (fun kv => kv.1)).find?
              (fun x => ¬ (commonPre w x) = []) with
          | none =>
              rw [hf] at hfind
              exact absurd hfind (by simp)
          | some k =>
              have hkw : k = w := by
                rw [hf] at hfind
                simpa using hfind
              simp only []
              rw [hkw]
              have hc1 : ¬ (w = commonPre w w ∧
                  (isObj ((getProp (getNode t id) w).getD .undef)) = true) := by
                intro hc
                have h2 := hc.2
                rw [hraw] at h2
                exact absurd h2 (by simp [isObj])
              rw [if_neg hc1]
              have hc2 : w = w ∧ (isNum ((getProp (getNode t id) w).getD .undef)) = true :=
                ⟨rfl, by rw [hraw]; rfl⟩
              rw [if_pos hc2]
        · cases hfd : (nodeProps (getNode t id) true).find? (fun p => p.isPrefixOf w) with
          | none =>
              rw [if_neg hraw, hfd] at hm
              simp at hm
          | some p =>
              rw [if_neg hraw, hfd] at hm
              have hm2 : isFragmentF f t (w.drop p.length)
                  (refIdOf (getProp (getNode t id) p)) = true := hm
              have hpm := List.mem_of_find?_eq_some hfd
              have hppre : p.isPrefixOf w = true := by
                have := List.find?_some hfd
                simpa using this
              rcases (mem_nodeProps_iff _ _ _).1 hpm with ⟨v, hvmem, hvis, hobj⟩
              have hgv : getProp (getNode t id) p = some v :=
                mem_getProp_eq_some _ _ _ (hB.2.1 id).1 hvmem
              have hobj2 : isObj v = true := hobj rfl
              have hkeys : p ∈ keysOf (getNode t id) := List.mem_map.2 ⟨_, hvmem, rfl⟩
              have hcp : commonPre w p = p := commonPre_of_pre w p hppre
              have hkp : ¬ commonPre w p = [] := by
                rw [hcp]
                exact visKey_ne_nil p hvis
              have hfind := insert_scan_eq (getNode t id) w p (hB.2.1 id).1 (hB.2.1 id).2.1
                hu hkeys hkp
              simp only [insertLowF]
              cases hf : ((getNode t id).map (fun kv => kv.1)).find?
                  (fun x => ¬ (commonPre w x) = []) with
              | none =>
                  rw [hf] at hfind
                  exact absurd hfind (by simp)
              | some k =>
                  have hkp2 : k = p := by
                    rw [hf] at hfind
                    simpa using hfind
                  simp only []
                  rw [hkp2]
                  have hcA : p = commonPre w p ∧
                      (isObj ((getProp (getNode t id) p).getD .undef)) = true := by
                    refine ⟨hcp.symm, ?_⟩
                    rw [hgv]
                    cases v with
                    | ref i => rfl
                    | num m => simp [isObj] at hobj2
                    | str s => simp [isObj] at hobj2
                    | undef => simp [isObj] at hobj2
                  rw [if_pos hcA]
                  rw [hcp]
                  have hu2 : '_' ∉ w.drop p.length :=
                    fun hmm => hu (List.mem_of_mem_drop hmm)
                  exact ih t (w.drop p.length) (refIdOf (getProp (getNode t id) p)) hB hV hu2 hm2

/-- C8 counterexample: re-inserting a word that is already in the
dictionary can change membership.  After building from
["a", "x1c", "y1", "y2", "wz11c"] both "a" and "wz11c" are members, yet
inserting the duplicate "a" again flips `isWord "wz11c"` to false: the
duplicate arrives when the last word is not a prefix of it, so the
freeze step runs `combineSuffixNode` on the subtree of the previous
word, and the '-'-joined signature collision replaces an interior node
by a wrong registered node. -/
theorem C8_counterexample_duplicate_freeze_flip :
    isWord (build [strOf "a", strOf "x1c", strOf "y1", strOf "y2", strOf "wz11c"])
      (strOf "a") = true ∧
    isWord (build [strOf "a", strOf "x1c", strOf "y1", strOf "y2", strOf "wz11c"])
      (strOf "wz11c") = true ∧
    isWord (insert (build [strOf "a", strOf "x1c", strOf "y1", strOf "y2", strOf "wz11c"])
      (strOf "a")) (strOf "wz11c") = false := by
  decide

/-- C8 (amended): re-inserting a word that is already a member of a
well-formed `'_'`-free state leaves the heap untouched by `_insert`
(the walk ends in the duplicate branch, or re-marks the already-set
terminal), so when no freeze fires — the previous word is a prefix of
the new one, as with immediately repeated words — the whole `insert`
preserves membership for every query word.  Any membership change from
a duplicate insert comes solely from the freeze step, as the
counterexample shows. -/
theorem C8_member_reinsert_harmless (t : Trie) (w : Str) (hB : invB t)
    (hvs : valsOk t) (hu : '_' ∉ w) (hm : isWord t w = true) :
    (_insert t w 0).arena = t.arena ∧
    (commonPre w t.lastWord = t.lastWord →
      ∀ q, isWord (insert t w) q = isWord t q) := by
  have hwalk := member_walk_eq (w.length + 1) t w 0 hB hvs hu hm
  have harena : (_insert t w 0).arena = t.arena := by
    unfold _insert
    rcases hwalk with he | he
    · rw [he]
    · rw [he]
  refine ⟨harena, ?_⟩
  intro hpre q
  rw [insert_pre_eq t w hpre]
  exact isWord_arena { _insert t w 0 with lastWord := w } t harena q

/-- C8 witness: the spec's own example word "foo", re-inserted right
after itself. -/
theorem C8_witness :
    (isWord (build [strOf "foo"]) (strOf "foo") = true ∧
     commonPre (strOf "foo") (build [strOf "foo"]).lastWord =
       (build [strOf "foo"]).lastWord) ∧
    isWord (insert (build [strOf "foo"]) (strOf "foo")) (strOf "fo") =
      isWord (build [strOf "foo"]) (strOf "fo") :=
  ⟨⟨by decide, by decide⟩,
   (C8_member_reinsert_harmless (build [strOf "foo"]) (strOf "foo") (build_invB _)
      (build_valsOk _ (by decide)) (by decide) (by decide)).2 (by decide) (strOf "fo")⟩

end TrieHard
